import Mathlib

/-!
# PBX telephone exchange: the call-state engine

A shallow embedding of `src/src/tu.c` and `src/src/pbx.c`, and of the service
loop of `src/src/server.c`.

* A `TU *` is an address (`Ptr`); a nullable pointer is an `Option Ptr`.
  The heap maps an address to the `struct tu` stored there, and to `none`
  once the block has been released by `free`.
* Every function returns an `Option`: `none` stands for undefined behaviour
  (a dereference of `NULL` or of a released block).
* The C `int` fields are unbounded integers: the reference count and the
  extension stay far away from the limits of `int`.
* `write(2)` is the environment.  Its outcomes are read from a script held in
  the world, one entry for each call; once the script is used up the stream
  accepts every buffer whole.  The bytes a stream has accepted are kept next
  to the descriptor that owns it, in the field `sink`.
* Mutex operations are recorded in a trace; locking the mutex of a `TU`
  dereferences that `TU`.
* A line read by `getline` is a list of bytes; the functions of the C library
  read it as a C string, up to the first NUL.  `atoi` has no result for a
  number that an `int` cannot hold.
-/

namespace Pbx

/-- Modelled from the spec: the enumeration `TU_STATE` is declared in a header
that is not part of the sources; section 3 of the specification lists its seven states. -/
inductive TU_STATE
  | TU_ON_HOOK
  | TU_RINGING
  | TU_DIAL_TONE
  | TU_RING_BACK
  | TU_BUSY_SIGNAL
  | TU_CONNECTED
  | TU_ERROR
  deriving DecidableEq, Repr

open TU_STATE

/-- An address of a `struct tu`. -/
abbrev Ptr := Nat

/-- The record `struct tu` of `tu.c`.  The mutex lives in the lock trace of the
world; `sink` holds the bytes accepted so far by the stream behind `fd`. -/
structure TU where
  ext : Int
  fd : Int
  refs : Int
  peer : Option Ptr
  state : TU_STATE
  sink : List Char
  deriving DecidableEq, Repr

/-- The record `struct pbx` of `pbx.c` (mutex and condition variable apart). -/
structure PBX where
  extensions : Nat → Option Ptr
  shutdown_in_progress : Bool
  active_tus : Int

/-- What one call of `write(2)` does: accept at most `n` of the offered bytes,
fail with `EINTR`, or fail with another error. -/
inductive WriteOutcome
  | accept (n : Nat)
  | eintr
  | fail
  deriving DecidableEq, Repr

/-- The mutexes of the program: the one of the registry and one for each TU. -/
inductive Mutex
  | pbx
  | tu (p : Ptr)
  deriving DecidableEq, Repr

/-- An entry of the lock trace. -/
inductive LockEvent
  | acquire (m : Mutex)
  | release (m : Mutex)
  deriving DecidableEq, Repr

/-- The whole program state. -/
structure World where
  heap : Ptr → Option TU
  pbx : PBX
  script : List WriteOutcome
  locks : List LockEvent

/-- The call `pthread_mutex_lock(&m)`; the mutex of a TU lives inside the TU. -/
def mutex_lock (w : World) (m : Mutex) : Option World :=
  match m with
  | .pbx => some { w with locks := w.locks ++ [.acquire .pbx] }
  | .tu p =>
    match w.heap p with
    | none => none
    | some _ => some { w with locks := w.locks ++ [.acquire (.tu p)] }

/-- The call `pthread_mutex_unlock(&m)`. -/
def mutex_unlock (w : World) (m : Mutex) : Option World :=
  match m with
  | .pbx => some { w with locks := w.locks ++ [.release .pbx] }
  | .tu p =>
    match w.heap p with
    | none => none
    | some _ => some { w with locks := w.locks ++ [.release (.tu p)] }

/-- An assignment to fields of the TU at `p`: `p->field = value`. -/
def modify (w : World) (p : Ptr) (f : TU → TU) : Option World :=
  match w.heap p with
  | none => none
  | some t => some { w with heap := Function.update w.heap p (some (f t)) }

/-- The conversion `%d` of `printf`. -/
def fmt_d (e : Int) : List Char :=
  match e with
  | .ofNat n => Nat.toDigits 10 n
  | .negSucc n => '-' :: Nat.toDigits 10 (n + 1)

/-- The loop `while (remaining > 0) { written = write(fd, ptr, remaining); ... }`
of `notify_state` and `tu_chat`: restart on `EINTR`, give up with `-1` on any
other error and on a write of zero bytes, advance by the bytes written.
Returns the rest of the script, the content of the stream and `0` or `-1`. -/
def write_loop : List WriteOutcome → List Char → List Char → List WriteOutcome × List Char × Int
  | [], buf, sink => ([], sink ++ buf, 0)
  | o :: s, buf, sink =>
    if buf = [] then (o :: s, sink, 0)
    else
      match o with
      | .eintr => write_loop s buf sink
      | .fail => (s, sink, -1)
      | .accept n =>
        if n = 0 then (s, sink, -1)
        else write_loop s (buf.drop n) (sink ++ buf.take n)

/-- The text chosen by `notify_state` for the TU `t`; the buffer `temp[256]`
is never filled by `ON HOOK` or `CONNECTED` followed by an `int`. -/
def state_msg (w : World) (t : TU) : Option (List Char) :=
  match t.state with
  | TU_ON_HOOK => some ("ON HOOK ".toList ++ fmt_d t.ext ++ "\r\n".toList)
  | TU_RINGING => some "RINGING\r\n".toList
  | TU_DIAL_TONE => some "DIAL TONE\r\n".toList
  | TU_RING_BACK => some "RING BACK\r\n".toList
  | TU_BUSY_SIGNAL => some "BUSY SIGNAL\r\n".toList
  | TU_CONNECTED =>
    match t.peer with
    | some q =>
      match w.heap q with
      | some u => some ("CONNECTED ".toList ++ fmt_d u.ext ++ "\r\n".toList)
      | none => none
    | none => some ("CONNECTED ".toList ++ fmt_d (-1) ++ "\r\n".toList)
  | TU_ERROR => some "ERROR\r\n".toList

/-- The function `notify_state` of `tu.c`. -/
def notify_state (w : World) (x : Option Ptr) : Option (World × Int) :=
  match x with
  | none => some (w, -1)
  | some p =>
    match w.heap p with
    | none => none
    | some t =>
      match state_msg w t with
      | none => none
      | some msg =>
        let r := write_loop w.script msg t.sink
        some ({ w with heap := Function.update w.heap p (some { t with sink := r.2.1 }),
                       script := r.1 }, r.2.2)

/-- The function `tu_ref` of `tu.c`. -/
def tu_ref (w : World) (tu : Option Ptr) : Option World :=
  match tu with
  | none => some w
  | some p => modify w p (fun t => { t with refs := t.refs + 1 })

/-- The function `tu_unref` of `tu.c`: at zero the descriptor is closed and the
block is released. -/
def tu_unref (w : World) (tu : Option Ptr) : Option World :=
  match tu with
  | none => some w
  | some p =>
    match w.heap p with
    | none => none
    | some t =>
      if t.refs - 1 = 0 then some { w with heap := Function.update w.heap p none }
      else some { w with heap := Function.update w.heap p (some { t with refs := t.refs - 1 }) }

/-- The two lines `if (first_lock != second_lock) unlock(second); unlock(first);`. -/
def unlock_pair (w : World) (first_lock second_lock : Ptr) : Option World :=
  (if first_lock ≠ second_lock then mutex_unlock w (.tu second_lock) else some w).bind
    fun w => mutex_unlock w (.tu first_lock)

/-- The two lines `lock(first); if (first_lock != second_lock) lock(second);`. -/
def lock_pair (w : World) (first_lock second_lock : Ptr) : Option World :=
  (mutex_lock w (.tu first_lock)).bind
    fun w => if first_lock ≠ second_lock then mutex_lock w (.tu second_lock) else some w

/-- The busy exit of `tu_dial`, taken when the target is paired or off hook and,
with the same statements, when the caller dials itself. -/
def dial_busy (w : World) (t : Ptr) (first_lock second_lock : Ptr) : Option (World × Int) := do
  let w ← modify w t (fun x => { x with state := TU_BUSY_SIGNAL })
  let (w, _) ← notify_state w (some t)
  let w ← unlock_pair w first_lock second_lock
  some (w, 0)

/-- The last part of `tu_dial`, from the comment `both TUs are free and target
is ON_HOOK` on. -/
def dial_ring (w : World) (t u : Ptr) (first_lock second_lock : Ptr) : Option (World × Int) := do
  let w ← modify w t (fun x => { x with peer := some u })
  let w ← modify w u (fun x => { x with peer := some t })
  let w ← tu_ref w (some t)
  let w ← tu_ref w (some u)
  let w ← modify w t (fun x => { x with state := TU_RING_BACK })
  let w ← modify w u (fun x => { x with state := TU_RINGING })
  let (w, _) ← notify_state w (some t)
  let (w, _) ← notify_state w (some u)
  let w ← unlock_pair w first_lock second_lock
  some (w, 0)

/-- The function `tu_dial` of `tu.c`. -/
def tu_dial (w : World) (tu target : Option Ptr) : Option (World × Int) :=
  match tu with
  | none => some (w, -1)
  | some t =>
    match target with
    | none => do
      let w ← mutex_lock w (.tu t)
      let w ← modify w t (fun x => { x with state := TU_ERROR })
      let (w, _) ← notify_state w (some t)
      let w ← mutex_unlock w (.tu t)
      some (w, -1)
    | some u => do
      let first_lock := if t < u then t else u
      let second_lock := if t < u then u else t
      let w ← lock_pair w first_lock second_lock
      let U ← w.heap u
      if U.peer ≠ none ∨ U.state ≠ TU_ON_HOOK then
        dial_busy w t first_lock second_lock
      else if t = u then
        dial_busy w t first_lock second_lock
      else
        dial_ring w t u first_lock second_lock

/-- The `TU_RINGING` case of `tu_pickup`, from the locking of the pair on. -/
def pickup_pair (w : World) (t u : Ptr) (first_lock second_lock : Ptr) : Option (World × Int) := do
  let w ← lock_pair w first_lock second_lock
  let w ← modify w t (fun x => { x with state := TU_CONNECTED })
  let w ← modify w u (fun x => { x with state := TU_CONNECTED })
  let (w, _) ← notify_state w (some t)
  let (w, _) ← notify_state w (some u)
  let w ← unlock_pair w first_lock second_lock
  some (w, 0)

/-- The function `tu_pickup` of `tu.c`.  With a `NULL` peer in the `RINGING`
case `first_lock` is `NULL` and its mutex is locked. -/
def tu_pickup (w : World) (tu : Option Ptr) : Option (World × Int) :=
  match tu with
  | none => some (w, -1)
  | some t => do
    let w ← mutex_lock w (.tu t)
    let T ← w.heap t
    let state := T.state
    let peer := T.peer
    match state with
    | TU_ON_HOOK => do
      let w ← modify w t (fun x => { x with state := TU_DIAL_TONE })
      let (w, _) ← notify_state w (some t)
      let w ← mutex_unlock w (.tu t)
      some (w, 0)
    | TU_RINGING => do
      let w ← mutex_unlock w (.tu t)
      match peer with
      | none => none
      | some u => do
        let first_lock := if t < u then t else u
        let second_lock := if t < u then u else t
        pickup_pair w t u first_lock second_lock
    | _ => do
      let (w, _) ← notify_state w (some t)
      let w ← mutex_unlock w (.tu t)
      some (w, 0)

/-- The release of a pair in `tu_hangup`: both branches of the re-check run the
same statements, with `TU_ON_HOOK` or `TU_DIAL_TONE` as the new state of the peer. -/
def hangup_pair (w : World) (t u : Ptr) (peer_state : TU_STATE) (first_lock second_lock : Ptr) :
    Option (World × Int) := do
  let w ← modify w t (fun x => { x with state := TU_ON_HOOK })
  let w ← modify w t (fun x => { x with peer := none })
  let w ← modify w u (fun x => { x with state := peer_state })
  let w ← modify w u (fun x => { x with peer := none })
  let w ← tu_unref w (some u)
  let w ← tu_unref w (some t)
  let (w, _) ← notify_state w (some t)
  let (w, _) ← notify_state w (some u)
  let w ← unlock_pair w first_lock second_lock
  some (w, 0)

/-- The function `tu_hangup` of `tu.c`.  With a `NULL` peer in one of the three
paired cases `first_lock` is `NULL` and its mutex is locked. -/
def tu_hangup (w : World) (tu : Option Ptr) : Option (World × Int) :=
  match tu with
  | none => some (w, -1)
  | some t => do
    let T ← w.heap t
    let state := T.state
    let conn_peer := T.peer
    if state = TU_CONNECTED ∨ state = TU_RINGING ∨ state = TU_RING_BACK then
      match conn_peer with
      | none => none
      | some u => do
        let first_lock := if t < u then t else u
        let second_lock := if t < u then u else t
        let w ← lock_pair w first_lock second_lock
        let T1 ← w.heap t
        let recheck_state := T1.state
        if recheck_state = TU_RING_BACK then
          hangup_pair w t u TU_ON_HOOK first_lock second_lock
        else if recheck_state = TU_RINGING ∨ recheck_state = TU_CONNECTED then
          hangup_pair w t u TU_DIAL_TONE first_lock second_lock
        else do
          let (w, _) ← notify_state w (some t)
          let w ← unlock_pair w first_lock second_lock
          some (w, -1)
    else if state = TU_DIAL_TONE ∨ state = TU_BUSY_SIGNAL ∨ state = TU_ERROR then do
      let w ← mutex_lock w (.tu t)
      let w ← modify w t (fun x => { x with state := TU_ON_HOOK })
      let (w, _) ← notify_state w (some t)
      let w ← mutex_unlock w (.tu t)
      some (w, 0)
    else do
      let w ← mutex_lock w (.tu t)
      let (w, _) ← notify_state w (some t)
      let w ← mutex_unlock w (.tu t)
      some (w, 0)

/-- The call `snprintf(temp, size, ...)`: at most `size - 1` characters of the
formatted text are stored. -/
def snprintf (size : Nat) (text : List Char) : List Char :=
  text.take (size - 1)

/-- The function `tu_chat` of `tu.c`.  With a `NULL` peer `first_lock` is `NULL`:
the mutex of `tu` is released and the one of `NULL` is locked.  Both failure
exits of the write loop notify `tu` and return `-1`. -/
def tu_chat (w : World) (tu : Option Ptr) (msg : List Char) : Option (World × Int) :=
  match tu with
  | none => some (w, -1)
  | some t => do
    let w ← mutex_lock w (.tu t)
    let T ← w.heap t
    match T.peer with
    | none => none
    | some u => do
      let first_lock := if t < u then t else u
      let second_lock := if t < u then u else t
      let w ←
        if first_lock = t then
          (if second_lock ≠ first_lock then mutex_lock w (.tu second_lock) else some w)
        else do
          let w ← mutex_unlock w (.tu t)
          lock_pair w first_lock second_lock
      let temp := snprintf 1024 ("CHAT ".toList ++ msg ++ "\r\n".toList)
      let U ← w.heap u
      let r := write_loop w.script temp U.sink
      let w := { w with heap := Function.update w.heap u (some { U with sink := r.2.1 }),
                        script := r.1 }
      if r.2.2 < 0 then do
        let (w, _) ← notify_state w (some t)
        let w ← unlock_pair w first_lock second_lock
        some (w, -1)
      else do
        let (w, _) ← notify_state w (some t)
        let w ← unlock_pair w first_lock second_lock
        some (w, 0)

/-- One call of `write(2)`: the rest of the script, the content of the stream
and the value returned (`-1` on `EINTR` and on any other error). -/
def sys_write : List WriteOutcome → List Char → List Char → List WriteOutcome × List Char × Int
  | [], buf, sink => ([], sink ++ buf, buf.length)
  | .accept n :: s, buf, sink => (s, sink ++ buf.take n, (buf.take n).length)
  | .eintr :: s, _, sink => (s, sink, -1)
  | .fail :: s, _, sink => (s, sink, -1)

/-- The function `tu_init` of `tu.c`; `block` is what `malloc` returns. -/
def tu_init (w : World) (fd : Int) (block : Option Ptr) : World × Option Ptr :=
  if fd < 0 then (w, none)
  else
    match block with
    | none => (w, none)
    | some p =>
      let t : TU :=
        { ext := -1, fd := fd, refs := 1, peer := none, state := TU_ON_HOOK, sink := [] }
      ({ w with heap := Function.update w.heap p (some t) }, some p)

/-- The function `tu_extension` of `tu.c`. -/
def tu_extension (w : World) (tu : Option Ptr) : Option Int :=
  match tu with
  | none => some (-1)
  | some p => (w.heap p).map fun t => t.ext

/-- Modelled from the spec: the text `EOL` is defined in a header that is not
part of the sources; every line sent to a client ends in CR LF. -/
def EOL : List Char := "\r\n".toList

/-- The function `tu_set_extension` of `tu.c`.  The bound `PBX_MAX_EXTENSIONS`
comes from a header that is not part of the sources and is a parameter. -/
def tu_set_extension (PBX_MAX_EXTENSIONS : Int) (w : World) (tu : Option Ptr) (ext : Int) :
    Option (World × Int) :=
  match tu with
  | none => some (w, -1)
  | some t =>
    if ext > PBX_MAX_EXTENSIONS ∨ ext < 0 then some (w, -1)
    else do
      let w ← mutex_lock w (.tu t)
      let w ← modify w t (fun x => { x with ext := ext })
      let T ← w.heap t
      let temp := snprintf 256 ("ON HOOK ".toList ++ fmt_d T.ext ++ EOL)
      let r := sys_write w.script temp T.sink
      let w := { w with heap := Function.update w.heap t (some { T with sink := r.2.1 }),
                        script := r.1 }
      let w ← mutex_unlock w (.tu t)
      some (w, 0)

/-- The function `pbx_init` of `pbx.c`, for a successful allocation. -/
def pbx_init : PBX :=
  { extensions := fun _ => none, shutdown_in_progress := false, active_tus := 0 }

/-- The function `pbx_register` of `pbx.c`, called on the registry of the world. -/
def pbx_register (MAX_EXTENSIONS : Int) (w : World) (tu : Option Ptr) (ext : Int) :
    Option (World × Int) :=
  match tu with
  | none => some (w, -1)
  | some t =>
    if ext < 0 ∨ ext ≥ MAX_EXTENSIONS then some (w, -1)
    else do
      let w ← mutex_lock w .pbx
      if w.pbx.shutdown_in_progress then do
        let w ← mutex_unlock w .pbx
        some (w, -1)
      else if w.pbx.extensions ext.toNat ≠ none then do
        let w ← mutex_unlock w .pbx
        some (w, -1)
      else do
        let slots := Function.update w.pbx.extensions ext.toNat (some t)
        let w := { w with pbx := { w.pbx with extensions := slots } }
        let w := { w with pbx := { w.pbx with active_tus := w.pbx.active_tus + 1 } }
        let w ← tu_ref w (some t)
        let (w, _) ← tu_set_extension MAX_EXTENSIONS w (some t) ext
        let w ← mutex_unlock w .pbx
        some (w, 0)

/-- The function `pbx_unregister` of `pbx.c`, called on the registry of the
world; `pthread_cond_signal` changes nothing that is modelled. -/
def pbx_unregister (MAX_EXTENSIONS : Int) (w : World) (tu : Option Ptr) : Option (World × Int) :=
  match tu with
  | none => some (w, -1)
  | some t => do
    let w ← mutex_lock w .pbx
    let ext ← tu_extension w (some t)
    if ext < 0 ∨ ext ≥ MAX_EXTENSIONS ∨ w.pbx.extensions ext.toNat ≠ some t then do
      let w ← mutex_unlock w .pbx
      some (w, -1)
    else do
      let slots := Function.update w.pbx.extensions ext.toNat none
      let w := { w with pbx := { w.pbx with extensions := slots } }
      let w := { w with pbx := { w.pbx with active_tus := w.pbx.active_tus - 1 } }
      let (w, _) ← tu_hangup w (some t)
      let w ← tu_unref w (some t)
      let w ← mutex_unlock w .pbx
      some (w, 0)

/-- The function `pbx_dial` of `pbx.c`, called on the registry of the world. -/
def pbx_dial (MAX_EXTENSIONS : Int) (w : World) (tu : Option Ptr) (ext : Int) :
    Option (World × Int) :=
  match tu with
  | none => some (w, -1)
  | some t => do
    let w ← mutex_lock w .pbx
    let target_tu := if ext ≥ 0 ∧ ext < MAX_EXTENSIONS then w.pbx.extensions ext.toNat else none
    let w ← mutex_unlock w .pbx
    let (w, r) ← tu_dial w (some t) target_tu
    if r = -1 then some (w, -1) else some (w, 0)

/-- The end of `pbx_client_service` in `server.c`, after the service loop:
`tu_hangup(tu)`, `fclose(client_stream)`, `pbx_unregister(pbx, tu)`,
`tu_unref(tu)`.  The call of `fclose` closes the descriptor of the TU, so a
write on it fails with `EBADF` whatever the stream would have accepted.  When
the first `tu_hangup` has returned the TU is in none of the three paired
states, so the one write that follows is the notification that the `tu_hangup`
called by `pbx_unregister` sends to the TU itself: it fails, the sink keeps
what it had, and nothing is taken from the script of the environment. -/
def client_disconnect (MAX_EXTENSIONS : Int) (w : World) (tu : Option Ptr) : Option World := do
  let (w, _) ← tu_hangup w tu
  let script := w.script
  let (w, _) ← pbx_unregister MAX_EXTENSIONS { w with script := [.fail] } tu
  let w := { w with script := script }
  tu_unref w tu

/-- An outcome on which a write makes progress or has to be restarted: a
positive number of bytes accepted, or `EINTR`. -/
def WriteOutcome.progress : WriteOutcome → Bool
  | .accept n => decide (0 < n)
  | .eintr => true
  | .fail => false

/-- A script on which every write accepts a positive number of bytes or is
interrupted. -/
def benign (s : List WriteOutcome) : Prop := ∀ o ∈ s, o.progress = true

instance (s : List WriteOutcome) : Decidable (benign s) := by
  unfold benign; infer_instance

/-! ## The invariants of section 3 of the specification -/

/-- The three states in which a TU has a peer. -/
def paired (s : TU_STATE) : Prop :=
  s = TU_RINGING ∨ s = TU_RING_BACK ∨ s = TU_CONNECTED

instance (s : TU_STATE) : Decidable (paired s) := by
  unfold paired; infer_instance

/-- Invariant I1: a TU has a peer exactly in the states `RINGING`, `RING_BACK`
and `CONNECTED`. -/
def I1 (w : World) : Prop :=
  ∀ p T, w.heap p = some T → (T.peer ≠ none ↔ paired T.state)

/-- Invariant I2: the peer of a TU is a TU whose peer is the first one. -/
def I2 (w : World) : Prop :=
  ∀ p q T, w.heap p = some T → T.peer = some q → ∃ U, w.heap q = some U ∧ U.peer = some p

/-- Invariant I3: the states of two peers are `RING_BACK` and `RINGING`, or both
`CONNECTED`. -/
def I3 (w : World) : Prop :=
  ∀ p q T U, w.heap p = some T → T.peer = some q → w.heap q = some U →
    (T.state = TU_RING_BACK ∧ U.state = TU_RINGING) ∨
    (T.state = TU_RINGING ∧ U.state = TU_RING_BACK) ∨
    (T.state = TU_CONNECTED ∧ U.state = TU_CONNECTED)

/-! ## Concrete systems used to exercise the statements -/

/-- The heap that holds the listed TUs at the listed addresses. -/
def heap_of : List (Ptr × TU) → Ptr → Option TU
  | [], _ => none
  | (q, t) :: rest, p => if p = q then some t else heap_of rest p

/-- A world made of the listed TUs and the listed registry slots. -/
def world_of (tus : List (Ptr × TU)) (slots : List (Nat × Ptr)) (script : List WriteOutcome) :
    World :=
  { heap := heap_of tus,
    pbx := { extensions := fun e => slots.lookup e, shutdown_in_progress := false,
             active_tus := slots.length },
    script := script,
    locks := [] }

/-- A TU at extension 3 that has picked up. -/
def tu_a : TU :=
  { ext := 3, fd := 3, refs := 2, peer := none, state := TU_DIAL_TONE, sink := [] }

/-- A TU at extension 7 that is on hook. -/
def tu_b : TU :=
  { ext := 7, fd := 7, refs := 2, peer := none, state := TU_ON_HOOK, sink := [] }

/-- Two idle TUs, at the addresses 1 and 2, registered at the extensions 3 and 7;
the first write is interrupted and the second accepts four bytes. -/
def w_idle : World :=
  world_of [(1, tu_a), (2, tu_b)] [(3, 1), (7, 2)] [.eintr, .accept 4]

/-- The system `w_idle` after B has picked up: B hears the dial tone. -/
def w_offhook : World :=
  world_of [(1, tu_a), (2, { tu_b with state := TU_DIAL_TONE })] [(3, 1), (7, 2)] []

/-- What a call returned and what it left at the listed addresses. -/
def observe (r : Option (World × Int)) (ps : List Ptr) : Option (Int × List (Option TU)) :=
  r.map fun x => (x.2, ps.map x.1.heap)

/-- A system in which A has dialled B: A hears the ring back and B rings. -/
def w_ringing : World :=
  world_of
    [(1, { tu_a with state := TU_RING_BACK, peer := some 2, refs := 3 }),
     (2, { tu_b with state := TU_RINGING, peer := some 1, refs := 3 })]
    [(3, 1), (7, 2)] [.accept 1]

/-- A system in which A and B are connected. -/
def w_connected : World :=
  world_of
    [(1, { tu_a with state := TU_CONNECTED, peer := some 2, refs := 3 }),
     (2, { tu_b with state := TU_CONNECTED, peer := some 1, refs := 3 })]
    [(3, 1), (7, 2)] [.eintr]

/-- A TU at extension 9 that is on hook. -/
def tu_c : TU :=
  { ext := 9, fd := 9, refs := 2, peer := none, state := TU_ON_HOOK, sink := [] }

/-- The system reached from `w_ringing` when A, still hearing the ring back of
B, dials C: B still rings for A while A is now paired with C. -/
def w_cross : World :=
  world_of
    [(1, { tu_a with state := TU_RING_BACK, peer := some 3, refs := 4 }),
     (2, { tu_b with state := TU_RINGING, peer := some 1, refs := 3 }),
     (3, { tu_c with state := TU_RINGING, peer := some 1, refs := 3 })]
    [(3, 1), (7, 2), (9, 3)] []

/-- A connected pair in which the reference count of A has fallen to 1. -/
def w_last_ref : World :=
  world_of
    [(1, { tu_a with state := TU_CONNECTED, peer := some 2, refs := 1 }),
     (2, { tu_b with state := TU_CONNECTED, peer := some 1, refs := 3 })]
    [(3, 1), (7, 2)] []

/-- A system in which A and B are connected and C is idle. -/
def w_three : World :=
  world_of
    [(1, { tu_a with state := TU_CONNECTED, peer := some 2, refs := 3 }),
     (2, { tu_b with state := TU_CONNECTED, peer := some 1, refs := 3 }),
     (3, tu_c)]
    [(3, 1), (7, 2), (9, 3)] []

/-- A ringing pair in which the reference count of the caller A has fallen to 1. -/
def w_last_ref_caller : World :=
  world_of
    [(1, { tu_a with state := TU_RING_BACK, peer := some 2, refs := 1 }),
     (2, { tu_b with state := TU_RINGING, peer := some 1, refs := 3 })]
    [(3, 1), (7, 2)] []

/-- A single TU that rings and is its own peer. -/
def w_self : World :=
  world_of [(1, { tu_a with state := TU_RINGING, peer := some 1, refs := 3 })] [(3, 1)] []

/-- The system reached from `w_connected` when A, connected to B, dials the
absent extension 999 and the client of A then disconnects. -/
def w_orphan_connected : Option World :=
  (pbx_dial 1024 w_connected (some 1) 999).bind fun r => client_disconnect 1024 r.1 (some 1)

/-- The system reached from `w_ringing` when B, ringing for A, dials the absent
extension 999 and the client of B then disconnects. -/
def w_orphan_ringing : Option World :=
  (pbx_dial 1024 w_ringing (some 2) 999).bind fun r => client_disconnect 1024 r.1 (some 2)

/-- The line sent by `tu_set_extension`. -/
def on_hook_line (e : Int) : List Char := "ON HOOK ".toList ++ fmt_d e ++ EOL

/-- The next call of `write(2)` accepts at least `n` bytes. -/
def whole_write : List WriteOutcome → Nat → Bool
  | [], _ => true
  | .accept k :: _, n => decide (n ≤ k)
  | .eintr :: _, _ => false
  | .fail :: _, _ => false

/-- A TU as `tu_init` makes it, on the descriptor 9. -/
def tu_new : TU :=
  { ext := -1, fd := 9, refs := 1, peer := none, state := TU_ON_HOOK, sink := [] }

/-- The system `w_idle` and a new TU at the address 3 that is not registered;
the next write accepts up to 64 bytes. -/
def w_new : World :=
  world_of [(1, tu_a), (2, tu_b), (3, tu_new)] [(3, 1), (7, 2)] [.accept 64]

/-- The world in which `pbx_unregister` calls `tu_hangup`: the registry mutex is
held, the slot `e` is empty and the counter of active TUs is one lower. -/
def unregister_slot (w : World) (e : Nat) : World :=
  { w with
    pbx := { extensions := Function.update w.pbx.extensions e none,
             shutdown_in_progress := w.pbx.shutdown_in_progress,
             active_tus := w.pbx.active_tus - 1 },
    locks := w.locks ++ [.acquire .pbx] }

/-- The test of I1 on a list of TUs. -/
def check_I1 (tus : List (Ptr × TU)) : Bool :=
  tus.all fun x => decide (x.2.peer ≠ none ↔ paired x.2.state)

/-- The test of I2 on a list of TUs. -/
def check_I2 (tus : List (Ptr × TU)) : Bool :=
  tus.all fun x =>
    match x.2.peer with
    | none => true
    | some q => decide ((heap_of tus q).map TU.peer = some (some x.1))

/-- The test of I3 on a list of TUs. -/
def check_I3 (tus : List (Ptr × TU)) : Bool :=
  tus.all fun x =>
    match x.2.peer with
    | none => true
    | some q =>
      match heap_of tus q with
      | none => true
      | some U =>
        decide ((x.2.state = TU_RING_BACK ∧ U.state = TU_RINGING) ∨
          (x.2.state = TU_RINGING ∧ U.state = TU_RING_BACK) ∨
          (x.2.state = TU_CONNECTED ∧ U.state = TU_CONNECTED))

/-- A single registered TU that is connected to itself. -/
def w_self_connected : World :=
  world_of [(1, { tu_a with state := TU_CONNECTED, peer := some 1, refs := 4 })] [(3, 1)] []

/-- A single registered TU, on hook, that nobody but the registry holds. -/
def w_unheld : World :=
  world_of [(1, { tu_a with state := TU_ON_HOOK, refs := 1 })] [(3, 1)] []

/-- The registry and the extension of every TU are the same in both worlds, and
the same TUs are live. -/
def keeps (w w1 : World) : Prop :=
  w1.pbx = w.pbx ∧ ∀ p, (w1.heap p).map TU.ext = (w.heap p).map TU.ext

/-! ## Sequences of registry calls and the invariants of the registry -/

/-- A call of one of the three registry functions that a client service makes. -/
inductive RegistryCall
  | register (tu : Option Ptr) (ext : Int)
  | unregister (tu : Option Ptr)
  | dial (tu : Option Ptr) (ext : Int)
  deriving DecidableEq, Repr

/-- The effect of one registry call. -/
def run_call (MAX_EXTENSIONS : Int) (w : World) : RegistryCall → Option (World × Int)
  | .register tu ext => pbx_register MAX_EXTENSIONS w tu ext
  | .unregister tu => pbx_unregister MAX_EXTENSIONS w tu
  | .dial tu ext => pbx_dial MAX_EXTENSIONS w tu ext

/-- The world after a sequence of registry calls, successful or failing. -/
def run_calls (MAX_EXTENSIONS : Int) : World → List RegistryCall → Option World
  | w, [] => some w
  | w, c :: cs => (run_call MAX_EXTENSIONS w c).bind fun r => run_calls MAX_EXTENSIONS r.1 cs

/-- The number of occupied slots among the first `n`. -/
def occupied (slots : Nat → Option Ptr) : Nat → Nat
  | 0 => 0
  | n + 1 => occupied slots n + (if (slots n).isSome then 1 else 0)

/-- Invariant I4: every occupied slot `e` holds a TU whose extension is `e`, and
no TU is in two slots. -/
def I4 (w : World) : Prop :=
  (∀ e t, w.pbx.extensions e = some t → (w.heap t).map TU.ext = some (e : Int)) ∧
  (∀ e1 e2 t, w.pbx.extensions e1 = some t → w.pbx.extensions e2 = some t → e1 = e2)

/-- Invariant I5: the counter of active TUs is the number of occupied slots. -/
def I5 (MAX_EXTENSIONS : Int) (w : World) : Prop :=
  w.pbx.active_tus = (occupied w.pbx.extensions MAX_EXTENSIONS.toNat : Nat)

/-- The TU at `t` is in one of the slots of the registry. -/
def occupies (MAX_EXTENSIONS : Int) (w : World) (t : Ptr) : Bool :=
  (List.range MAX_EXTENSIONS.toNat).any fun e => decide (w.pbx.extensions e = some t)

/-- Every `pbx_register` of the sequence is called for a TU that is in no slot
at that time. -/
def fresh_registers (MAX_EXTENSIONS : Int) : World → List RegistryCall → Bool
  | _, [] => true
  | w, c :: cs =>
    (match c with
      | .register (some t) _ => !occupies MAX_EXTENSIONS w t
      | _ => true) &&
    (match run_call MAX_EXTENSIONS w c with
      | none => true
      | some r => fresh_registers MAX_EXTENSIONS r.1 cs)

/-- Two TUs as `tu_init` makes them, at the addresses 1 and 2, and the registry
as `pbx_init` makes it. -/
def w_start : World :=
  { heap := heap_of [(1, { tu_new with fd := 3 }), (2, { tu_new with fd := 7 })],
    pbx := pbx_init, script := [], locks := [] }

/-- Two TUs on hook with no call, at the addresses 1 and 2, registered at the
extensions 3 and 7. -/
def w_on_hook : World :=
  world_of [(1, { tu_a with state := TU_ON_HOOK }), (2, tu_b)] [(3, 1), (7, 2)] []

/-- The table of section 4.1 of the specification: the text emitted for a state,
without the end of line; `ext` is the extension of the TU and `peer_ext` the one
of its peer, both written in decimal. -/
def encoding_table (s : TU_STATE) (ext peer_ext : Int) : List Char :=
  match s with
  | TU_ON_HOOK => "ON HOOK ".toList ++ fmt_d ext
  | TU_RINGING => "RINGING".toList
  | TU_DIAL_TONE => "DIAL TONE".toList
  | TU_RING_BACK => "RING BACK".toList
  | TU_BUSY_SIGNAL => "BUSY SIGNAL".toList
  | TU_CONNECTED => "CONNECTED ".toList ++ fmt_d peer_ext
  | TU_ERROR => "ERROR".toList

/-- The system `w_new` on a stream whose next write accepts four bytes. -/
def w_slow : World :=
  { w_new with script := [.accept 4] }

/-- The system `w_new` on a stream whose next write is interrupted. -/
def w_interrupted : World :=
  { w_new with script := [.eintr] }

/-! ## The service loop of `server.c` -/

/-- The function `isspace` of the C library in the C locale: space, tab, line
feed, vertical tab, form feed and carriage return. -/
def isspace (c : Char) : Bool :=
  c = ' ' || c = '\t' || c = '\n' || c = Char.ofNat 11 || c = Char.ofNat 12 || c = '\r'

/-- The function `isdigit` of the C library. -/
def isdigit (c : Char) : Bool :=
  decide ('0' ≤ c) && decide (c ≤ '9')

/-- A buffer read as a C string: the bytes before the first NUL. -/
def c_str (buf : List Char) : List Char :=
  buf.takeWhile fun c => c ≠ Char.ofNat 0

/-- The byte `s[i]` of a C string: the terminator at the end. -/
def char_at (s : List Char) (i : Nat) : Char :=
  (s.get? i).getD (Char.ofNat 0)

/-- The loop `while (cmd_len > 0 && (cmd[cmd_len - 1] == '\n' || cmd[cmd_len - 1]
== '\r')) cmd[--cmd_len] = '\0';` on the bytes that `getline` has read. -/
def strip_eol (line : List Char) : List Char :=
  (line.reverse.dropWhile fun c => c = '\n' || c = '\r').reverse

/-- The digits read by `atoi`, added to the value read so far. -/
def atoi_digits : List Char → Nat → Nat
  | [], acc => acc
  | c :: cs, acc => if isdigit c then atoi_digits cs (10 * acc + (c.toNat - '0'.toNat)) else acc

/-- The number read by `atoi` after the white space: an optional sign, then
digits. -/
def atoi_value (s : List Char) : Int :=
  match s with
  | '-' :: r => - (atoi_digits r 0 : Nat)
  | '+' :: r => (atoi_digits r 0 : Nat)
  | r => (atoi_digits r 0 : Nat)

/-- The function `atoi` of the C library: white space, an optional sign, then
digits.  When the value cannot be held by an `int` the behaviour is undefined. -/
def atoi (s : List Char) : Option Int :=
  let v := atoi_value (s.dropWhile isspace)
  if -2 ^ 31 ≤ v ∧ v < 2 ^ 31 then some v else none

/-- The body of the service loop of `pbx_client_service` for one line read by
`getline`: the end of line is removed, leading white space is skipped and the
command is handled.  The values returned by the four operations are only logged. -/
def service_line (MAX_EXTENSIONS : Int) (w : World) (tu : Option Ptr) (line : List Char) :
    Option World :=
  let cmd := (c_str (strip_eol line)).dropWhile isspace
  if cmd.take 6 = "pickup".toList ∧ (char_at cmd 6 = Char.ofNat 0 ∨ isspace (char_at cmd 6)) then
    (tu_pickup w tu).map Prod.fst
  else if cmd.take 6 = "hangup".toList ∧
      (char_at cmd 6 = Char.ofNat 0 ∨ isspace (char_at cmd 6)) then
    (tu_hangup w tu).map Prod.fst
  else if cmd.take 4 = "dial".toList ∧ isspace (char_at cmd 4) then
    let ext_str := (cmd.drop 4).dropWhile isspace
    (atoi ext_str).bind fun dial_ext => (pbx_dial MAX_EXTENSIONS w tu dial_ext).map Prod.fst
  else if cmd.take 4 = "chat".toList ∧
      (char_at cmd 4 = Char.ofNat 0 ∨ isspace (char_at cmd 4)) then
    let msg := (cmd.drop 4).dropWhile isspace
    (tu_chat w tu msg).map Prod.fst
  else some w

/-- The line as section 6 of the specification reads it: trailing CR and LF
removed, then leading white space removed. -/
def trimmed (line : List Char) : List Char :=
  (strip_eol line).dropWhile isspace

/-- The value of a string of decimal digits. -/
def decimal_value (ds : List Char) : Nat :=
  ds.foldl (fun a c => 10 * a + (c.toNat - '0'.toNat)) 0

/-- The value of the optionally signed decimal number at the start of `s`, and 0
when `s` does not start with a decimal number. -/
def leading_number (s : List Char) : Int :=
  match s with
  | '-' :: r => - (decimal_value (r.takeWhile isdigit) : Nat)
  | '+' :: r => (decimal_value (r.takeWhile isdigit) : Nat)
  | r => (decimal_value (r.takeWhile isdigit) : Nat)

/-! ## Shutdown and the order of the locks -/

/-- The function `tu_fileno` of `tu.c`. -/
def tu_fileno (w : World) (tu : Option Ptr) : Option (World × Int) :=
  match tu with
  | none => some (w, -1)
  | some p => do
    let w ← mutex_lock w (.tu p)
    let T ← w.heap p
    let w ← mutex_unlock w (.tu p)
    some (w, T.fd)

/-- The loop `for (int i = 0; i < MAX_EXTENSIONS; i++)` of `pbx_shutdown` over the
listed slots.  The call `shutdown(fd, SHUT_RD)` acts on the socket, of which the
world only holds the bytes sent. -/
def shutdown_scan (w : World) : List Nat → Option World
  | [] => some w
  | i :: rest =>
    match w.pbx.extensions i with
    | none => shutdown_scan w rest
    | some tu =>
      match tu_fileno w (some tu) with
      | none => none
      | some (w1, _) => shutdown_scan w1 rest

/-- The loop `while (pbx->active_tus > 0) pthread_cond_wait(...)` of
`pbx_shutdown`.  The other threads are the environment: `wake` lists the value
of `active_tus` that the thread finds each time `pthread_cond_wait`, which
releases the mutex of the registry and acquires it again, returns.  The result
is `false` when the thread is still waiting after the last entry. -/
def shutdown_wait (w : World) : List Int → World × Bool
  | [] =>
    if w.pbx.active_tus > 0 then ({ w with locks := w.locks ++ [.release .pbx] }, false)
    else (w, true)
  | a :: wake =>
    if w.pbx.active_tus > 0 then
      shutdown_wait
        { w with locks := w.locks ++ [.release .pbx, .acquire .pbx],
                 pbx := { w.pbx with active_tus := a } } wake
    else (w, true)

/-- The function `pbx_shutdown` of `pbx.c` up to the release of the mutex; what
follows destroys the registry.  The result is `false` when the call is still
waiting for the TUs to unregister. -/
def pbx_shutdown (MAX_EXTENSIONS : Int) (w : World) (wake : List Int) : Option (World × Bool) := do
  let w ← mutex_lock w .pbx
  let w := { w with pbx := { w.pbx with shutdown_in_progress := true } }
  let w ← shutdown_scan w (List.range MAX_EXTENSIONS.toNat)
  let r := shutdown_wait w wake
  if r.2 then do
    let w ← mutex_unlock r.1 .pbx
    some (w, true)
  else some (r.1, false)

/-- No mutex of a TU is acquired while the mutex of the registry is held;
`held` tells whether the registry is locked before the first event. -/
def no_tu_lock_in_registry : Bool → List LockEvent → Bool
  | _, [] => true
  | _, .acquire .pbx :: tr => no_tu_lock_in_registry true tr
  | _, .release .pbx :: tr => no_tu_lock_in_registry false tr
  | held, .acquire (.tu _) :: tr => !held && no_tu_lock_in_registry held tr
  | held, .release (.tu _) :: tr => no_tu_lock_in_registry held tr

/-- The mutex of the registry is not acquired while the mutex of a TU is held;
`held` lists the TUs that are locked before the first event. -/
def no_registry_lock_in_tu : List Ptr → List LockEvent → Bool
  | _, [] => true
  | held, .acquire .pbx :: tr => held.isEmpty && no_registry_lock_in_tu held tr
  | held, .release .pbx :: tr => no_registry_lock_in_tu held tr
  | held, .acquire (.tu p) :: tr => no_registry_lock_in_tu (p :: held) tr
  | held, .release (.tu p) :: tr => no_registry_lock_in_tu (held.erase p) tr

/-- The second world continues the lock trace of the first one with events on
the mutexes of TUs only. -/
def tu_steps (w w1 : World) : Prop :=
  ∃ tr, w1.locks = w.locks ++ tr ∧ ∀ e ∈ tr, e ≠ .acquire .pbx ∧ e ≠ .release .pbx

/-- A piece of a lock trace that starts and ends with no TU locked and does not
acquire the registry under the mutex of a TU. -/
def lock_neutral (tr : List LockEvent) : Prop :=
  ∀ rest, no_registry_lock_in_tu [] (tr ++ rest) = no_registry_lock_in_tu [] rest

/-! ## What the invariants read of a TU -/

/-- The two fields of a TU that I1, I2 and I3 read: its state and its peer. -/
def shape (T : TU) : TU_STATE × Option Ptr := (T.state, T.peer)

/-- A TU without the bytes that its stream has accepted. -/
def mute (T : TU) : TU := { T with sink := [] }

/-! ## The life of a TU -/

/-- A command that a client sends to the service loop. -/
inductive Command
  | pickup
  | hangup
  | chat (msg : List Char)
  | dial (ext : Int)
  deriving DecidableEq, Repr

/-- The call that the service loop makes for the command of the TU `a`; the
value returned is only logged. -/
def run_command (MAX_EXTENSIONS : Int) (w : World) (a : Ptr) : Command → Option World
  | .pickup => (tu_pickup w (some a)).map Prod.fst
  | .hangup => (tu_hangup w (some a)).map Prod.fst
  | .chat msg => (tu_chat w (some a) msg).map Prod.fst
  | .dial ext => (pbx_dial MAX_EXTENSIONS w (some a) ext).map Prod.fst

/-- The calls made for a sequence of commands, each with the TU that sends it. -/
def run_commands (MAX_EXTENSIONS : Int) : World → List (Ptr × Command) → Option World
  | w, [] => some w
  | w, (a, c) :: rest =>
    (run_command MAX_EXTENSIONS w a c).bind fun w1 => run_commands MAX_EXTENSIONS w1 rest

/-- The command comes from a live TU, a chat from a TU in `CONNECTED` and a dial
from a TU that has no peer. -/
def allowed (w : World) (a : Ptr) (c : Command) : Bool :=
  match w.heap a with
  | none => false
  | some A =>
    match c with
    | .chat _ => decide (A.state = TU_CONNECTED)
    | .dial _ => decide (A.peer = none)
    | _ => true

/-- Every command of the sequence is allowed in the state in which it is run;
nothing is asked of the commands that follow a call without a result. -/
def allowed_all (MAX_EXTENSIONS : Int) : World → List (Ptr × Command) → Bool
  | _, [] => true
  | w, (a, c) :: rest =>
    allowed w a c &&
      match run_command MAX_EXTENSIONS w a c with
      | none => true
      | some w1 => allowed_all MAX_EXTENSIONS w1 rest

/-- The references to a TU that are not the one held by its peer: those of the
driver and of the registry. -/
def base_refs (T : TU) : Int :=
  T.refs - (if T.peer = none then 0 else 1)

/-- No TU is its own peer. -/
def no_self_peer (w : World) : Prop :=
  ∀ p T, w.heap p = some T → T.peer ≠ some p

/-- A system in which I1, I2 and I3 hold, no TU is its own peer, every TU is
held by its driver or by the registry, and every slot holds a live TU. -/
def well_formed (w : World) : Prop :=
  I1 w ∧ I2 w ∧ I3 w ∧ no_self_peer w ∧
    (∀ p T, w.heap p = some T → 1 ≤ base_refs T) ∧
    (∀ e q, w.pbx.extensions e = some q → ∃ Q, w.heap q = some Q)

/-- The registry, the extensions and the references held by drivers and
registry are the same in both worlds, and the same TUs are live. -/
def kept (w w1 : World) : Prop :=
  keeps w w1 ∧ ∀ p, (w1.heap p).map base_refs = (w.heap p).map base_refs

/-- The TU at `p` is registered at the extension `e` and nowhere else, and is
held by its driver and by the registry. -/
def registered_at (w : World) (p : Ptr) (e : Int) : Prop :=
  ∃ T, w.heap p = some T ∧ T.ext = e ∧ base_refs T = 2 ∧
    w.pbx.extensions e.toNat = some p ∧ ∀ i, w.pbx.extensions i = some p → i = e.toNat

/-- A system with no TU and the registry as `pbx_init` makes it. -/
def w_empty : World :=
  { heap := fun _ => none, pbx := pbx_init, script := [], locks := [] }

/-- The test on a listed system of what `well_formed` asks besides I1, I2 and
I3: no TU is its own peer, every TU is held by its driver or by the registry,
and every slot holds a live TU. -/
def check_held (tus : List (Ptr × TU)) (slots : List (Nat × Ptr)) : Bool :=
  tus.all (fun x => decide (x.2.peer ≠ some x.1) && decide (1 ≤ base_refs x.2)) &&
    slots.all (fun s => (heap_of tus s.2).isSome)

/-! ## Lemmas on the primitives -/

/-- The empty script is benign. -/
theorem benign_nil : benign [] := by
  intro o ho; cases ho

/-- The rest of a benign script is benign. -/
theorem benign_tail {o : WriteOutcome} {s : List WriteOutcome} (h : benign (o :: s)) : benign s :=
  fun x hx => h x (List.mem_cons_of_mem _ hx)

/-- On a benign script the write loop sends the whole buffer, returns 0 and
leaves a benign script. -/
theorem write_loop_benign (s : List WriteOutcome) :
    ∀ (buf sink : List Char), benign s →
      (write_loop s buf sink).2.1 = sink ++ buf ∧ (write_loop s buf sink).2.2 = 0 ∧
        benign (write_loop s buf sink).1 := by
  induction s with
  | nil => intro buf sink _; simp [write_loop, benign_nil]
  | cons o s ih =>
    intro buf sink h
    have hs : benign s := benign_tail h
    have ho : o.progress = true := h o (List.mem_cons_self _ _)
    by_cases hb : buf = []
    · subst hb; simp [write_loop, h]
    · cases o with
      | eintr => simpa [write_loop, hb] using ih buf sink hs
      | fail => simp [WriteOutcome.progress] at ho
      | accept n =>
        have hn : n ≠ 0 := by
          simp [WriteOutcome.progress] at ho; omega
        have := ih (buf.drop n) (sink ++ buf.take n) hs
        simpa [write_loop, hb, hn, List.append_assoc] using this
/-- A sequence whose continuation can only return `c` can only return `c`. -/
theorem bind_ret {α : Type} (c : Int) (x : Option α) (f : α → Option (World × Int))
    (hf : ∀ a w1 r, f a = some (w1, r) → r = c) :
    ∀ w1 r, x.bind f = some (w1, r) → r = c := by
  intro w1 r h
  cases x with
  | none => simp at h
  | some a => exact hf a w1 r (by simpa using h)

/-- With a target, `tu_dial` returns 0 whenever it returns. -/
theorem tu_dial_present_ret (w : World) (t u : Ptr) :
    ∀ w1 r, tu_dial w (some t) (some u) = some (w1, r) → r = 0 := by
  unfold tu_dial
  dsimp only []
  refine bind_ret 0 _ _ (fun wa => ?_)
  refine bind_ret 0 _ _ (fun U => ?_)
  split_ifs
  all_goals
    first
      | unfold dial_busy
      | unfold dial_ring
    repeat refine bind_ret 0 _ _ (fun _ => ?_)
    intro w1 r h
    simp only [Option.some.injEq, Prod.mk.injEq] at h
    exact h.2.symm

/-- Locking two live TUs changes the lock trace only. -/
theorem lock_pair_live (w : World) (a b : Ptr) (ha : (w.heap a).isSome = true)
    (hb : (w.heap b).isSome = true) : ∃ l, lock_pair w a b = some { w with locks := l } := by
  obtain ⟨A, hA⟩ := Option.isSome_iff_exists.mp ha
  obtain ⟨B, hB⟩ := Option.isSome_iff_exists.mp hb
  by_cases hab : a = b
  · subst hab
    exact ⟨w.locks ++ [LockEvent.acquire (Mutex.tu a)], by simp [lock_pair, mutex_lock, hA]⟩
  · exact ⟨w.locks ++ [LockEvent.acquire (Mutex.tu a), LockEvent.acquire (Mutex.tu b)],
      by simp [lock_pair, mutex_lock, hA, hB, hab]⟩

/-- The two orders in which a pair can be locked. -/
theorem lock_order_cases (t u : Ptr) :
    ((if t < u then t else u) = t ∧ (if t < u then u else t) = u) ∨
      ((if t < u then t else u) = u ∧ (if t < u then u else t) = t) := by
  by_cases h : t < u
  · left; simp [h]
  · right; simp [h]

/-- The release of a pair by a caller that heard the ring back. -/
theorem hangup_pair_on_hook (w : World) (t u : Ptr) (T U : TU) (a b : Ptr)
    (hT : w.heap t = some T) (hU : w.heap u = some U) (hne : u ≠ t)
    (hab : (a = t ∧ b = u) ∨ (a = u ∧ b = t))
    (hrT : T.refs ≠ 1) (hrU : U.refs ≠ 1) (hs : benign w.script) :
    ∃ w1, hangup_pair w t u TU_ON_HOOK a b = some (w1, 0) ∧
      w1.heap t = some { T with state := TU_ON_HOOK, peer := none, refs := T.refs - 1,
                                sink := T.sink ++ ("ON HOOK ".toList ++ fmt_d T.ext ++ "\r\n".toList) } ∧
      w1.heap u = some { U with state := TU_ON_HOOK, peer := none, refs := U.refs - 1,
                                sink := U.sink ++ ("ON HOOK ".toList ++ fmt_d U.ext ++ "\r\n".toList) } ∧
      (∀ p, p ≠ t → p ≠ u → w1.heap p = w.heap p) ∧ w1.pbx = w.pbx ∧ benign w1.script := by
  have hne2 : t ≠ u := fun h => hne h.symm
  have hrT2 : ¬ (T.refs - 1 = 0) := by omega
  have hrU2 : ¬ (U.refs - 1 = 0) := by omega
  have h1 := write_loop_benign w.script
    ("ON HOOK ".toList ++ fmt_d T.ext ++ "\r\n".toList) T.sink hs
  have h2 := write_loop_benign _
    ("ON HOOK ".toList ++ fmt_d U.ext ++ "\r\n".toList) U.sink h1.2.2
  simp only [List.append_assoc] at h1 h2
  rcases hab with ⟨rfl, rfl⟩ | ⟨rfl, rfl⟩
  · simp [hangup_pair, unlock_pair, mutex_unlock, modify, tu_unref,
      notify_state, state_msg, hT, hU, hne, hne2, hrT2, hrU2, Function.update_same,
      Function.update_noteq, -String.toList]
    refine ⟨h1.1, h2.1, ?_, h2.2.2⟩
    intro p hp1 hp2
    simp [Function.update, hp1, hp2]
  · simp [hangup_pair, unlock_pair, mutex_unlock, modify, tu_unref,
      notify_state, state_msg, hT, hU, hne, hne2, hrT2, hrU2, Function.update_same,
      Function.update_noteq, -String.toList]
    refine ⟨h1.1, h2.1, ?_, h2.2.2⟩
    intro p hp1 hp2
    simp [Function.update, hp1, hp2]

/-- The release of a pair by a caller that was ringing or connected. -/
theorem hangup_pair_dial_tone (w : World) (t u : Ptr) (T U : TU) (a b : Ptr)
    (hT : w.heap t = some T) (hU : w.heap u = some U) (hne : u ≠ t)
    (hab : (a = t ∧ b = u) ∨ (a = u ∧ b = t))
    (hrT : T.refs ≠ 1) (hrU : U.refs ≠ 1) (hs : benign w.script) :
    ∃ w1, hangup_pair w t u TU_DIAL_TONE a b = some (w1, 0) ∧
      w1.heap t = some { T with state := TU_ON_HOOK, peer := none, refs := T.refs - 1,
                                sink := T.sink ++ ("ON HOOK ".toList ++ fmt_d T.ext ++ "\r\n".toList) } ∧
      w1.heap u = some { U with state := TU_DIAL_TONE, peer := none, refs := U.refs - 1,
                                sink := U.sink ++ "DIAL TONE\r\n".toList } ∧
      (∀ p, p ≠ t → p ≠ u → w1.heap p = w.heap p) ∧ w1.pbx = w.pbx ∧ benign w1.script := by
  have hne2 : t ≠ u := fun h => hne h.symm
  have hrT2 : ¬ (T.refs - 1 = 0) := by omega
  have hrU2 : ¬ (U.refs - 1 = 0) := by omega
  have h1 := write_loop_benign w.script
    ("ON HOOK ".toList ++ fmt_d T.ext ++ "\r\n".toList) T.sink hs
  have h2 := write_loop_benign _ "DIAL TONE\r\n".toList U.sink h1.2.2
  simp only [List.append_assoc] at h1 h2
  rcases hab with ⟨rfl, rfl⟩ | ⟨rfl, rfl⟩
  · simp [hangup_pair, unlock_pair, mutex_unlock, modify, tu_unref,
      notify_state, state_msg, hT, hU, hne, hne2, hrT2, hrU2, Function.update_same,
      Function.update_noteq, -String.toList]
    refine ⟨h1.1, h2.1, ?_, h2.2.2⟩
    intro p hp1 hp2
    simp [Function.update, hp1, hp2]
  · simp [hangup_pair, unlock_pair, mutex_unlock, modify, tu_unref,
      notify_state, state_msg, hT, hU, hne, hne2, hrT2, hrU2, Function.update_same,
      Function.update_noteq, -String.toList]
    refine ⟨h1.1, h2.1, ?_, h2.2.2⟩
    intro p hp1 hp2
    simp [Function.update, hp1, hp2]

/-- The connection of a pair whose peer links point at each other. -/
theorem pickup_pair_linked (w : World) (t u : Ptr) (T U : TU) (a b : Ptr)
    (hT : w.heap t = some T) (hU : w.heap u = some U) (hne : u ≠ t)
    (hab : (a = t ∧ b = u) ∨ (a = u ∧ b = t))
    (hpeer : T.peer = some u) (hback : U.peer = some t) (hs : benign w.script) :
    ∃ w1, pickup_pair w t u a b = some (w1, 0) ∧
      w1.heap t = some { T with state := TU_CONNECTED,
                                sink := T.sink ++ ("CONNECTED ".toList ++ fmt_d U.ext ++ "\r\n".toList) } ∧
      w1.heap u = some { U with state := TU_CONNECTED,
                                sink := U.sink ++ ("CONNECTED ".toList ++ fmt_d T.ext ++ "\r\n".toList) } ∧
      (∀ p, p ≠ t → p ≠ u → w1.heap p = w.heap p) ∧ w1.pbx = w.pbx ∧ benign w1.script := by
  have hne2 : t ≠ u := fun h => hne h.symm
  have h1 := write_loop_benign w.script
    ("CONNECTED ".toList ++ fmt_d U.ext ++ "\r\n".toList) T.sink hs
  have h2 := write_loop_benign _
    ("CONNECTED ".toList ++ fmt_d T.ext ++ "\r\n".toList) U.sink h1.2.2
  simp only [List.append_assoc] at h1 h2
  rcases hab with ⟨rfl, rfl⟩ | ⟨rfl, rfl⟩
  · simp [pickup_pair, lock_pair, unlock_pair, mutex_lock, mutex_unlock, modify,
      notify_state, state_msg, hT, hU, hne, hne2, hpeer, hback, Function.update_same,
      Function.update_noteq, -String.toList]
    refine ⟨h1.1, h2.1, ?_, h2.2.2⟩
    intro p hp1 hp2
    simp [Function.update, hp1, hp2]
  · simp [pickup_pair, lock_pair, unlock_pair, mutex_lock, mutex_unlock, modify,
      notify_state, state_msg, hT, hU, hne, hne2, hpeer, hback, Function.update_same,
      Function.update_noteq, -String.toList]
    refine ⟨h1.1, h2.1, ?_, h2.2.2⟩
    intro p hp1 hp2
    simp [Function.update, hp1, hp2]


/-- A chat line for a message of at most 1016 bytes fits in `temp[1024]`. -/
theorem snprintf_chat_short (msg : List Char) (hlen : msg.length ≤ 1016) :
    snprintf 1024 ("CHAT ".toList ++ msg ++ "\r\n".toList) =
      "CHAT ".toList ++ msg ++ "\r\n".toList := by
  unfold snprintf
  apply List.take_of_length_le
  simp
  omega

/-- A connected TU that sends a message of at most 1016 bytes: the whole line
`CHAT <msg>` reaches the sink of the peer, then the sender is notified of its
state, and `tu_chat` returns 0. -/
theorem tu_chat_connected_short (w : World) (t u : Ptr) (T U : TU) (msg : List Char)
    (hT : w.heap t = some T) (hU : w.heap u = some U) (hne : u ≠ t)
    (hstate : T.state = TU_CONNECTED) (hpeer : T.peer = some u)
    (hlen : msg.length ≤ 1016) (hs : benign w.script) :
    ∃ w1, tu_chat w (some t) msg = some (w1, 0) ∧
      w1.heap u = some { U with sink := U.sink ++ ("CHAT ".toList ++ msg ++ "\r\n".toList) } ∧
      w1.heap t = some { T with sink := T.sink ++
        ("CONNECTED ".toList ++ fmt_d U.ext ++ "\r\n".toList) } ∧
      (∀ p, p ≠ t → p ≠ u → w1.heap p = w.heap p) ∧ w1.pbx = w.pbx ∧ benign w1.script := by
  have hne2 : t ≠ u := fun h => hne h.symm
  have h1 := write_loop_benign w.script
    ("CHAT ".toList ++ msg ++ "\r\n".toList) U.sink hs
  have h2 := write_loop_benign _
    ("CONNECTED ".toList ++ fmt_d U.ext ++ "\r\n".toList) T.sink h1.2.2
  have hsn := snprintf_chat_short msg hlen
  simp only [List.append_assoc] at h1 h2 hsn
  rcases Nat.lt_or_ge t u with h | h
  · simp [tu_chat, hsn, lock_pair, unlock_pair, mutex_lock, mutex_unlock,
      notify_state, state_msg, hT, hU, hne, hne2, hpeer, hstate, Function.update_same,
      Function.update_noteq, h, h1.2.1, -String.toList]
    refine ⟨h1.1, h2.1, ?_, h2.2.2⟩
    intro p hp1 hp2
    simp [Function.update, hp1, hp2]
  · have h3 : ¬ t < u := Nat.not_lt.mpr h
    simp [tu_chat, hsn, lock_pair, unlock_pair, mutex_lock, mutex_unlock,
      notify_state, state_msg, hT, hU, hne, hne2, hpeer, hstate, Function.update_same,
      Function.update_noteq, h3, h1.2.1, -String.toList]
    refine ⟨h1.1, h2.1, ?_, h2.2.2⟩
    intro p hp1 hp2
    simp [Function.update, hp1, hp2]

/-! ## Dialling -/

/-- Claim C1: for every caller T, in any state, and every target U different
from T that is on hook and has no peer, `tu_dial(T, U)` returns 0 and leaves T
in `RING_BACK` and U in `RINGING`, each the peer of the other, each reference
count one higher, with the line `RING BACK` appended to the sink of T and the
line `RINGING` appended to the sink of U and nothing else changed. -/
theorem tu_dial_free_target (w : World) (t u : Ptr) (T U : TU)
    (hT : w.heap t = some T) (hU : w.heap u = some U) (hne : u ≠ t)
    (hpeer : U.peer = none) (hstate : U.state = TU_ON_HOOK) (hs : benign w.script) :
    ∃ w1, tu_dial w (some t) (some u) = some (w1, 0) ∧
      w1.heap t = some { T with state := TU_RING_BACK, peer := some u, refs := T.refs + 1,
                                sink := T.sink ++ "RING BACK\r\n".toList } ∧
      w1.heap u = some { U with state := TU_RINGING, peer := some t, refs := U.refs + 1,
                                sink := U.sink ++ "RINGING\r\n".toList } ∧
      (∀ p, p ≠ t → p ≠ u → w1.heap p = w.heap p) ∧ w1.pbx = w.pbx ∧ benign w1.script := by
  have hne2 : t ≠ u := fun h => hne h.symm
  have h1 := write_loop_benign w.script "RING BACK\r\n".toList T.sink hs
  have h2 := write_loop_benign _ "RINGING\r\n".toList U.sink h1.2.2
  simp only [String.toList] at h1 h2
  rcases Nat.lt_or_ge t u with h | h
  · simp [tu_dial, dial_busy, dial_ring, lock_pair, unlock_pair, mutex_lock, mutex_unlock, modify, tu_ref, notify_state,
      state_msg, hT, hU, hne, hne2, hpeer, hstate, Function.update, h]
    refine ⟨h1.1, h2.1, ?_, h2.2.2⟩
    intro p hp1 hp2
    simp [hp1, hp2]
  · have h3 : ¬ t < u := Nat.not_lt.mpr h
    simp [tu_dial, dial_busy, dial_ring, lock_pair, unlock_pair, mutex_lock, mutex_unlock, modify, tu_ref, notify_state,
      state_msg, hT, hU, hne, hne2, hpeer, hstate, Function.update, h3]
    refine ⟨h1.1, h2.1, ?_, h2.2.2⟩
    intro p hp1 hp2
    simp [hp1, hp2]

/-- Claim C1 at extension 3 dialling extension 7 (scenario 1 of the
specification): A sees `RING BACK`, B sees `RINGING`. -/
theorem tu_dial_free_target_witness :
    ∃ w1, tu_dial w_idle (some 1) (some 2) = some (w1, 0) ∧
      w1.heap 1 = some { tu_a with state := TU_RING_BACK, peer := some 2, refs := 3,
                                   sink := "RING BACK\r\n".toList } ∧
      w1.heap 2 = some { tu_b with state := TU_RINGING, peer := some 1, refs := 3,
                                   sink := "RINGING\r\n".toList } ∧
      (∀ p, p ≠ 1 → p ≠ 2 → w1.heap p = w_idle.heap p) ∧ w1.pbx = w_idle.pbx ∧
      benign w1.script :=
  tu_dial_free_target w_idle 1 2 tu_a tu_b rfl rfl (by decide) rfl rfl (by decide)

/-- Claim C5: for every caller T and every present target U that is T itself, or
already has a peer, or is not on hook, `tu_dial(T, U)` returns 0, puts T in
`BUSY_SIGNAL`, appends the line `BUSY SIGNAL` to the sink of T, and leaves every
other TU, so U when it is not T, as it was. -/
theorem tu_dial_busy (w : World) (t u : Ptr) (T U : TU)
    (hT : w.heap t = some T) (hU : w.heap u = some U)
    (hbusy : u = t ∨ U.peer ≠ none ∨ U.state ≠ TU_ON_HOOK) (hs : benign w.script) :
    ∃ w1, tu_dial w (some t) (some u) = some (w1, 0) ∧
      w1.heap t = some { T with state := TU_BUSY_SIGNAL,
                                sink := T.sink ++ "BUSY SIGNAL\r\n".toList } ∧
      (u ≠ t → w1.heap u = some U) ∧
      (∀ p, p ≠ t → w1.heap p = w.heap p) ∧ w1.pbx = w.pbx ∧ benign w1.script := by
  have h1 := write_loop_benign w.script "BUSY SIGNAL\r\n".toList T.sink hs
  simp only [String.toList] at h1
  by_cases htu : u = t
  · subst htu
    have hTU : T = U := by rw [hT] at hU; exact Option.some.inj hU
    subst hTU
    by_cases hc : T.peer ≠ none ∨ T.state ≠ TU_ON_HOOK
    · simp [tu_dial, dial_busy, dial_ring, lock_pair, unlock_pair, mutex_lock, mutex_unlock, modify, notify_state,
        state_msg, hT, hc, Function.update]
      refine ⟨h1.1, ?_, h1.2.2⟩
      intro p hp
      simp [hp]
    · simp [tu_dial, dial_busy, dial_ring, lock_pair, unlock_pair, mutex_lock, mutex_unlock, modify, notify_state,
        state_msg, hT, hc, Function.update]
      refine ⟨h1.1, ?_, h1.2.2⟩
      intro p hp
      simp [hp]
  · have hc : U.peer ≠ none ∨ U.state ≠ TU_ON_HOOK := hbusy.resolve_left htu
    have htu2 : t ≠ u := fun h => htu h.symm
    rcases Nat.lt_or_ge t u with h | h
    · simp [tu_dial, dial_busy, dial_ring, lock_pair, unlock_pair, mutex_lock, mutex_unlock, modify, notify_state,
        state_msg, hT, hU, hc, htu, htu2, Function.update, h]
      refine ⟨h1.1, ?_, h1.2.2⟩
      intro p hp
      simp [hp]
    · have h3 : ¬ t < u := Nat.not_lt.mpr h
      simp [tu_dial, dial_busy, dial_ring, lock_pair, unlock_pair, mutex_lock, mutex_unlock, modify, notify_state,
        state_msg, hT, hU, hc, htu, htu2, Function.update, h3]
      refine ⟨h1.1, ?_, h1.2.2⟩
      intro p hp
      simp [hp]

/-- Claim C5 when A dials B and B is off hook (scenario 5 of the
specification): A sees `BUSY SIGNAL` and B is unchanged. -/
theorem tu_dial_busy_witness :
    ∃ w1, tu_dial w_offhook (some 1) (some 2) = some (w1, 0) ∧
      w1.heap 1 = some { tu_a with state := TU_BUSY_SIGNAL, sink := "BUSY SIGNAL\r\n".toList } ∧
      ((2 : Ptr) ≠ 1 → w1.heap 2 = some { tu_b with state := TU_DIAL_TONE }) ∧
      (∀ p, p ≠ 1 → w1.heap p = w_offhook.heap p) ∧ w1.pbx = w_offhook.pbx ∧
      benign w1.script :=
  tu_dial_busy w_offhook 1 2 tu_a { tu_b with state := TU_DIAL_TONE } rfl rfl
    (Or.inr (Or.inr (by decide))) (by decide)

/-- Claim C6: for every registry, caller T and integer e that is outside
`[0, MAX_EXT)` or names an empty slot, `pbx_dial(T, e)` returns -1, puts T in
`ERROR`, appends the line `ERROR` to the sink of T and leaves the registry and
every other TU as they were; and `pbx_dial` returns -1 in no other case. -/
theorem pbx_dial_absent (MAX_EXT : Int) (w : World) (t : Ptr) (T : TU) (e : Int)
    (hT : w.heap t = some T) (hs : benign w.script) :
    ((e < 0 ∨ MAX_EXT ≤ e ∨ w.pbx.extensions e.toNat = none) →
      ∃ w1, pbx_dial MAX_EXT w (some t) e = some (w1, -1) ∧
        w1.heap t = some { T with state := TU_ERROR, sink := T.sink ++ "ERROR\r\n".toList } ∧
        (∀ p, p ≠ t → w1.heap p = w.heap p) ∧ w1.pbx = w.pbx) ∧
    (∀ w1, pbx_dial MAX_EXT w (some t) e = some (w1, -1) →
      e < 0 ∨ MAX_EXT ≤ e ∨ w.pbx.extensions e.toNat = none) := by
  constructor
  · intro habs
    have htarget : (if e ≥ 0 ∧ e < MAX_EXT then w.pbx.extensions e.toNat else none) = none := by
      rcases habs with h | h | h
      · have : ¬ (e ≥ 0 ∧ e < MAX_EXT) := by omega
        simp [this]
      · have : ¬ (e ≥ 0 ∧ e < MAX_EXT) := by omega
        simp [this]
      · simp [h]
    have h1 := write_loop_benign w.script "ERROR\r\n".toList T.sink hs
    simp only [String.toList] at h1
    simp [pbx_dial, htarget, tu_dial, mutex_lock, mutex_unlock, modify, notify_state, state_msg,
      hT, Function.update]
    refine ⟨h1.1, ?_⟩
    intro p hp
    simp [hp]
  · intro w1 h
    by_contra hc
    push_neg at hc
    obtain ⟨u, hu⟩ := Option.ne_none_iff_exists'.mp hc.2.2
    have htarget : (if e ≥ 0 ∧ e < MAX_EXT then w.pbx.extensions e.toNat else none) = some u := by
      simp [hc.1, hc.2.1, hu]
    simp only [pbx_dial, mutex_lock, mutex_unlock, Option.bind_eq_bind, Option.some_bind,
      htarget] at h
    have key : ∀ x : Option (World × Int), (∀ w2 r, x = some (w2, r) → r = 0) →
        (x.bind fun d => if d.2 = -1 then some (d.1, (-1 : Int)) else some (d.1, 0)) =
          some (w1, -1) → False := by
      intro x hx hb
      cases x with
      | none => simp at hb
      | some d =>
        obtain ⟨w2, r⟩ := d
        have hr := hx w2 r rfl
        subst hr
        simp at hb
    exact key _ (tu_dial_present_ret _ t u) h

/-- Claim C6 when A dials 999 and 1024 extensions exist (scenario 4 of the
specification): the call fails and A sees `ERROR`. -/
theorem pbx_dial_absent_witness :
    ∃ w1, pbx_dial 1024 w_idle (some 1) 999 = some (w1, -1) ∧
      w1.heap 1 = some { tu_a with state := TU_ERROR, sink := "ERROR\r\n".toList } ∧
      (∀ p, p ≠ 1 → w1.heap p = w_idle.heap p) ∧ w1.pbx = w_idle.pbx :=
  (pbx_dial_absent 1024 w_idle 1 tu_a 999 rfl (by decide)).1 (Or.inr (Or.inr (by decide)))

/-! ## Picking up and hanging up -/

/-- Claim C2, amended: for every TU T in state `RINGING` whose peer is U, with U
different from T and T the peer of U, `tu_pickup(T)` returns 0 and puts both in
`CONNECTED`, with peers and reference counts unchanged, appending the line
`CONNECTED <U.extension>` to the sink of T and `CONNECTED <T.extension>` to the
sink of U. -/
theorem tu_pickup_ringing (w : World) (t u : Ptr) (T U : TU)
    (hT : w.heap t = some T) (hU : w.heap u = some U) (hne : u ≠ t)
    (hstate : T.state = TU_RINGING) (hpeer : T.peer = some u) (hback : U.peer = some t)
    (hs : benign w.script) :
    ∃ w1, tu_pickup w (some t) = some (w1, 0) ∧
      w1.heap t = some { T with state := TU_CONNECTED,
                                sink := T.sink ++ ("CONNECTED ".toList ++ fmt_d U.ext ++ "\r\n".toList) } ∧
      w1.heap u = some { U with state := TU_CONNECTED,
                                sink := U.sink ++ ("CONNECTED ".toList ++ fmt_d T.ext ++ "\r\n".toList) } ∧
      (∀ p, p ≠ t → p ≠ u → w1.heap p = w.heap p) ∧ w1.pbx = w.pbx ∧ benign w1.script := by
  obtain ⟨w1, hw1, rest⟩ := pickup_pair_linked
    { w with locks := w.locks ++ [.acquire (.tu t)] ++ [.release (.tu t)] } t u T U
    (if t < u then t else u) (if t < u then u else t) hT hU hne (lock_order_cases t u)
    hpeer hback hs
  refine ⟨w1, ?_, rest⟩
  simpa [tu_pickup, mutex_lock, mutex_unlock, hT, hstate, hpeer] using hw1

/-- Claim C2, amended, when B answers the call of A (scenario 2 of the
specification): B sees `CONNECTED 3` and A sees `CONNECTED 7`. -/
theorem tu_pickup_ringing_witness :
    ∃ w1, tu_pickup w_ringing (some 2) = some (w1, 0) ∧
      w1.heap 2 = some { tu_b with state := TU_CONNECTED, peer := some 1, refs := 3,
                                   sink := "CONNECTED 3\r\n".toList } ∧
      w1.heap 1 = some { tu_a with state := TU_CONNECTED, peer := some 2, refs := 3,
                                   sink := "CONNECTED 7\r\n".toList } ∧
      (∀ p, p ≠ 2 → p ≠ 1 → w1.heap p = w_ringing.heap p) ∧ w1.pbx = w_ringing.pbx ∧
      benign w1.script :=
  tu_pickup_ringing w_ringing 2 1 { tu_b with state := TU_RINGING, peer := some 1, refs := 3 }
    { tu_a with state := TU_RING_BACK, peer := some 2, refs := 3 } rfl rfl (by decide) rfl rfl rfl
    (by decide)

/-- Claim C2 as stated fails.  In `w_cross` B is `RINGING` with peer A, but the
peer of A is C: when B picks up, the line written to A names the extension 9
of C and not the extension 7 of B.  In `w_self` the ringing TU is its own peer:
its sink receives the line twice. -/
theorem tu_pickup_ringing_counterexample :
    (w_cross.heap 2 = some { tu_b with state := TU_RINGING, peer := some 1, refs := 3 } ∧
     observe (tu_pickup w_cross (some 2)) [2, 1] =
      some (0, [some { tu_b with state := TU_CONNECTED, peer := some 1, refs := 3,
                                 sink := "CONNECTED 3\r\n".toList },
                some { tu_a with state := TU_CONNECTED, peer := some 3, refs := 4,
                                 sink := "CONNECTED 9\r\n".toList }]) ∧
     "CONNECTED 9\r\n".toList ≠ "CONNECTED ".toList ++ fmt_d tu_b.ext ++ "\r\n".toList) ∧
    (w_self.heap 1 = some { tu_a with state := TU_RINGING, peer := some 1, refs := 3 } ∧
     observe (tu_pickup w_self (some 1)) [1] =
      some (0, [some { tu_a with state := TU_CONNECTED, peer := some 1, refs := 3,
                                 sink := "CONNECTED 3\r\nCONNECTED 3\r\n".toList }]) ∧
     "CONNECTED 3\r\nCONNECTED 3\r\n".toList ≠
       "CONNECTED ".toList ++ fmt_d tu_a.ext ++ "\r\n".toList) := by
  refine ⟨⟨rfl, ?_, ?_⟩, ⟨rfl, ?_, ?_⟩⟩ <;> decide

/-- Claim C3, amended: for every TU T in state `CONNECTED` or `RINGING` whose peer
is U, U different from T, both with a reference count other than 1,
`tu_hangup(T)` returns 0 and leaves T in `ON_HOOK` and U in `DIAL_TONE`, both
without a peer, each reference count one lower, with the line
`ON HOOK <T.extension>` appended to the sink of T and `DIAL TONE` to the sink
of U. -/
theorem tu_hangup_connected_or_ringing (w : World) (t u : Ptr) (T U : TU)
    (hT : w.heap t = some T) (hU : w.heap u = some U) (hne : u ≠ t)
    (hstate : T.state = TU_CONNECTED ∨ T.state = TU_RINGING) (hpeer : T.peer = some u)
    (hrT : T.refs ≠ 1) (hrU : U.refs ≠ 1) (hs : benign w.script) :
    ∃ w1, tu_hangup w (some t) = some (w1, 0) ∧
      w1.heap t = some { T with state := TU_ON_HOOK, peer := none, refs := T.refs - 1,
                                sink := T.sink ++ ("ON HOOK ".toList ++ fmt_d T.ext ++ "\r\n".toList) } ∧
      w1.heap u = some { U with state := TU_DIAL_TONE, peer := none, refs := U.refs - 1,
                                sink := U.sink ++ "DIAL TONE\r\n".toList } ∧
      (∀ p, p ≠ t → p ≠ u → w1.heap p = w.heap p) ∧ w1.pbx = w.pbx ∧ benign w1.script := by
  obtain ⟨l, hl⟩ := lock_pair_live w (if t < u then t else u) (if t < u then u else t)
    (by split_ifs <;> simp [hT, hU]) (by split_ifs <;> simp [hT, hU])
  obtain ⟨w1, hw1, rest⟩ := hangup_pair_dial_tone { w with locks := l } t u T U
    (if t < u then t else u) (if t < u then u else t) hT hU hne (lock_order_cases t u) hrT hrU hs
  refine ⟨w1, ?_, rest⟩
  rcases hstate with h | h
  · simp [tu_hangup, hT, h, hpeer, hl, hw1]
  · simp [tu_hangup, hT, h, hpeer, hl, hw1]

/-- Claim C3, amended, when B hangs up on the connected A (scenario 2 of the
specification): B sees `ON HOOK 7` and A sees `DIAL TONE`. -/
theorem tu_hangup_connected_or_ringing_witness :
    ∃ w1, tu_hangup w_connected (some 2) = some (w1, 0) ∧
      w1.heap 2 = some { tu_b with state := TU_ON_HOOK, peer := none, refs := 2,
                                   sink := "ON HOOK 7\r\n".toList } ∧
      w1.heap 1 = some { tu_a with state := TU_DIAL_TONE, peer := none, refs := 2,
                                   sink := "DIAL TONE\r\n".toList } ∧
      (∀ p, p ≠ 2 → p ≠ 1 → w1.heap p = w_connected.heap p) ∧ w1.pbx = w_connected.pbx ∧
      benign w1.script :=
  tu_hangup_connected_or_ringing w_connected 2 1
    { tu_b with state := TU_CONNECTED, peer := some 1, refs := 3 }
    { tu_a with state := TU_CONNECTED, peer := some 2, refs := 3 } rfl rfl (by decide)
    (Or.inl rfl) rfl (by decide) (by decide) (by decide)

/-- Claim C3 as stated fails.  In `w_last_ref` A is connected to B and holds
its last reference: `tu_hangup(A)` releases A and then notifies it.  In
`w_orphan_connected`, reached through calls of the client service alone, B is
`CONNECTED` with peer A and A holds its last reference: `tu_hangup(B)` releases
A and then notifies it.  No call of the two has a defined result, where the
claim has them return 0. -/
theorem tu_hangup_connected_counterexample :
    (w_last_ref.heap 1 = some { tu_a with state := TU_CONNECTED, peer := some 2, refs := 1 } ∧
     w_last_ref.heap 2 = some { tu_b with state := TU_CONNECTED, peer := some 1, refs := 3 } ∧
     tu_hangup w_last_ref (some 1) = none) ∧
    w_orphan_connected.map
        (fun w => (w.heap 2, w.heap 1, observe (tu_hangup w (some 2)) [2, 1])) =
      some (some { tu_b with state := TU_CONNECTED, peer := some 1, refs := 3 },
            some { tu_a with state := TU_ON_HOOK, peer := some 2, refs := 1,
                             sink := "ERROR\r\nON HOOK 3\r\n".toList },
            none) := by
  refine ⟨⟨rfl, rfl, ?_⟩, ?_⟩
  · rfl
  · decide

/-- Claim C4, amended: for every TU T in state `RING_BACK` whose peer is U, U
different from T, both with a reference count other than 1, `tu_hangup(T)`
returns 0 and leaves both on hook without a peer, each reference count one
lower, with the line `ON HOOK <T.extension>` appended to the sink of T and
`ON HOOK <U.extension>` to the sink of U. -/
theorem tu_hangup_ring_back (w : World) (t u : Ptr) (T U : TU)
    (hT : w.heap t = some T) (hU : w.heap u = some U) (hne : u ≠ t)
    (hstate : T.state = TU_RING_BACK) (hpeer : T.peer = some u)
    (hrT : T.refs ≠ 1) (hrU : U.refs ≠ 1) (hs : benign w.script) :
    ∃ w1, tu_hangup w (some t) = some (w1, 0) ∧
      w1.heap t = some { T with state := TU_ON_HOOK, peer := none, refs := T.refs - 1,
                                sink := T.sink ++ ("ON HOOK ".toList ++ fmt_d T.ext ++ "\r\n".toList) } ∧
      w1.heap u = some { U with state := TU_ON_HOOK, peer := none, refs := U.refs - 1,
                                sink := U.sink ++ ("ON HOOK ".toList ++ fmt_d U.ext ++ "\r\n".toList) } ∧
      (∀ p, p ≠ t → p ≠ u → w1.heap p = w.heap p) ∧ w1.pbx = w.pbx ∧ benign w1.script := by
  obtain ⟨l, hl⟩ := lock_pair_live w (if t < u then t else u) (if t < u then u else t)
    (by split_ifs <;> simp [hT, hU]) (by split_ifs <;> simp [hT, hU])
  obtain ⟨w1, hw1, rest⟩ := hangup_pair_on_hook { w with locks := l } t u T U
    (if t < u then t else u) (if t < u then u else t) hT hU hne (lock_order_cases t u) hrT hrU hs
  refine ⟨w1, ?_, rest⟩
  simp [tu_hangup, hT, hstate, hpeer, hl, hw1]

/-- Claim C4, amended, when A hangs up while B rings (scenario 1 of the
specification): A sees `ON HOOK 3` and B sees `ON HOOK 7`. -/
theorem tu_hangup_ring_back_witness :
    ∃ w1, tu_hangup w_ringing (some 1) = some (w1, 0) ∧
      w1.heap 1 = some { tu_a with state := TU_ON_HOOK, peer := none, refs := 2,
                                   sink := "ON HOOK 3\r\n".toList } ∧
      w1.heap 2 = some { tu_b with state := TU_ON_HOOK, peer := none, refs := 2,
                                   sink := "ON HOOK 7\r\n".toList } ∧
      (∀ p, p ≠ 1 → p ≠ 2 → w1.heap p = w_ringing.heap p) ∧ w1.pbx = w_ringing.pbx ∧
      benign w1.script :=
  tu_hangup_ring_back w_ringing 1 2
    { tu_a with state := TU_RING_BACK, peer := some 2, refs := 3 }
    { tu_b with state := TU_RINGING, peer := some 1, refs := 3 } rfl rfl (by decide)
    rfl rfl (by decide) (by decide) (by decide)

/-- Claim C4 as stated fails.  In `w_orphan_ringing`, reached through calls of
the client service alone, A is in `RING_BACK` with peer B and B holds its last
reference: `tu_hangup(A)` releases B and then notifies it.  In
`w_last_ref_caller` A holds its last reference: `tu_hangup(A)` releases A and
then notifies it.  No call of the two has a defined result, where the claim
has them return 0. -/
theorem tu_hangup_ring_back_counterexample :
    w_orphan_ringing.map
        (fun w => (w.heap 1, w.heap 2, observe (tu_hangup w (some 1)) [1, 2])) =
      some (some { tu_a with state := TU_RING_BACK, peer := some 2, refs := 3 },
            some { tu_b with state := TU_ON_HOOK, peer := some 1, refs := 1,
                             sink := "ERROR\r\nON HOOK 7\r\n".toList },
            none) ∧
    (w_last_ref_caller.heap 1 =
        some { tu_a with state := TU_RING_BACK, peer := some 2, refs := 1 } ∧
     w_last_ref_caller.heap 2 =
        some { tu_b with state := TU_RINGING, peer := some 1, refs := 3 } ∧
     tu_hangup w_last_ref_caller (some 1) = none) := by
  refine ⟨?_, ⟨rfl, rfl, ?_⟩⟩
  · decide
  · rfl

/-! ## The invariants -/

/-- The system `w_three` satisfies I1, I2 and I3. -/
theorem w_three_invariants : I1 w_three ∧ I2 w_three ∧ I3 w_three := by
  have hcases : ∀ p : Ptr, p = 1 ∨ p = 2 ∨ p = 3 ∨ w_three.heap p = none := by
    intro p
    by_cases h1 : p = 1
    · exact Or.inl h1
    by_cases h2 : p = 2
    · exact Or.inr (Or.inl h2)
    by_cases h3 : p = 3
    · exact Or.inr (Or.inr (Or.inl h3))
    right; right; right
    simp [w_three, world_of, heap_of, h1, h2, h3]
  refine ⟨?_, ?_, ?_⟩
  · intro p T h
    rcases hcases p with rfl | rfl | rfl | hn
    · obtain rfl : _ = T := Option.some.inj h
      decide
    · obtain rfl : _ = T := Option.some.inj h
      decide
    · obtain rfl : _ = T := Option.some.inj h
      decide
    · rw [hn] at h; cases h
  · intro p q T h hq
    rcases hcases p with rfl | rfl | rfl | hn
    · obtain rfl : _ = T := Option.some.inj h
      obtain rfl : _ = q := Option.some.inj hq
      exact ⟨_, rfl, rfl⟩
    · obtain rfl : _ = T := Option.some.inj h
      obtain rfl : _ = q := Option.some.inj hq
      exact ⟨_, rfl, rfl⟩
    · obtain rfl : _ = T := Option.some.inj h
      cases hq
    · rw [hn] at h; cases h
  · intro p q T U h hq hU
    rcases hcases p with rfl | rfl | rfl | hn
    · obtain rfl : _ = T := Option.some.inj h
      obtain rfl : _ = q := Option.some.inj hq
      obtain rfl : _ = U := Option.some.inj hU
      decide
    · obtain rfl : _ = T := Option.some.inj h
      obtain rfl : _ = q := Option.some.inj hq
      obtain rfl : _ = U := Option.some.inj hU
      decide
    · obtain rfl : _ = T := Option.some.inj h
      cases hq
    · rw [hn] at h; cases h

/-- Claim C9 fails on the code: `tu_dial` never looks at the state of the
caller.  In `w_three`, where I1, I2 and I3 hold, A is connected to B; when A
dials the absent extension 999, A is put in `ERROR` and keeps its peer, so I1
no longer holds. -/
theorem pbx_dial_paired_caller_breaks_I1 :
    I1 w_three ∧ I2 w_three ∧ I3 w_three ∧
    observe (pbx_dial 1024 w_three (some 1) 999) [1] =
      some (-1, [some { tu_a with state := TU_ERROR, peer := some 2, refs := 3,
                                  sink := "ERROR\r\n".toList }]) ∧
    ∀ w1 r, pbx_dial 1024 w_three (some 1) 999 = some (w1, r) → ¬ I1 w1 := by
  have hobs : observe (pbx_dial 1024 w_three (some 1) 999) [1] =
      some (-1, [some { tu_a with state := TU_ERROR, peer := some 2, refs := 3,
                                  sink := "ERROR\r\n".toList }]) := by decide
  refine ⟨w_three_invariants.1, w_three_invariants.2.1, w_three_invariants.2.2, hobs, ?_⟩
  intro w1 r h hI
  rw [h] at hobs
  simp only [observe, Option.map_some', List.map_cons, List.map_nil, Option.some.injEq,
    Prod.mk.injEq, List.cons.injEq, and_true] at hobs
  have := hI 1 _ hobs.2
  revert this
  decide

/-- Claim C10 fails on the code: `tu_dial` never checks that the caller is free.
In `w_three`, where I1, I2 and I3 hold, A is connected to B; when A dials the
idle C at extension 9, A and C become peers while B still has A as its peer,
so the peer relation is no longer symmetric. -/
theorem pbx_dial_paired_caller_breaks_symmetry :
    I1 w_three ∧ I2 w_three ∧ I3 w_three ∧
    observe (pbx_dial 1024 w_three (some 1) 9) [1, 2, 3] =
      some (0, [some { tu_a with state := TU_RING_BACK, peer := some 3, refs := 4,
                                 sink := "RING BACK\r\n".toList },
                some { tu_b with state := TU_CONNECTED, peer := some 1, refs := 3 },
                some { tu_c with state := TU_RINGING, peer := some 1, refs := 3,
                                 sink := "RINGING\r\n".toList }]) ∧
    ∀ w1 r, pbx_dial 1024 w_three (some 1) 9 = some (w1, r) → ¬ I2 w1 := by
  have hobs : observe (pbx_dial 1024 w_three (some 1) 9) [1, 2, 3] =
      some (0, [some { tu_a with state := TU_RING_BACK, peer := some 3, refs := 4,
                                 sink := "RING BACK\r\n".toList },
                some { tu_b with state := TU_CONNECTED, peer := some 1, refs := 3 },
                some { tu_c with state := TU_RINGING, peer := some 1, refs := 3,
                                 sink := "RINGING\r\n".toList }]) := by decide
  refine ⟨w_three_invariants.1, w_three_invariants.2.1, w_three_invariants.2.2, hobs, ?_⟩
  intro w1 r h hI
  rw [h] at hobs
  simp only [observe, Option.map_some', List.map_cons, List.map_nil, Option.some.injEq,
    Prod.mk.injEq, List.cons.injEq, and_true] at hobs
  obtain ⟨U, hU, hUp⟩ := hI 2 1 _ hobs.2.2.1 rfl
  rw [hobs.2.1] at hU
  obtain rfl := Option.some.inj hU
  revert hUp
  decide

/-! ## Chat -/

set_option maxRecDepth 100000 in
/-- Claim C7 fails on the code for long messages: the line is built in
`temp[1024]`, so at most 1023 of its bytes are sent.  For a message of 1017
bytes sent by the connected A, B receives `CHAT`, the message and CR, without
the LF that ends the line. -/
theorem tu_chat_long_message_truncated :
    observe (tu_chat w_connected (some 1) (List.replicate 1017 'a')) [1, 2] =
      some (0, [some { tu_a with state := TU_CONNECTED, peer := some 2, refs := 3,
                                 sink := "CONNECTED 7\r\n".toList },
                some { tu_b with state := TU_CONNECTED, peer := some 1, refs := 3,
                                 sink := "CHAT ".toList ++ List.replicate 1017 'a' ++ ['\r'] }]) ∧
    "CHAT ".toList ++ List.replicate 1017 'a' ++ ['\r'] ≠
      "CHAT ".toList ++ List.replicate 1017 'a' ++ "\r\n".toList := by
  constructor
  · rfl
  · decide

/-- Claim C8 fails on the code: `tu_chat` never checks the state.  Called by B
while it rings for A (not `CONNECTED`), it writes the `CHAT` line to the sink of
A and returns 0; called by the idle A of `w_idle`, which has no peer, it locks
the mutex of the `NULL` peer and has no defined result. -/
theorem tu_chat_without_connection :
    observe (tu_chat w_ringing (some 2) "hi".toList) [2, 1] =
      some (0, [some { tu_b with state := TU_RINGING, peer := some 1, refs := 3,
                                 sink := "RINGING\r\n".toList },
                some { tu_a with state := TU_RING_BACK, peer := some 2, refs := 3,
                                 sink := "CHAT hi\r\n".toList }]) ∧
    tu_chat w_idle (some 1) "hi".toList = none := by
  constructor
  · decide
  · rfl

/-! ## The registry -/

/-- A failing `pbx_register` changes the lock trace only. -/
theorem pbx_register_fail (MAX_EXT : Int) (w : World) (t : Ptr) (e : Int)
    (h : w.pbx.shutdown_in_progress = true ∨ e < 0 ∨ MAX_EXT ≤ e ∨
      w.pbx.extensions e.toNat ≠ none) :
    ∃ l, pbx_register MAX_EXT w (some t) e = some ({ w with locks := l }, -1) := by
  by_cases hr : e < 0 ∨ e ≥ MAX_EXT
  · exact ⟨w.locks, by simp [pbx_register, hr]⟩
  · by_cases hsd : w.pbx.shutdown_in_progress = true
    · exact ⟨w.locks ++ [.acquire .pbx, .release .pbx],
        by simp [pbx_register, hr, mutex_lock, mutex_unlock, hsd]⟩
    · have hocc : w.pbx.extensions e.toNat ≠ none := by
        rcases h with h | h | h | h
        · exact absurd h hsd
        · exact absurd (Or.inl h) hr
        · exact absurd (Or.inr h) hr
        · exact h
      exact ⟨w.locks ++ [.acquire .pbx, .release .pbx],
        by simp [pbx_register, hr, mutex_lock, mutex_unlock, hsd, hocc]⟩

/-- The world left by a `pbx_register` that goes through. -/
theorem pbx_register_ok (MAX_EXT : Int) (w : World) (t : Ptr) (T : TU) (e : Int)
    (hT : w.heap t = some T)
    (hsd : w.pbx.shutdown_in_progress = false) (h0 : 0 ≤ e) (h1 : e < MAX_EXT)
    (hfree : w.pbx.extensions e.toNat = none) :
    ∃ l, pbx_register MAX_EXT w (some t) e =
      some ({ heap := Function.update w.heap t (some { T with
                refs := T.refs + 1, ext := e,
                sink := (sys_write w.script (snprintf 256 (on_hook_line e)) T.sink).2.1 }),
              pbx := { extensions := Function.update w.pbx.extensions e.toNat (some t),
                       shutdown_in_progress := w.pbx.shutdown_in_progress,
                       active_tus := w.pbx.active_tus + 1 },
              script := (sys_write w.script (snprintf 256 (on_hook_line e)) T.sink).1,
              locks := l }, 0) := by
  have hr : ¬ (e < 0 ∨ e ≥ MAX_EXT) := by omega
  have hr2 : ¬ (e > MAX_EXT ∨ e < 0) := by omega
  refine ⟨w.locks ++ [.acquire .pbx, .acquire (.tu t), .release (.tu t), .release .pbx], ?_⟩
  simp [pbx_register, hr, hr2, mutex_lock, mutex_unlock, hsd, hfree, tu_ref, modify,
    tu_set_extension, hT, on_hook_line, Function.update_same, -String.toList]

/-- Without a live TU a `pbx_register` that passes its checks has no result. -/
theorem pbx_register_dangling (MAX_EXT : Int) (w : World) (t : Ptr) (e : Int)
    (hT : w.heap t = none)
    (hsd : w.pbx.shutdown_in_progress = false) (h0 : 0 ≤ e) (h1 : e < MAX_EXT)
    (hfree : w.pbx.extensions e.toNat = none) :
    pbx_register MAX_EXT w (some t) e = none := by
  have hr : ¬ (e < 0 ∨ e ≥ MAX_EXT) := by omega
  simp [pbx_register, hr, mutex_lock, hsd, hfree, tu_ref, modify, hT]

/-- The decimal text of an extension below `2 ^ 31` has at most ten digits. -/
theorem fmt_d_length (e : Int) (h0 : 0 ≤ e) (h1 : e < 2 ^ 31) : (fmt_d e).length ≤ 10 := by
  obtain ⟨n, rfl⟩ := Int.eq_ofNat_of_zero_le h0
  have hn : n < 10 ^ 10 := by
    have : (n : Int) < 2 ^ 31 := h1
    norm_num at this ⊢
    omega
  exact Nat.toDigitsCore_length 10 (by norm_num) (n + 1) n 10 hn (by norm_num)

/-- The line `ON HOOK <e>` fits in `temp[256]`. -/
theorem snprintf_on_hook_line (e : Int) (h0 : 0 ≤ e) (h1 : e < 2 ^ 31) :
    snprintf 256 (on_hook_line e) = on_hook_line e := by
  unfold snprintf
  apply List.take_of_length_le
  have := fmt_d_length e h0 h1
  simp [on_hook_line, EOL]
  omega

/-- A write that is accepted whole appends the buffer to the stream. -/
theorem sys_write_whole (s : List WriteOutcome) (buf sink : List Char)
    (h : whole_write s buf.length = true) : (sys_write s buf sink).2.1 = sink ++ buf := by
  cases s with
  | nil => rfl
  | cons o s =>
    cases o with
    | accept k =>
      have hk : buf.length ≤ k := by simpa [whole_write] using h
      simp [sys_write, List.take_of_length_le hk]
    | eintr => simp [whole_write] at h
    | fail => simp [whole_write] at h

/-- Claim C11: for a TU T, `pbx_register(pbx, T, e)` returns -1 exactly when the
registry is shutting down, or e is outside `[0, MAX_EXT)`, or the slot e is
occupied, and returns 0 otherwise; when it returns -1 the registry and all
TUs, so T, are as they were. -/
theorem pbx_register_fails_iff (MAX_EXT : Int) (w : World) (t : Ptr) (T : TU) (e : Int)
    (hT : w.heap t = some T) :
    ∃ w1 r, pbx_register MAX_EXT w (some t) e = some (w1, r) ∧ (r = -1 ∨ r = 0) ∧
      (r = -1 ↔ (w.pbx.shutdown_in_progress = true ∨ e < 0 ∨ MAX_EXT ≤ e ∨
        w.pbx.extensions e.toNat ≠ none)) ∧
      (r = -1 → w1.pbx = w.pbx ∧ w1.heap = w.heap ∧ w1.script = w.script) := by
  by_cases hc : w.pbx.shutdown_in_progress = true ∨ e < 0 ∨ MAX_EXT ≤ e ∨
      w.pbx.extensions e.toNat ≠ none
  · obtain ⟨l, hl⟩ := pbx_register_fail MAX_EXT w t e hc
    exact ⟨_, _, hl, Or.inl rfl, ⟨fun _ => hc, fun _ => rfl⟩, fun _ => ⟨rfl, rfl, rfl⟩⟩
  · have hc' := hc
    simp only [not_or, not_le, not_lt, ne_eq, not_not, Bool.not_eq_true] at hc'
    obtain ⟨l, hl⟩ := pbx_register_ok MAX_EXT w t T e hT hc'.1 hc'.2.1 hc'.2.2.1 hc'.2.2.2
    refine ⟨_, _, hl, Or.inr rfl, ⟨fun h => ?_, fun h => absurd h hc⟩, fun h => ?_⟩
    · exact absurd h (by decide)
    · exact absurd h (by decide)

/-- Claim C11 when B asks for the extension 3, which A holds: the call fails and
nothing but the lock trace changes. -/
theorem pbx_register_fails_iff_witness :
    ∃ w1 r, pbx_register 1024 w_idle (some 2) 3 = some (w1, r) ∧ (r = -1 ∨ r = 0) ∧
      (r = -1 ↔ (w_idle.pbx.shutdown_in_progress = true ∨ (3 : Int) < 0 ∨ (1024 : Int) ≤ 3 ∨
        w_idle.pbx.extensions (3 : Int).toNat ≠ none)) ∧
      (r = -1 → w1.pbx = w_idle.pbx ∧ w1.heap = w_idle.heap ∧ w1.script = w_idle.script) :=
  pbx_register_fails_iff 1024 w_idle 2 tu_b 3 rfl

/-- What a successful registration does on a sink that takes the line in one
write: whenever `pbx_register(pbx, T, e)` returns 0 there, the slot e holds T, every other slot and the
shutdown flag are unchanged, the counter of active TUs is one higher, T has the
extension e, one more reference, the same state and peer, and the line
`ON HOOK <e>` appended to its sink, and every other TU is unchanged. -/
theorem pbx_register_success (MAX_EXT : Int) (w w1 : World) (t : Ptr) (e : Int)
    (hM : MAX_EXT ≤ 2 ^ 31)
    (hwr : whole_write w.script (on_hook_line e).length = true)
    (h : pbx_register MAX_EXT w (some t) e = some (w1, 0)) :
    ∃ T, w.heap t = some T ∧
      w1.pbx.extensions e.toNat = some t ∧
      (∀ i, i ≠ e.toNat → w1.pbx.extensions i = w.pbx.extensions i) ∧
      w1.pbx.active_tus = w.pbx.active_tus + 1 ∧
      w1.pbx.shutdown_in_progress = w.pbx.shutdown_in_progress ∧
      w1.heap t = some { T with ext := e, refs := T.refs + 1,
                                sink := T.sink ++ ("ON HOOK ".toList ++ fmt_d e ++ "\r\n".toList) } ∧
      (∀ p, p ≠ t → w1.heap p = w.heap p) := by
  by_cases hc : w.pbx.shutdown_in_progress = true ∨ e < 0 ∨ MAX_EXT ≤ e ∨
      w.pbx.extensions e.toNat ≠ none
  · obtain ⟨l, hl⟩ := pbx_register_fail MAX_EXT w t e hc
    rw [hl] at h
    simp at h
  · simp only [not_or, not_le, not_lt, ne_eq, not_not, Bool.not_eq_true] at hc
    cases hT : w.heap t with
    | none =>
      rw [pbx_register_dangling MAX_EXT w t e hT hc.1 hc.2.1 hc.2.2.1 hc.2.2.2] at h
      cases h
    | some T =>
      obtain ⟨l, hl⟩ := pbx_register_ok MAX_EXT w t T e hT hc.1 hc.2.1 hc.2.2.1 hc.2.2.2
      rw [hl] at h
      have hw : _ = w1 := (Prod.mk.inj (Option.some.inj h)).1
      subst hw
      have hsn := snprintf_on_hook_line e hc.2.1 (by omega)
      have hsw := sys_write_whole w.script (on_hook_line e) T.sink hwr
      refine ⟨T, rfl, by simp, ?_, rfl, rfl, ?_, ?_⟩
      · intro i hi
        simp [Function.update_noteq hi]
      · simp only [Function.update_same, hsn, hsw]
        simp [on_hook_line, EOL]
      · intro p hp
        simp [Function.update_noteq hp]

/-- A successful registration, when the new TU at the address 3 registers at the
extension 9 on a sink that accepts up to 64 bytes. -/
theorem pbx_register_success_witness :
    ∃ w1, pbx_register 1024 w_new (some 3) 9 = some (w1, 0) ∧
    ∃ T, w_new.heap 3 = some T ∧
      w1.pbx.extensions (9 : Int).toNat = some 3 ∧
      (∀ i, i ≠ (9 : Int).toNat → w1.pbx.extensions i = w_new.pbx.extensions i) ∧
      w1.pbx.active_tus = w_new.pbx.active_tus + 1 ∧
      w1.pbx.shutdown_in_progress = w_new.pbx.shutdown_in_progress ∧
      w1.heap 3 = some { T with ext := 9, refs := T.refs + 1,
                                sink := T.sink ++ ("ON HOOK ".toList ++ fmt_d 9 ++ "\r\n".toList) } ∧
      (∀ p, p ≠ 3 → w1.heap p = w_new.heap p) :=
  ⟨_, rfl, pbx_register_success 1024 w_new _ 3 9 (by norm_num) (by decide) rfl⟩

/-- Claim C12 fails for the line that a successful registration sends:
`tu_set_extension` calls `write` once.  On a sink that accepts four bytes of the
first write, which is a sink that accepts every write in part, `pbx_register`
returns 0, the slot 9 holds the new TU, one more TU is active, the TU has the
extension 9 and two references, its state and peer are unchanged, and its sink
holds `ON H`, not the line `ON HOOK 9` with its CR LF.  On a sink whose first
write is interrupted it holds nothing. -/
theorem pbx_register_partial_line :
    benign w_slow.script ∧
    (pbx_register 1024 w_slow (some 3) 9).map
        (fun x => (x.2, x.1.pbx.extensions 9, x.1.pbx.active_tus, x.1.heap 3)) =
      some (0, some 3, 3, some { tu_new with ext := 9, refs := 2, sink := "ON H".toList }) ∧
    "ON H".toList ≠ on_hook_line 9 ∧
    benign w_interrupted.script ∧
    (pbx_register 1024 w_interrupted (some 3) 9).map
        (fun x => (x.2, x.1.pbx.extensions 9, x.1.pbx.active_tus, x.1.heap 3)) =
      some (0, some 3, 3, some { tu_new with ext := 9, refs := 2, sink := [] }) := by
  refine ⟨by decide, by decide, by decide, by decide, by decide⟩

/-! ## Hanging up and picking up a TU that has no call -/

/-- Hanging up in `DIAL_TONE`, `BUSY_SIGNAL` or `ERROR` puts the TU on hook and
writes to its sink; nothing else changes. -/
theorem tu_hangup_simple (w : World) (t : Ptr) (T : TU) (hT : w.heap t = some T)
    (hst : T.state = TU_DIAL_TONE ∨ T.state = TU_BUSY_SIGNAL ∨ T.state = TU_ERROR) :
    ∃ w1 s, tu_hangup w (some t) = some (w1, 0) ∧
      w1.heap = Function.update w.heap t (some { T with state := TU_ON_HOOK, sink := s }) ∧
      w1.pbx = w.pbx := by
  rcases hst with h | h | h <;>
  · simp [tu_hangup, hT, h, mutex_lock, mutex_unlock, modify, notify_state, state_msg,
      Function.update_same, -String.toList]
    exact ⟨_, rfl⟩

/-- Hanging up on hook writes to the sink of the TU and changes nothing else. -/
theorem tu_hangup_on_hook (w : World) (t : Ptr) (T : TU) (hT : w.heap t = some T)
    (hst : T.state = TU_ON_HOOK) :
    ∃ w1 s, tu_hangup w (some t) = some (w1, 0) ∧
      w1.heap = Function.update w.heap t (some { T with sink := s }) ∧
      w1.pbx = w.pbx := by
  simp [tu_hangup, hT, hst, mutex_lock, mutex_unlock, notify_state, state_msg,
    Function.update_same, -String.toList]
  exact ⟨_, rfl⟩

/-! ## Calls between two TUs, whatever the sinks do -/

/-- The release of a pair: both lose their peer and one reference, the caller
goes on hook and the peer to the given state; only the two sinks change
besides. -/
theorem hangup_pair_fields (w : World) (t u : Ptr) (T U : TU) (s : TU_STATE) (a b : Ptr)
    (hT : w.heap t = some T) (hU : w.heap u = some U) (hne : u ≠ t)
    (hab : (a = t ∧ b = u) ∨ (a = u ∧ b = t))
    (hs : s = TU_ON_HOOK ∨ s = TU_DIAL_TONE)
    (hrT : T.refs ≠ 1) (hrU : U.refs ≠ 1) :
    ∃ w1 sT sU, hangup_pair w t u s a b = some (w1, 0) ∧
      w1.heap t = some { T with state := TU_ON_HOOK, peer := none, refs := T.refs - 1,
                                sink := sT } ∧
      w1.heap u = some { U with state := s, peer := none, refs := U.refs - 1, sink := sU } ∧
      (∀ p, p ≠ t → p ≠ u → w1.heap p = w.heap p) ∧ w1.pbx = w.pbx := by
  have hne2 : t ≠ u := fun h => hne h.symm
  have hrT2 : ¬ (T.refs - 1 = 0) := by omega
  have hrU2 : ¬ (U.refs - 1 = 0) := by omega
  rcases hs with rfl | rfl <;> rcases hab with ⟨rfl, rfl⟩ | ⟨rfl, rfl⟩ <;>
  · simp [hangup_pair, unlock_pair, mutex_unlock, modify, tu_unref,
      notify_state, state_msg, hT, hU, hne, hne2, hrT2, hrU2, Function.update_same,
      Function.update_noteq, -String.toList]
    intro p hp1 hp2
    simp [Function.update, hp1, hp2]

/-- Hanging up on a peer: `tu_hangup` on a TU in one of the three paired states
whose peer is another live TU. -/
theorem tu_hangup_paired_fields (w : World) (t u : Ptr) (T U : TU)
    (hT : w.heap t = some T) (hU : w.heap u = some U) (hne : u ≠ t)
    (hstate : paired T.state) (hpeer : T.peer = some u)
    (hrT : T.refs ≠ 1) (hrU : U.refs ≠ 1) :
    ∃ w1 sT sU, tu_hangup w (some t) = some (w1, 0) ∧
      w1.heap t = some { T with state := TU_ON_HOOK, peer := none, refs := T.refs - 1,
                                sink := sT } ∧
      w1.heap u = some { U with
        state := if T.state = TU_RING_BACK then TU_ON_HOOK else TU_DIAL_TONE,
        peer := none, refs := U.refs - 1, sink := sU } ∧
      (∀ p, p ≠ t → p ≠ u → w1.heap p = w.heap p) ∧ w1.pbx = w.pbx := by
  obtain ⟨l, hl⟩ := lock_pair_live w (if t < u then t else u) (if t < u then u else t)
    (by split_ifs <;> simp [hT, hU]) (by split_ifs <;> simp [hT, hU])
  rcases hstate with h | h | h
  · obtain ⟨w1, sT, sU, hw1, rest⟩ := hangup_pair_fields { w with locks := l } t u T U
      TU_DIAL_TONE (if t < u then t else u) (if t < u then u else t) hT hU hne
      (lock_order_cases t u) (Or.inr rfl) hrT hrU
    refine ⟨w1, sT, sU, ?_, ?_⟩
    · simp [tu_hangup, hT, h, hpeer, hl, hw1]
    · simpa [h] using rest
  · obtain ⟨w1, sT, sU, hw1, rest⟩ := hangup_pair_fields { w with locks := l } t u T U
      TU_ON_HOOK (if t < u then t else u) (if t < u then u else t) hT hU hne
      (lock_order_cases t u) (Or.inl rfl) hrT hrU
    refine ⟨w1, sT, sU, ?_, ?_⟩
    · simp [tu_hangup, hT, h, hpeer, hl, hw1]
    · simpa [h] using rest
  · obtain ⟨w1, sT, sU, hw1, rest⟩ := hangup_pair_fields { w with locks := l } t u T U
      TU_DIAL_TONE (if t < u then t else u) (if t < u then u else t) hT hU hne
      (lock_order_cases t u) (Or.inr rfl) hrT hrU
    refine ⟨w1, sT, sU, ?_, ?_⟩
    · simp [tu_hangup, hT, h, hpeer, hl, hw1]
    · simpa [h] using rest

/-- Dialling a free target that is on hook, whatever the sinks do. -/
theorem tu_dial_fields (w : World) (t u : Ptr) (T U : TU)
    (hT : w.heap t = some T) (hU : w.heap u = some U) (hne : u ≠ t)
    (hpeer : U.peer = none) (hstate : U.state = TU_ON_HOOK) :
    ∃ w1 sT sU, tu_dial w (some t) (some u) = some (w1, 0) ∧
      w1.heap t = some { T with state := TU_RING_BACK, peer := some u, refs := T.refs + 1,
                                sink := sT } ∧
      w1.heap u = some { U with state := TU_RINGING, peer := some t, refs := U.refs + 1,
                                sink := sU } ∧
      (∀ p, p ≠ t → p ≠ u → w1.heap p = w.heap p) ∧ w1.pbx = w.pbx := by
  have hne2 : t ≠ u := fun h => hne h.symm
  rcases lock_order_cases t u with ⟨e1, e2⟩ | ⟨e1, e2⟩ <;>
  · simp [tu_dial, dial_ring, e1, e2, lock_pair, unlock_pair, mutex_lock, mutex_unlock, modify,
      tu_ref, notify_state, state_msg, hT, hU, hne, hne2, hpeer, hstate, Function.update_same,
      Function.update_noteq, -String.toList]
    intro p hp1 hp2
    simp [Function.update, hp1, hp2]

/-- The connection of a pair, whatever the sinks do. -/
theorem pickup_pair_fields (w : World) (t u : Ptr) (T U : TU) (a b : Ptr)
    (hT : w.heap t = some T) (hU : w.heap u = some U) (hne : u ≠ t)
    (hab : (a = t ∧ b = u) ∨ (a = u ∧ b = t))
    (hpeer : T.peer = some u) (hback : U.peer = some t) :
    ∃ w1 sT sU, pickup_pair w t u a b = some (w1, 0) ∧
      w1.heap t = some { T with state := TU_CONNECTED, sink := sT } ∧
      w1.heap u = some { U with state := TU_CONNECTED, sink := sU } ∧
      (∀ p, p ≠ t → p ≠ u → w1.heap p = w.heap p) ∧ w1.pbx = w.pbx := by
  have hne2 : t ≠ u := fun h => hne h.symm
  rcases hab with ⟨rfl, rfl⟩ | ⟨rfl, rfl⟩ <;>
  · simp [pickup_pair, lock_pair, unlock_pair, mutex_lock, mutex_unlock, modify,
      notify_state, state_msg, hT, hU, hne, hne2, hpeer, hback, Function.update_same,
      Function.update_noteq, -String.toList]
    intro p hp1 hp2
    simp [Function.update, hp1, hp2]

/-- Answering a call, whatever the sinks do: the ringing TU and its peer, whose
peer it is, are connected. -/
theorem tu_pickup_fields (w : World) (t u : Ptr) (T U : TU)
    (hT : w.heap t = some T) (hU : w.heap u = some U) (hne : u ≠ t)
    (hstate : T.state = TU_RINGING) (hpeer : T.peer = some u) (hback : U.peer = some t) :
    ∃ w1 sT sU, tu_pickup w (some t) = some (w1, 0) ∧
      w1.heap t = some { T with state := TU_CONNECTED, sink := sT } ∧
      w1.heap u = some { U with state := TU_CONNECTED, sink := sU } ∧
      (∀ p, p ≠ t → p ≠ u → w1.heap p = w.heap p) ∧ w1.pbx = w.pbx := by
  obtain ⟨w1, sT, sU, hw1, rest⟩ := pickup_pair_fields
    { w with locks := w.locks ++ [.acquire (.tu t)] ++ [.release (.tu t)] } t u T U
    (if t < u then t else u) (if t < u then u else t) hT hU hne (lock_order_cases t u)
    hpeer hback
  refine ⟨w1, sT, sU, ?_, rest⟩
  simpa [tu_pickup, mutex_lock, mutex_unlock, hT, hstate, hpeer] using hw1

/-- Claim C16, amended: for all distinct TUs A and B that are on hook with no peer
and reference counts other than 0, `tu_dial(A, B)`, then `tu_pickup(B)`, then
`tu_hangup(A)` all return 0 and leave A in `ON_HOOK` and B in `DIAL_TONE`,
neither with a peer. -/
theorem dial_pickup_hangup (w : World) (a b : Ptr) (A B : TU)
    (hA : w.heap a = some A) (hB : w.heap b = some B) (hne : b ≠ a)
    (hBs : B.state = TU_ON_HOOK) (hBp : B.peer = none)
    (hAr : A.refs ≠ 0) (hBr : B.refs ≠ 0) :
    ∃ w1 w2 w3, tu_dial w (some a) (some b) = some (w1, 0) ∧
      tu_pickup w1 (some b) = some (w2, 0) ∧ tu_hangup w2 (some a) = some (w3, 0) ∧
      ∃ A3 B3, w3.heap a = some A3 ∧ w3.heap b = some B3 ∧
        A3.state = TU_ON_HOOK ∧ B3.state = TU_DIAL_TONE ∧ A3.peer = none ∧ B3.peer = none := by
  have hne2 : a ≠ b := fun h => hne h.symm
  obtain ⟨w1, sA1, sB1, h1, hA1, hB1, _, _⟩ := tu_dial_fields w a b A B hA hB hne hBp hBs
  obtain ⟨w2, sB2, sA2, h2, hB2, hA2, _, _⟩ :=
    tu_pickup_fields w1 b a _ _ hB1 hA1 hne2 rfl rfl rfl
  obtain ⟨w3, sA3, sB3, h3, hA3, hB3, _, _⟩ :=
    tu_hangup_paired_fields w2 a b _ _ hA2 hB2 hne (Or.inr (Or.inr rfl)) rfl
      (by simpa using hAr) (by simpa using hBr)
  exact ⟨w1, w2, w3, h1, h2, h3, _, _, hA3, hB3, rfl, rfl, rfl, rfl⟩

/-- Claim C16, amended, on two registered TUs that are on hook. -/
theorem dial_pickup_hangup_witness :
    ∃ w1 w2 w3, tu_dial w_on_hook (some 1) (some 2) = some (w1, 0) ∧
      tu_pickup w1 (some 2) = some (w2, 0) ∧ tu_hangup w2 (some 1) = some (w3, 0) ∧
      ∃ A3 B3, w3.heap 1 = some A3 ∧ w3.heap 2 = some B3 ∧
        A3.state = TU_ON_HOOK ∧ B3.state = TU_DIAL_TONE ∧ A3.peer = none ∧ B3.peer = none :=
  dial_pickup_hangup w_on_hook 1 2 { tu_a with state := TU_ON_HOOK } tu_b rfl rfl (by decide)
    rfl rfl (by decide) (by decide)

/-- Claim C16 as stated fails: with A and B on hook, after A dials B, B picks up
and A hangs up, A is on hook and B, which is still off hook, hears the dial tone;
neither has a peer. -/
theorem dial_pickup_hangup_counterexample :
    ((tu_dial w_on_hook (some 1) (some 2)).bind fun x =>
      (tu_pickup x.1 (some 2)).bind fun y => observe (tu_hangup y.1 (some 1)) [1, 2]) =
    some (0,
      [some { tu_a with state := TU_ON_HOOK,
                        sink := "RING BACK\r\nCONNECTED 7\r\nON HOOK 3\r\n".toList },
       some { tu_b with state := TU_DIAL_TONE,
                        sink := "RINGING\r\nCONNECTED 3\r\nDIAL TONE\r\n".toList }]) := by
  decide

/-- Claim C17: for every TU in `DIAL_TONE`, `BUSY_SIGNAL` or `ERROR`, with or
without a peer, `tu_hangup` returns 0 twice in a row, after the first call the
TU is on hook, and the second call leaves the state, the peer, the extension and
the reference count of every TU as the first call left them. -/
theorem tu_hangup_idempotent (w : World) (t : Ptr) (T : TU) (hT : w.heap t = some T)
    (hst : T.state = TU_DIAL_TONE ∨ T.state = TU_BUSY_SIGNAL ∨ T.state = TU_ERROR) :
    ∃ w1 w2, tu_hangup w (some t) = some (w1, 0) ∧ tu_hangup w1 (some t) = some (w2, 0) ∧
      (∃ T1, w1.heap t = some T1 ∧ T1.state = TU_ON_HOOK) ∧
      w2.pbx = w1.pbx ∧
      ∀ p, (w2.heap p).map (fun x => (x.state, x.peer, x.ext, x.refs)) =
        (w1.heap p).map (fun x => (x.state, x.peer, x.ext, x.refs)) := by
  obtain ⟨w1, s1, h1, hh1, _⟩ := tu_hangup_simple w t T hT hst
  have hT1 : w1.heap t = some { T with state := TU_ON_HOOK, sink := s1 } := by
    rw [hh1]; simp
  obtain ⟨w2, s2, h2, hh2, hp2⟩ := tu_hangup_on_hook w1 t _ hT1 rfl
  refine ⟨w1, w2, h1, h2, ⟨_, hT1, rfl⟩, hp2, ?_⟩
  intro p
  rw [hh2]
  by_cases hp : p = t
  · subst hp; simp [hT1]
  · simp [Function.update_noteq hp]

/-- Claim C17 on A, which hears the dial tone in `w_idle`. -/
theorem tu_hangup_idempotent_witness :
    ∃ w1 w2, tu_hangup w_idle (some 1) = some (w1, 0) ∧ tu_hangup w1 (some 1) = some (w2, 0) ∧
      (∃ T1, w1.heap 1 = some T1 ∧ T1.state = TU_ON_HOOK) ∧
      w2.pbx = w1.pbx ∧
      ∀ p, (w2.heap p).map (fun x => (x.state, x.peer, x.ext, x.refs)) =
        (w1.heap p).map (fun x => (x.state, x.peer, x.ext, x.refs)) :=
  tu_hangup_idempotent w_idle 1 tu_a rfl (Or.inl rfl)

/-- Claim C18: for every TU on hook, on a stream that accepts every write at
least in part, `tu_pickup` returns 0, sets the state to `DIAL_TONE`, appends
exactly `DIAL TONE` CR LF to the sink of the TU, and changes no other field of
the TU, no other TU and nothing in the registry. -/
theorem tu_pickup_on_hook (w : World) (t : Ptr) (T : TU) (hT : w.heap t = some T)
    (hst : T.state = TU_ON_HOOK) (hb : benign w.script) :
    ∃ w1, tu_pickup w (some t) = some (w1, 0) ∧
      w1.heap = Function.update w.heap t
        (some { T with state := TU_DIAL_TONE, sink := T.sink ++ "DIAL TONE\r\n".toList }) ∧
      w1.pbx = w.pbx := by
  have hw := (write_loop_benign w.script "DIAL TONE\r\n".toList T.sink hb).1
  simp [tu_pickup, hT, hst, mutex_lock, mutex_unlock, modify, notify_state, state_msg,
    Function.update_same, -String.toList]
  rw [hw]

/-- Claim C18 on B, which is on hook in `w_idle`, where the first write is
interrupted and the second accepts four bytes. -/
theorem tu_pickup_on_hook_witness :
    ∃ w1, tu_pickup w_idle (some 2) = some (w1, 0) ∧
      w1.heap = Function.update w_idle.heap 2
        (some { tu_b with state := TU_DIAL_TONE,
                          sink := tu_b.sink ++ "DIAL TONE\r\n".toList }) ∧
      w1.pbx = w_idle.pbx :=
  tu_pickup_on_hook w_idle 2 tu_b rfl rfl (by decide)

/-- A TU found in a listed heap is in the list. -/
theorem heap_of_mem (tus : List (Ptr × TU)) (p : Ptr) (T : TU) (h : heap_of tus p = some T) :
    (p, T) ∈ tus := by
  induction tus with
  | nil => simp [heap_of] at h
  | cons x rest ih =>
    obtain ⟨q, t⟩ := x
    by_cases hpq : p = q
    · subst hpq
      simp [heap_of] at h
      subst h
      exact List.mem_cons_self _ _
    · simp [heap_of, hpq] at h
      exact List.mem_cons_of_mem _ (ih h)

/-- A listed system that passes the three tests satisfies I1, I2 and I3. -/
theorem invariants_of_checks (tus : List (Ptr × TU)) (slots : List (Nat × Ptr))
    (script : List WriteOutcome) (h1 : check_I1 tus = true) (h2 : check_I2 tus = true)
    (h3 : check_I3 tus = true) :
    I1 (world_of tus slots script) ∧ I2 (world_of tus slots script) ∧
      I3 (world_of tus slots script) := by
  refine ⟨?_, ?_, ?_⟩
  · intro p T h
    have hm := heap_of_mem tus p T h
    have := List.all_eq_true.mp h1 (p, T) hm
    exact of_decide_eq_true this
  · intro p q T h hq
    have hm := heap_of_mem tus p T h
    have := List.all_eq_true.mp h2 (p, T) hm
    simp only [hq, decide_eq_true_eq] at this
    change (heap_of tus q).map TU.peer = some (some p) at this
    cases hU : heap_of tus q with
    | none => rw [hU] at this; cases this
    | some U =>
      rw [hU] at this
      exact ⟨U, hU, Option.some.inj this⟩
  · intro p q T U h hq hU
    have hm := heap_of_mem tus p T h
    have := List.all_eq_true.mp h3 (p, T) hm
    have hU' : heap_of tus q = some U := hU
    simp only [hq, hU', decide_eq_true_eq] at this
    exact this

/-! ## Leaving the registry -/

/-- A failing `pbx_unregister` changes the lock trace only. -/
theorem pbx_unregister_fail (MAX_EXT : Int) (w : World) (t : Ptr) (T : TU)
    (hT : w.heap t = some T)
    (h : T.ext < 0 ∨ MAX_EXT ≤ T.ext ∨ w.pbx.extensions T.ext.toNat ≠ some t) :
    pbx_unregister MAX_EXT w (some t) =
      some ({ w with locks := w.locks ++ [.acquire .pbx, .release .pbx] }, -1) := by
  have h' : T.ext < 0 ∨ T.ext ≥ MAX_EXT ∨ ¬ w.pbx.extensions T.ext.toNat = some t := h
  simp [pbx_unregister, mutex_lock, mutex_unlock, tu_extension, hT, h']

/-- A `pbx_unregister` that passes its checks empties the slot, hangs up,
releases one reference and unlocks. -/
theorem pbx_unregister_unfold (MAX_EXT : Int) (w : World) (t : Ptr) (T : TU)
    (hT : w.heap t = some T) (h0 : 0 ≤ T.ext) (h1 : T.ext < MAX_EXT)
    (hslot : w.pbx.extensions T.ext.toNat = some t) :
    pbx_unregister MAX_EXT w (some t) =
      (tu_hangup (unregister_slot w T.ext.toNat) (some t)).bind fun r =>
        (tu_unref r.1 (some t)).bind fun w2 =>
          some ({ w2 with locks := w2.locks ++ [.release .pbx] }, 0) := by
  have h' : ¬ (T.ext < 0 ∨ T.ext ≥ MAX_EXT ∨ ¬ w.pbx.extensions T.ext.toNat = some t) := by
    simp only [not_or, not_not]
    exact ⟨by omega, by omega, hslot⟩
  simp [pbx_unregister, mutex_lock, mutex_unlock, tu_extension, hT, h', unregister_slot]

/-- Without a live TU `pbx_unregister` has no result. -/
theorem pbx_unregister_dangling (MAX_EXT : Int) (w : World) (t : Ptr)
    (hT : w.heap t = none) : pbx_unregister MAX_EXT w (some t) = none := by
  simp [pbx_unregister, mutex_lock, tu_extension, hT]

/-- The end of a `pbx_unregister` whose hangup has returned and left T with a
reference count other than 1. -/
theorem pbx_unregister_finish (MAX_EXT : Int) (w : World) (t : Ptr) (T : TU)
    (hT : w.heap t = some T) (h0 : 0 ≤ T.ext) (h1 : T.ext < MAX_EXT)
    (hslot : w.pbx.extensions T.ext.toNat = some t)
    (wh : World) (r : Int) (X : TU)
    (hh : tu_hangup (unregister_slot w T.ext.toNat) (some t) = some (wh, r))
    (hX : wh.heap t = some X) (hr : X.refs ≠ 1) :
    ∃ w1, pbx_unregister MAX_EXT w (some t) = some (w1, 0) ∧
      w1.heap = Function.update wh.heap t (some { X with refs := X.refs - 1 }) ∧
      w1.pbx = wh.pbx := by
  have hr' : ¬ (X.refs - 1 = 0) := by omega
  refine ⟨{ heap := Function.update wh.heap t (some { X with refs := X.refs - 1 }),
            pbx := wh.pbx, script := wh.script,
            locks := wh.locks ++ [.release .pbx] }, ?_, rfl, rfl⟩
  rw [pbx_unregister_unfold MAX_EXT w t T hT h0 h1 hslot, hh]
  simp only [Option.some_bind, tu_unref, hX, hr', if_false]

/-- Claim C13, amended: `pbx_unregister(pbx, T)` returns -1 and leaves registry and
TUs unchanged when the extension of T is out of range or its slot does not hold
T.  Otherwise, from any state satisfying I1 and I2 in which T is not its own
peer and no reference count falls to zero during the call (the count of T is
not 1 and, when T has a peer U, not 2, and the count of U is not 1), it returns
0, empties the slot of T, lowers the counter of active TUs by one, leaves T on
hook with no peer, leaves no TU with T as its peer, and lowers the reference
count of T by one more than the hangup does. -/
theorem pbx_unregister_spec (MAX_EXT : Int) (w : World) (t : Ptr) (T : TU)
    (hT : w.heap t = some T) :
    ((T.ext < 0 ∨ MAX_EXT ≤ T.ext ∨ w.pbx.extensions T.ext.toNat ≠ some t) →
      ∃ w1, pbx_unregister MAX_EXT w (some t) = some (w1, -1) ∧
        w1.heap = w.heap ∧ w1.pbx = w.pbx ∧ w1.script = w.script) ∧
    (¬ (T.ext < 0 ∨ MAX_EXT ≤ T.ext ∨ w.pbx.extensions T.ext.toNat ≠ some t) →
      I1 w → I2 w → T.refs ≠ 1 →
      (∀ u U, T.peer = some u → w.heap u = some U → u ≠ t ∧ T.refs ≠ 2 ∧ U.refs ≠ 1) →
      ∃ w1 T1, pbx_unregister MAX_EXT w (some t) = some (w1, 0) ∧
        w1.pbx.extensions = Function.update w.pbx.extensions T.ext.toNat none ∧
        w1.pbx.active_tus = w.pbx.active_tus - 1 ∧
        w1.pbx.shutdown_in_progress = w.pbx.shutdown_in_progress ∧
        w1.heap t = some T1 ∧ T1.state = TU_ON_HOOK ∧ T1.peer = none ∧
        T1.refs = T.refs - 1 - (if T.peer = none then 0 else 1) ∧
        (∀ p V, w1.heap p = some V → V.peer ≠ some t)) := by
  constructor
  · intro h
    exact ⟨_, pbx_unregister_fail MAX_EXT w t T hT h, rfl, rfl, rfl⟩
  · intro hok h1 h2 hr1 hpr
    simp only [not_or, not_lt, not_le, ne_eq, not_not] at hok
    have hT' : (unregister_slot w T.ext.toNat).heap t = some T := hT
    by_cases hp : T.peer = none
    · have hnp : ¬ paired T.state := fun hpa => ((h1 t T hT).mpr hpa) hp
      have hothers : ∀ p V, p ≠ t → w.heap p = some V → V.peer ≠ some t := by
        intro p V _ hV hVp
        obtain ⟨U, hU, hUp⟩ := h2 p t V hV hVp
        rw [hT] at hU
        obtain rfl := Option.some.inj hU
        rw [hp] at hUp
        cases hUp
      have hcases : T.state = TU_ON_HOOK ∨
          (T.state = TU_DIAL_TONE ∨ T.state = TU_BUSY_SIGNAL ∨ T.state = TU_ERROR) := by
        unfold paired at hnp
        cases hst : T.state <;> simp [hst] at hnp ⊢
      have key : ∃ wh s r, tu_hangup (unregister_slot w T.ext.toNat) (some t) = some (wh, r) ∧
          wh.heap = Function.update w.heap t (some { T with state := TU_ON_HOOK, sink := s }) ∧
          wh.pbx = (unregister_slot w T.ext.toNat).pbx := by
        rcases hcases with hst | hst
        · obtain ⟨wh, s, hh, hheap, hpbx⟩ :=
            tu_hangup_on_hook (unregister_slot w T.ext.toNat) t T hT' hst
          refine ⟨wh, s, 0, hh, ?_, hpbx⟩
          rw [hheap, ← hst]
          rfl
        · obtain ⟨wh, s, hh, hheap, hpbx⟩ :=
            tu_hangup_simple (unregister_slot w T.ext.toNat) t T hT' hst
          exact ⟨wh, s, 0, hh, hheap, hpbx⟩
      obtain ⟨wh, s, r, hh, hheap, hpbx⟩ := key
      have hTh : wh.heap t = some { T with state := TU_ON_HOOK, sink := s } := by
        rw [hheap]; simp
      obtain ⟨w1, hw1, hheap1, hpbx1⟩ := pbx_unregister_finish MAX_EXT w t T hT hok.1 hok.2.1
        hok.2.2 wh r _ hh hTh hr1
      refine ⟨w1, { T with state := TU_ON_HOOK, sink := s, refs := T.refs - 1 },
        hw1, ?_, ?_, ?_, ?_, rfl, hp, ?_, ?_⟩
      · rw [hpbx1, hpbx]; rfl
      · rw [hpbx1, hpbx]; rfl
      · rw [hpbx1, hpbx]; rfl
      · rw [hheap1]; simp
      · simp [hp]
      · intro p V hV
        rw [hheap1] at hV
        by_cases hpt : p = t
        · subst hpt
          simp at hV
          rw [← hV]
          simp [hp]
        · simp [Function.update_noteq hpt, hheap] at hV
          exact hothers p V hpt hV
    · obtain ⟨u, hu⟩ := Option.ne_none_iff_exists'.mp hp
      obtain ⟨U, hU, hUp⟩ := h2 t u T hT hu
      obtain ⟨hne, hr2, hrU⟩ := hpr u U hu hU
      have hpa : paired T.state := (h1 t T hT).mp hp
      have hU' : (unregister_slot w T.ext.toNat).heap u = some U := hU
      obtain ⟨wh, sT, sU, hh, hTh, hUh, hfr, hpbx⟩ :=
        tu_hangup_paired_fields (unregister_slot w T.ext.toNat) t u T U hT' hU' hne hpa hu
          hr1 hrU
      obtain ⟨w1, hw1, hheap1, hpbx1⟩ := pbx_unregister_finish MAX_EXT w t T hT hok.1 hok.2.1
        hok.2.2 wh 0 _ hh hTh (by simp; omega)
      refine ⟨w1, { T with state := TU_ON_HOOK, peer := none, sink := sT,
                           refs := T.refs - 1 - 1 }, hw1, ?_, ?_, ?_, ?_, rfl, rfl, ?_, ?_⟩
      · rw [hpbx1, hpbx]; rfl
      · rw [hpbx1, hpbx]; rfl
      · rw [hpbx1, hpbx]; rfl
      · rw [hheap1]; simp
      · simp [hp]
      · intro p V hV
        rw [hheap1] at hV
        by_cases hpt : p = t
        · subst hpt
          simp at hV
          rw [← hV]
          simp
        · simp [Function.update_noteq hpt] at hV
          by_cases hpu : p = u
          · subst hpu
            rw [hUh] at hV
            obtain rfl := Option.some.inj hV
            simp
          · rw [hfr p hpt hpu] at hV
            intro hVp
            obtain ⟨X, hX, hXp⟩ := h2 p t V hV hVp
            rw [hT] at hX
            obtain rfl := Option.some.inj hX
            rw [hu] at hXp
            exact hpu (Option.some.inj hXp).symm

/-- Claim C13, amended, when A leaves the registry while connected to B: the slot
3 is emptied, one TU less is active, A is on hook without a peer, two
references lower, and no TU has A as its peer. -/
theorem pbx_unregister_spec_witness :
    ∃ w1 T1, pbx_unregister 1024 w_connected (some 1) = some (w1, 0) ∧
      w1.pbx.extensions = Function.update w_connected.pbx.extensions 3 none ∧
      w1.pbx.active_tus = w_connected.pbx.active_tus - 1 ∧
      w1.pbx.shutdown_in_progress = w_connected.pbx.shutdown_in_progress ∧
      w1.heap 1 = some T1 ∧ T1.state = TU_ON_HOOK ∧ T1.peer = none ∧
      T1.refs = 3 - 1 - 1 ∧
      (∀ p V, w1.heap p = some V → V.peer ≠ some 1) :=
  (pbx_unregister_spec 1024 w_connected 1
      { tu_a with state := TU_CONNECTED, peer := some 2, refs := 3 } rfl).2
    (by decide)
    (invariants_of_checks _ _ _ (by decide) (by decide) (by decide)).1
    (invariants_of_checks _ _ _ (by decide) (by decide) (by decide)).2.1
    (by decide)
    (fun u U hu hU => by
      obtain rfl : 2 = u := Option.some.inj hu
      obtain rfl : _ = U := Option.some.inj hU
      decide)

/-- Claim C13 as stated fails, in three systems that satisfy I1, I2 and I3 and
hold the TU in its slot.  A TU connected to itself is left in `DIAL_TONE`.
When the peer A of B holds its last reference, unregistering B releases A and
then notifies it: the call has no defined result.  A TU held by the registry
alone is destroyed by the call. -/
theorem pbx_unregister_counterexample :
    ((I1 w_self_connected ∧ I2 w_self_connected ∧ I3 w_self_connected) ∧
      w_self_connected.pbx.extensions 3 = some 1 ∧
      observe (pbx_unregister 1024 w_self_connected (some 1)) [1] =
        some (0, [some { tu_a with state := TU_DIAL_TONE, peer := none, refs := 1,
                                   sink := "DIAL TONE\r\nDIAL TONE\r\n".toList }])) ∧
    ((I1 w_last_ref ∧ I2 w_last_ref ∧ I3 w_last_ref) ∧
      w_last_ref.pbx.extensions 7 = some 2 ∧
      pbx_unregister 1024 w_last_ref (some 2) = none) ∧
    ((I1 w_unheld ∧ I2 w_unheld ∧ I3 w_unheld) ∧
      w_unheld.pbx.extensions 3 = some 1 ∧
      observe (pbx_unregister 1024 w_unheld (some 1)) [1] = some (0, [none])) := by
  refine ⟨⟨invariants_of_checks _ _ _ (by decide) (by decide) (by decide), rfl, ?_⟩,
    ⟨invariants_of_checks _ _ _ (by decide) (by decide) (by decide), rfl, ?_⟩,
    ⟨invariants_of_checks _ _ _ (by decide) (by decide) (by decide), rfl, ?_⟩⟩
  · decide
  · rfl
  · decide

/-! ## What the TU operations leave alone: the registry and the extensions -/

/-- A world keeps its own registry and extensions. -/
theorem keeps_refl (w : World) : keeps w w := ⟨rfl, fun _ => rfl⟩

/-- Two steps that keep the registry and the extensions keep them together. -/
theorem keeps_trans {w1 w2 w3 : World} (h12 : keeps w1 w2) (h23 : keeps w2 w3) : keeps w1 w3 :=
  ⟨h23.1.trans h12.1, fun p => (h23.2 p).trans (h12.2 p)⟩

/-- A TU that is live after such a step was live before it. -/
theorem keeps_live_back {w w1 : World} (h : keeps w w1) (p : Ptr)
    (hl : (w1.heap p).isSome = true) : (w.heap p).isSome = true := by
  have := h.2 p
  cases h0 : w.heap p with
  | none => rw [h0] at this; cases h1 : w1.heap p with
    | none => rw [h1] at hl; cases hl
    | some x => rw [h1] at this; cases this
  | some x => rfl

/-- Locking a mutex changes neither the registry nor an extension. -/
theorem mutex_lock_keeps {w w1 : World} {m : Mutex} (h : mutex_lock w m = some w1) :
    keeps w w1 := by
  cases m with
  | pbx => simp [mutex_lock] at h; subst h; exact keeps_refl _
  | tu p =>
    cases hp : w.heap p with
    | none => simp [mutex_lock, hp] at h
    | some x => simp [mutex_lock, hp] at h; subst h; exact ⟨rfl, fun _ => rfl⟩

/-- Unlocking a mutex changes neither the registry nor an extension. -/
theorem mutex_unlock_keeps {w w1 : World} {m : Mutex} (h : mutex_unlock w m = some w1) :
    keeps w w1 := by
  cases m with
  | pbx => simp [mutex_unlock] at h; subst h; exact keeps_refl _
  | tu p =>
    cases hp : w.heap p with
    | none => simp [mutex_unlock, hp] at h
    | some x => simp [mutex_unlock, hp] at h; subst h; exact ⟨rfl, fun _ => rfl⟩

/-- Locking the two mutexes of a pair changes neither the registry nor an extension. -/
theorem lock_pair_keeps {w w1 : World} {a b : Ptr} (h : lock_pair w a b = some w1) :
    keeps w w1 := by
  unfold lock_pair at h
  obtain ⟨w2, h2, h⟩ := Option.bind_eq_some.mp h
  split_ifs at h
  · exact keeps_trans (mutex_lock_keeps h2) (mutex_lock_keeps h)
  · obtain rfl := Option.some.inj h
    exact mutex_lock_keeps h2

/-- Unlocking the two mutexes of a pair changes neither the registry nor an extension. -/
theorem unlock_pair_keeps {w w1 : World} {a b : Ptr} (h : unlock_pair w a b = some w1) :
    keeps w w1 := by
  unfold unlock_pair at h
  obtain ⟨w2, h2, h⟩ := Option.bind_eq_some.mp h
  split_ifs at h2
  · exact keeps_trans (mutex_unlock_keeps h2) (mutex_unlock_keeps h)
  · obtain rfl := Option.some.inj h2
    exact mutex_unlock_keeps h

/-- Replacing a live TU by one with the same extension keeps the registry and the
extensions. -/
theorem update_keeps (w : World) (p : Ptr) (T X : TU) (hT : w.heap p = some T)
    (hX : X.ext = T.ext) (pbx : PBX) (hp : pbx = w.pbx) (script : List WriteOutcome)
    (locks : List LockEvent) :
    keeps w { heap := Function.update w.heap p (some X), pbx := pbx, script := script,
              locks := locks } := by
  refine ⟨hp, fun q => ?_⟩
  by_cases hq : q = p
  · subst hq; simp [hT, hX]
  · simp [Function.update_noteq hq]

/-- An assignment to a field other than the extension keeps the registry and the
extensions. -/
theorem modify_keeps {w w1 : World} {p : Ptr} {f : TU → TU} (h : modify w p f = some w1)
    (hf : ∀ x, (f x).ext = x.ext) : keeps w w1 := by
  cases hp : w.heap p with
  | none => simp [modify, hp] at h
  | some T =>
    simp [modify, hp] at h
    subst h
    refine update_keeps w p T _ hp ?_ _ rfl _ _
    exact hf T

/-- Taking a reference keeps the registry and the extensions. -/
theorem tu_ref_keeps {w w1 : World} {tu : Option Ptr} (h : tu_ref w tu = some w1) :
    keeps w w1 := by
  cases tu with
  | none => simp [tu_ref] at h; subst h; exact keeps_refl _
  | some p => exact modify_keeps h (fun _ => rfl)

/-- A notification keeps the registry and the extensions. -/
theorem notify_state_keeps {w w1 : World} {x : Option Ptr} {r : Int}
    (h : notify_state w x = some (w1, r)) : keeps w w1 := by
  cases x with
  | none => simp [notify_state] at h; obtain ⟨rfl, _⟩ := h; exact keeps_refl _
  | some p =>
    cases hp : w.heap p with
    | none => simp [notify_state, hp] at h
    | some T =>
      cases hm : state_msg w T with
      | none => simp [notify_state, hp, hm] at h
      | some msg =>
        simp [notify_state, hp, hm] at h
        obtain ⟨rfl, _⟩ := h
        refine update_keeps w p T _ hp ?_ _ rfl _ _
        rfl

/-- The TU that was notified is live afterwards. -/
theorem notify_state_live {w w1 : World} {p : Ptr} {r : Int}
    (h : notify_state w (some p) = some (w1, r)) : (w.heap p).isSome = true := by
  cases hp : w.heap p with
  | none => simp [notify_state, hp] at h
  | some T => rfl

/-- Releasing a reference that is not the last one keeps the registry and the
extensions. -/
theorem tu_unref_keeps {w w1 : World} {p : Ptr} (h : tu_unref w (some p) = some w1)
    (hl : (w1.heap p).isSome = true) : keeps w w1 := by
  cases hp : w.heap p with
  | none => simp [tu_unref, hp] at h
  | some T =>
    by_cases hr : T.refs - 1 = 0
    · simp [tu_unref, hp, hr] at h
      subst h
      simp at hl
    · simp [tu_unref, hp, hr] at h
      subst h
      refine update_keeps w p T _ hp ?_ _ rfl _ _
      rfl

/-- Releasing a reference of one TU leaves every other TU as it was. -/
theorem tu_unref_others {w w1 : World} {p : Ptr} (h : tu_unref w (some p) = some w1) :
    w1.pbx = w.pbx ∧ ∀ q, q ≠ p → w1.heap q = w.heap q := by
  cases hp : w.heap p with
  | none => simp [tu_unref, hp] at h
  | some T =>
    by_cases hr : T.refs - 1 = 0
    · simp [tu_unref, hp, hr] at h
      subst h
      exact ⟨rfl, fun q hq => by simp [Function.update_noteq hq]⟩
    · simp [tu_unref, hp, hr] at h
      subst h
      exact ⟨rfl, fun q hq => by simp [Function.update_noteq hq]⟩

/-- The release of a pair keeps the registry and the extensions. -/
theorem hangup_pair_keeps {w w1 : World} {t u : Ptr} {s : TU_STATE} {a b : Ptr} {r : Int}
    (h : hangup_pair w t u s a b = some (w1, r)) : keeps w w1 := by
  unfold hangup_pair at h
  obtain ⟨v1, h1, h⟩ := Option.bind_eq_some.mp h
  obtain ⟨v2, h2, h⟩ := Option.bind_eq_some.mp h
  obtain ⟨v3, h3, h⟩ := Option.bind_eq_some.mp h
  obtain ⟨v4, h4, h⟩ := Option.bind_eq_some.mp h
  obtain ⟨v5, h5, h⟩ := Option.bind_eq_some.mp h
  obtain ⟨v6, h6, h⟩ := Option.bind_eq_some.mp h
  obtain ⟨⟨v7, r7⟩, h7, h⟩ := Option.bind_eq_some.mp h
  obtain ⟨⟨v8, r8⟩, h8, h⟩ := Option.bind_eq_some.mp h
  obtain ⟨v9, h9, h⟩ := Option.bind_eq_some.mp h
  obtain ⟨rfl, _⟩ := Prod.mk.inj (Option.some.inj h)
  have k67 := notify_state_keeps h7
  have k78 := notify_state_keeps h8
  have k89 := unlock_pair_keeps h9
  have l6t : (v6.heap t).isSome = true := notify_state_live h7
  have l6u : (v6.heap u).isSome = true := keeps_live_back k67 u (notify_state_live h8)
  have k56 := tu_unref_keeps h6 l6t
  have l5u : (v5.heap u).isSome = true := keeps_live_back k56 u l6u
  have k45 := tu_unref_keeps h5 l5u
  have k01 := modify_keeps h1 (fun _ => rfl)
  have k12 := modify_keeps h2 (fun _ => rfl)
  have k23 := modify_keeps h3 (fun _ => rfl)
  have k34 := modify_keeps h4 (fun _ => rfl)
  exact keeps_trans k01 (keeps_trans k12 (keeps_trans k23 (keeps_trans k34 (keeps_trans k45
    (keeps_trans k56 (keeps_trans k67 (keeps_trans k78 k89)))))))

theorem tu_hangup_keeps {w w1 : World} {tu : Option Ptr} {r : Int}
    (h : tu_hangup w tu = some (w1, r)) : keeps w w1 := by
  cases tu with
  | none =>
    simp [tu_hangup] at h
    obtain ⟨rfl, _⟩ := h
    exact keeps_refl _
  | some t =>
    unfold tu_hangup at h
    obtain ⟨T, hT, h⟩ := Option.bind_eq_some.mp h
    dsimp only at h
    by_cases c1 : T.state = TU_CONNECTED ∨ T.state = TU_RINGING ∨ T.state = TU_RING_BACK
    · rw [if_pos c1] at h
      cases hp : T.peer with
      | none => simp [hp] at h
      | some u =>
        simp only [hp] at h
        obtain ⟨v1, h1, h⟩ := Option.bind_eq_some.mp h
        obtain ⟨T1, _, h⟩ := Option.bind_eq_some.mp h
        have k1 := lock_pair_keeps h1
        by_cases c2 : T1.state = TU_RING_BACK
        · rw [if_pos c2] at h
          exact keeps_trans k1 (hangup_pair_keeps h)
        · rw [if_neg c2] at h
          by_cases c3 : T1.state = TU_RINGING ∨ T1.state = TU_CONNECTED
          · rw [if_pos c3] at h
            exact keeps_trans k1 (hangup_pair_keeps h)
          · rw [if_neg c3] at h
            obtain ⟨⟨v2, r2⟩, h2, h⟩ := Option.bind_eq_some.mp h
            obtain ⟨v3, h3, h⟩ := Option.bind_eq_some.mp h
            obtain ⟨rfl, _⟩ := Prod.mk.inj (Option.some.inj h)
            exact keeps_trans k1 (keeps_trans (notify_state_keeps h2) (unlock_pair_keeps h3))
    · rw [if_neg c1] at h
      by_cases c4 : T.state = TU_DIAL_TONE ∨ T.state = TU_BUSY_SIGNAL ∨ T.state = TU_ERROR
      · rw [if_pos c4] at h
        obtain ⟨v1, h1, h⟩ := Option.bind_eq_some.mp h
        obtain ⟨v2, h2, h⟩ := Option.bind_eq_some.mp h
        obtain ⟨⟨v3, r3⟩, h3, h⟩ := Option.bind_eq_some.mp h
        obtain ⟨v4, h4, h⟩ := Option.bind_eq_some.mp h
        obtain ⟨rfl, _⟩ := Prod.mk.inj (Option.some.inj h)
        exact keeps_trans (mutex_lock_keeps h1) (keeps_trans (modify_keeps h2 (fun _ => rfl))
          (keeps_trans (notify_state_keeps h3) (mutex_unlock_keeps h4)))
      · rw [if_neg c4] at h
        obtain ⟨v1, h1, h⟩ := Option.bind_eq_some.mp h
        obtain ⟨⟨v3, r3⟩, h3, h⟩ := Option.bind_eq_some.mp h
        obtain ⟨v4, h4, h⟩ := Option.bind_eq_some.mp h
        obtain ⟨rfl, _⟩ := Prod.mk.inj (Option.some.inj h)
        exact keeps_trans (mutex_lock_keeps h1)
          (keeps_trans (notify_state_keeps h3) (mutex_unlock_keeps h4))

/-- The busy exit of `tu_dial` keeps the registry and the extensions. -/
theorem dial_busy_keeps {w w1 : World} {t a b : Ptr} {r : Int}
    (h : dial_busy w t a b = some (w1, r)) : keeps w w1 := by
  unfold dial_busy at h
  obtain ⟨v1, h1, h⟩ := Option.bind_eq_some.mp h
  obtain ⟨⟨v2, r2⟩, h2, h⟩ := Option.bind_eq_some.mp h
  obtain ⟨v3, h3, h⟩ := Option.bind_eq_some.mp h
  obtain ⟨rfl, _⟩ := Prod.mk.inj (Option.some.inj h)
  exact keeps_trans (modify_keeps h1 (fun _ => rfl))
    (keeps_trans (notify_state_keeps h2) (unlock_pair_keeps h3))

/-- The ringing exit of `tu_dial` keeps the registry and the extensions. -/
theorem dial_ring_keeps {w w1 : World} {t u a b : Ptr} {r : Int}
    (h : dial_ring w t u a b = some (w1, r)) : keeps w w1 := by
  unfold dial_ring at h
  obtain ⟨v1, h1, h⟩ := Option.bind_eq_some.mp h
  obtain ⟨v2, h2, h⟩ := Option.bind_eq_some.mp h
  obtain ⟨v3, h3, h⟩ := Option.bind_eq_some.mp h
  obtain ⟨v4, h4, h⟩ := Option.bind_eq_some.mp h
  obtain ⟨v5, h5, h⟩ := Option.bind_eq_some.mp h
  obtain ⟨v6, h6, h⟩ := Option.bind_eq_some.mp h
  obtain ⟨⟨v7, r7⟩, h7, h⟩ := Option.bind_eq_some.mp h
  obtain ⟨⟨v8, r8⟩, h8, h⟩ := Option.bind_eq_some.mp h
  obtain ⟨v9, h9, h⟩ := Option.bind_eq_some.mp h
  obtain ⟨rfl, _⟩ := Prod.mk.inj (Option.some.inj h)
  exact keeps_trans (modify_keeps h1 (fun _ => rfl)) (keeps_trans (modify_keeps h2 (fun _ => rfl))
    (keeps_trans (tu_ref_keeps h3) (keeps_trans (tu_ref_keeps h4)
    (keeps_trans (modify_keeps h5 (fun _ => rfl)) (keeps_trans (modify_keeps h6 (fun _ => rfl))
    (keeps_trans (notify_state_keeps h7) (keeps_trans (notify_state_keeps h8)
    (unlock_pair_keeps h9))))))))

/-- Whenever `tu_dial` returns, the registry and the extensions are as before. -/
theorem tu_dial_keeps {w w1 : World} {tu target : Option Ptr} {r : Int}
    (h : tu_dial w tu target = some (w1, r)) : keeps w w1 := by
  cases tu with
  | none =>
    simp [tu_dial] at h
    obtain ⟨rfl, _⟩ := h
    exact keeps_refl _
  | some t =>
    cases target with
    | none =>
      unfold tu_dial at h
      dsimp only at h
      obtain ⟨v1, h1, h⟩ := Option.bind_eq_some.mp h
      obtain ⟨v2, h2, h⟩ := Option.bind_eq_some.mp h
      obtain ⟨⟨v3, r3⟩, h3, h⟩ := Option.bind_eq_some.mp h
      obtain ⟨v4, h4, h⟩ := Option.bind_eq_some.mp h
      obtain ⟨rfl, _⟩ := Prod.mk.inj (Option.some.inj h)
      exact keeps_trans (mutex_lock_keeps h1) (keeps_trans (modify_keeps h2 (fun _ => rfl))
        (keeps_trans (notify_state_keeps h3) (mutex_unlock_keeps h4)))
    | some u =>
      unfold tu_dial at h
      dsimp only at h
      obtain ⟨v1, h1, h⟩ := Option.bind_eq_some.mp h
      obtain ⟨U, _, h⟩ := Option.bind_eq_some.mp h
      have k1 := lock_pair_keeps h1
      by_cases c1 : U.peer ≠ none ∨ U.state ≠ TU_ON_HOOK
      · rw [if_pos c1] at h
        exact keeps_trans k1 (dial_busy_keeps h)
      · rw [if_neg c1] at h
        by_cases c2 : t = u
        · rw [if_pos c2] at h
          exact keeps_trans k1 (dial_busy_keeps h)
        · rw [if_neg c2] at h
          exact keeps_trans k1 (dial_ring_keeps h)

/-- Whenever `pbx_dial` returns, the registry and the extensions are as before. -/
theorem pbx_dial_keeps {MAX_EXT : Int} {w w1 : World} {tu : Option Ptr} {e r : Int}
    (h : pbx_dial MAX_EXT w tu e = some (w1, r)) : keeps w w1 := by
  cases tu with
  | none =>
    simp [pbx_dial] at h
    obtain ⟨rfl, _⟩ := h
    exact keeps_refl _
  | some t =>
    unfold pbx_dial at h
    dsimp only at h
    obtain ⟨v1, h1, h⟩ := Option.bind_eq_some.mp h
    obtain ⟨v2, h2, h⟩ := Option.bind_eq_some.mp h
    obtain ⟨⟨v3, r3⟩, h3, h⟩ := Option.bind_eq_some.mp h
    have k := keeps_trans (mutex_lock_keeps h1) (keeps_trans (mutex_unlock_keeps h2)
      (tu_dial_keeps h3))
    dsimp only at h
    split_ifs at h
    · obtain ⟨rfl, _⟩ := Prod.mk.inj (Option.some.inj h)
      exact k
    · obtain ⟨rfl, _⟩ := Prod.mk.inj (Option.some.inj h)
      exact k

/-! ## The invariants of the registry -/

/-- What one registry call does to the registry and to the extensions: nothing,
or the effect of a `pbx_register` that goes through, or the effect of a
`pbx_unregister` that goes through. -/
theorem run_call_cases (MAX_EXT : Int) (w w1 : World) (c : RegistryCall) (r : Int)
    (h : run_call MAX_EXT w c = some (w1, r)) :
    keeps w w1 ∨
    (∃ t e, c = .register (some t) e ∧ 0 ≤ e ∧ e < MAX_EXT ∧
      w.pbx.extensions e.toNat = none ∧
      w1.pbx = { extensions := Function.update w.pbx.extensions e.toNat (some t),
                 shutdown_in_progress := w.pbx.shutdown_in_progress,
                 active_tus := w.pbx.active_tus + 1 } ∧
      (w1.heap t).map TU.ext = some e ∧ ∀ p, p ≠ t → w1.heap p = w.heap p) ∨
    (∃ t T, c = .unregister (some t) ∧ w.heap t = some T ∧ 0 ≤ T.ext ∧ T.ext < MAX_EXT ∧
      w.pbx.extensions T.ext.toNat = some t ∧
      w1.pbx = { extensions := Function.update w.pbx.extensions T.ext.toNat none,
                 shutdown_in_progress := w.pbx.shutdown_in_progress,
                 active_tus := w.pbx.active_tus - 1 } ∧
      ∀ p, p ≠ t → (w1.heap p).map TU.ext = (w.heap p).map TU.ext) := by
  cases c with
  | dial tu e => exact Or.inl (pbx_dial_keeps h)
  | register tu e =>
    cases tu with
    | none =>
      simp [run_call, pbx_register] at h
      obtain ⟨rfl, _⟩ := h
      exact Or.inl (keeps_refl _)
    | some t =>
      simp only [run_call] at h
      by_cases hc : w.pbx.shutdown_in_progress = true ∨ e < 0 ∨ MAX_EXT ≤ e ∨
          w.pbx.extensions e.toNat ≠ none
      · obtain ⟨l, hl⟩ := pbx_register_fail MAX_EXT w t e hc
        rw [hl] at h
        obtain ⟨rfl, _⟩ := Prod.mk.inj (Option.some.inj h)
        exact Or.inl ⟨rfl, fun _ => rfl⟩
      · simp only [not_or, not_le, not_lt, ne_eq, not_not, Bool.not_eq_true] at hc
        cases hT : w.heap t with
        | none =>
          rw [pbx_register_dangling MAX_EXT w t e hT hc.1 hc.2.1 hc.2.2.1 hc.2.2.2] at h
          cases h
        | some T =>
          obtain ⟨l, hl⟩ := pbx_register_ok MAX_EXT w t T e hT hc.1 hc.2.1 hc.2.2.1 hc.2.2.2
          rw [hl] at h
          obtain ⟨rfl, _⟩ := Prod.mk.inj (Option.some.inj h)
          refine Or.inr (Or.inl ⟨t, e, rfl, hc.2.1, hc.2.2.1, hc.2.2.2, rfl, by simp, ?_⟩)
          intro p hp
          simp [Function.update_noteq hp]
  | unregister tu =>
    cases tu with
    | none =>
      simp [run_call, pbx_unregister] at h
      obtain ⟨rfl, _⟩ := h
      exact Or.inl (keeps_refl _)
    | some t =>
      simp only [run_call] at h
      cases hT : w.heap t with
      | none =>
        rw [pbx_unregister_dangling MAX_EXT w t hT] at h
        cases h
      | some T =>
        by_cases hc : T.ext < 0 ∨ MAX_EXT ≤ T.ext ∨ w.pbx.extensions T.ext.toNat ≠ some t
        · rw [pbx_unregister_fail MAX_EXT w t T hT hc] at h
          obtain ⟨rfl, _⟩ := Prod.mk.inj (Option.some.inj h)
          exact Or.inl ⟨rfl, fun _ => rfl⟩
        · simp only [not_or, not_le, not_lt, ne_eq, not_not] at hc
          rw [pbx_unregister_unfold MAX_EXT w t T hT hc.1 hc.2.1 hc.2.2] at h
          obtain ⟨⟨wh, rh⟩, hh, h⟩ := Option.bind_eq_some.mp h
          obtain ⟨w2, h2, h⟩ := Option.bind_eq_some.mp h
          obtain ⟨rfl, _⟩ := Prod.mk.inj (Option.some.inj h)
          have kh := tu_hangup_keeps hh
          have ho := tu_unref_others h2
          refine Or.inr (Or.inr ⟨t, T, rfl, hT, hc.1, hc.2.1, hc.2.2, ?_, ?_⟩)
          · show w2.pbx = _
            rw [ho.1, kh.1]
            rfl
          · intro p hp
            show (w2.heap p).map TU.ext = _
            rw [ho.2 p hp]
            exact kh.2 p

/-- The count of occupied slots looks at the slots below the bound only. -/
theorem occupied_congr (s1 s2 : Nat → Option Ptr) (n : Nat) (h : ∀ i, i < n → s1 i = s2 i) :
    occupied s1 n = occupied s2 n := by
  induction n with
  | zero => rfl
  | succ n ih =>
    simp only [occupied]
    rw [ih (fun i hi => h i (Nat.lt_succ_of_lt hi)), h n (Nat.lt_succ_self n)]

/-- Filling an empty slot below the bound raises the count by one. -/
theorem occupied_update_some (slots : Nat → Option Ptr) (i : Nat) (t : Ptr) (n : Nat)
    (hi : i < n) (hfree : slots i = none) :
    occupied (Function.update slots i (some t)) n = occupied slots n + 1 := by
  induction n with
  | zero => omega
  | succ n ih =>
    simp only [occupied]
    by_cases hin : i = n
    · subst hin
      have : occupied (Function.update slots i (some t)) i = occupied slots i :=
        occupied_congr _ _ i (fun j hj => by simp [Function.update_noteq (Nat.ne_of_lt hj)])
      simp [this, hfree]
    · have hlt : i < n := by omega
      rw [ih hlt]
      simp [Function.update_noteq (Ne.symm hin)]
      omega

/-- Emptying an occupied slot below the bound lowers the count by one. -/
theorem occupied_update_none (slots : Nat → Option Ptr) (i : Nat) (t : Ptr) (n : Nat)
    (hi : i < n) (hocc : slots i = some t) :
    occupied (Function.update slots i none) n + 1 = occupied slots n := by
  induction n with
  | zero => omega
  | succ n ih =>
    simp only [occupied]
    by_cases hin : i = n
    · subst hin
      have : occupied (Function.update slots i none) i = occupied slots i :=
        occupied_congr _ _ i (fun j hj => by simp [Function.update_noteq (Nat.ne_of_lt hj)])
      simp [this, hocc]
    · have hlt : i < n := by omega
      have := ih hlt
      simp [Function.update_noteq (Ne.symm hin)]
      omega

/-- One registry call preserves I5. -/
theorem run_call_I5 (MAX_EXT : Int) (w w1 : World) (c : RegistryCall) (r : Int)
    (h : run_call MAX_EXT w c = some (w1, r)) (hI : I5 MAX_EXT w) : I5 MAX_EXT w1 := by
  unfold I5 at hI ⊢
  rcases run_call_cases MAX_EXT w w1 c r h with k | ⟨t, e, _, h0, h1, hfree, hpbx, _, _⟩ |
      ⟨t, T, _, _, h0, h1, hslot, hpbx, _⟩
  · rw [k.1]; exact hI
  · rw [hpbx]
    have hlt : e.toNat < MAX_EXT.toNat := by omega
    simp only [occupied_update_some _ _ t _ hlt hfree, hI]
    push_cast
    rfl
  · rw [hpbx]
    have hlt : T.ext.toNat < MAX_EXT.toNat := by omega
    have := occupied_update_none _ _ t _ hlt hslot
    simp only [hI]
    omega

/-- Claim C15: in every state reached from `pbx_init` by a sequence of
`pbx_register`, `pbx_unregister` and `pbx_dial` calls, successful or failing,
the counter of active TUs is the number of occupied slots, so it is not
negative. -/
theorem active_counts_slots (MAX_EXT : Int) (w0 w : World) (calls : List RegistryCall)
    (hinit : w0.pbx = pbx_init) (hrun : run_calls MAX_EXT w0 calls = some w) :
    I5 MAX_EXT w ∧ 0 ≤ w.pbx.active_tus := by
  have hstart : I5 MAX_EXT w0 := by
    unfold I5
    rw [hinit]
    have : ∀ n, occupied (fun _ => none) n = 0 := by
      intro n
      induction n with
      | zero => rfl
      | succ n ih => simp [occupied, ih]
    show (0 : Int) = (occupied (fun _ => none) MAX_EXT.toNat : Nat)
    rw [this]
    rfl
  have key : ∀ (cs : List RegistryCall) (v : World), I5 MAX_EXT v →
      run_calls MAX_EXT v cs = some w → I5 MAX_EXT w := by
    intro cs
    induction cs with
    | nil =>
      intro v hv hr
      simp [run_calls] at hr
      subst hr
      exact hv
    | cons c cs ih =>
      intro v hv hr
      simp only [run_calls] at hr
      obtain ⟨⟨v1, r1⟩, h1, hr⟩ := Option.bind_eq_some.mp hr
      exact ih v1 (run_call_I5 MAX_EXT v v1 c r1 h1 hv) hr
  have h5 := key calls w0 hstart hrun
  refine ⟨h5, ?_⟩
  unfold I5 at h5
  rw [h5]
  exact Int.natCast_nonneg _

/-- A TU that occupies no slot is in none of the slots in range. -/
theorem occupies_false (MAX_EXT : Int) (w : World) (t : Ptr)
    (h : occupies MAX_EXT w t = false) (e : Nat) (he : e < MAX_EXT.toNat) :
    w.pbx.extensions e ≠ some t := by
  intro hs
  have : occupies MAX_EXT w t = true := by
    unfold occupies
    rw [List.any_eq_true]
    exact ⟨e, List.mem_range.mpr he, by simp [hs]⟩
  rw [h] at this
  cases this

/-- Every occupied slot is in range and holds a TU with the extension of the slot. -/
theorem run_call_slots (MAX_EXT : Int) (w w1 : World) (c : RegistryCall) (r : Int)
    (h : run_call MAX_EXT w c = some (w1, r))
    (hJ : ∀ e t, w.pbx.extensions e = some t →
      e < MAX_EXT.toNat ∧ (w.heap t).map TU.ext = some (e : Int))
    (hfresh : ∀ t e, c = .register (some t) e → occupies MAX_EXT w t = false) :
    ∀ e t, w1.pbx.extensions e = some t →
      e < MAX_EXT.toNat ∧ (w1.heap t).map TU.ext = some (e : Int) := by
  rcases run_call_cases MAX_EXT w w1 c r h with k | ⟨t, e, hc, h0, h1, _, hpbx, hext, hoth⟩ |
      ⟨t, T, _, hT, h0, _, _, hpbx, hoth⟩
  · intro x y hxy
    rw [k.1] at hxy
    rw [k.2 y]
    exact hJ x y hxy
  · intro x y hxy
    rw [hpbx] at hxy
    by_cases hx : x = e.toNat
    · subst hx
      simp at hxy
      subst hxy
      refine ⟨by omega, ?_⟩
      rw [hext, Int.toNat_of_nonneg h0]
    · simp [Function.update_noteq hx] at hxy
      obtain ⟨hlt, hy⟩ := hJ x y hxy
      have hyt : y ≠ t := by
        rintro rfl
        exact occupies_false MAX_EXT w y (hfresh y e hc) x hlt hxy
      rw [hoth y hyt]
      exact ⟨hlt, hy⟩
  · intro x y hxy
    rw [hpbx] at hxy
    by_cases hx : x = T.ext.toNat
    · subst hx
      simp at hxy
    · simp [Function.update_noteq hx] at hxy
      obtain ⟨hlt, hy⟩ := hJ x y hxy
      have hyt : y ≠ t := by
        rintro rfl
        rw [hT] at hy
        simp at hy
        apply hx
        omega
      rw [hoth y hyt]
      exact ⟨hlt, hy⟩

/-- Claim C14, amended: in every state reached from `pbx_init` by a sequence of
registry calls in which `pbx_register` is only called for a TU that is in no
slot, every occupied slot e holds a TU whose extension is e, and no TU is in
two slots. -/
theorem slots_hold_their_extension (MAX_EXT : Int) (w0 w : World) (calls : List RegistryCall)
    (hinit : w0.pbx = pbx_init) (hfresh : fresh_registers MAX_EXT w0 calls = true)
    (hrun : run_calls MAX_EXT w0 calls = some w) : I4 w := by
  have key : ∀ (cs : List RegistryCall) (v : World),
      (∀ e t, v.pbx.extensions e = some t →
        e < MAX_EXT.toNat ∧ (v.heap t).map TU.ext = some (e : Int)) →
      fresh_registers MAX_EXT v cs = true → run_calls MAX_EXT v cs = some w →
      ∀ e t, w.pbx.extensions e = some t →
        e < MAX_EXT.toNat ∧ (w.heap t).map TU.ext = some (e : Int) := by
    intro cs
    induction cs with
    | nil =>
      intro v hv _ hr
      simp [run_calls] at hr
      subst hr
      exact hv
    | cons c cs ih =>
      intro v hv hf hr
      simp only [run_calls] at hr
      obtain ⟨⟨v1, r1⟩, h1, hr⟩ := Option.bind_eq_some.mp hr
      simp only [fresh_registers, h1, Bool.and_eq_true] at hf
      refine ih v1 (run_call_slots MAX_EXT v v1 c r1 h1 hv ?_) hf.2 hr
      intro t e hc
      subst hc
      simpa using hf.1
  have hJ := key calls w0 (by
    intro e t h
    rw [hinit] at h
    simp [pbx_init] at h) hfresh hrun
  refine ⟨fun e t h => (hJ e t h).2, fun e1 e2 t h1 h2 => ?_⟩
  have a := (hJ e1 t h1).2
  have b := (hJ e2 t h2).2
  rw [a] at b
  exact_mod_cast Option.some.inj b

/-- Claim C14, amended, on a sequence in which A and B register, A dials B, A
leaves and A registers again at another extension. -/
theorem slots_hold_their_extension_witness :
    ∃ w, run_calls 16 w_start [.register (some 1) 3, .register (some 2) 7, .dial (some 1) 7,
        .unregister (some 1), .register (some 1) 5] = some w ∧ I4 w := by
  have hs : (run_calls 16 w_start [.register (some 1) 3, .register (some 2) 7,
      .dial (some 1) 7, .unregister (some 1), .register (some 1) 5]).isSome = true := by decide
  obtain ⟨w, hw⟩ := Option.isSome_iff_exists.mp hs
  exact ⟨w, hw, slots_hold_their_extension 16 w_start w _ rfl (by decide) hw⟩

/-- Claim C14 as stated fails: `pbx_register` does not look whether the TU is
registered already.  When the TU at the address 1 registers at the extension 3
and then at the extension 5, both slots hold it and its extension is 5. -/
theorem register_twice_counterexample :
    w_start.pbx = pbx_init ∧
    (run_calls 16 w_start [.register (some 1) 3, .register (some 1) 5]).map
        (fun w => (w.pbx.extensions 3, w.pbx.extensions 5, (w.heap 1).map TU.ext)) =
      some (some 1, some 1, some 5) ∧
    ∀ w, run_calls 16 w_start [.register (some 1) 3, .register (some 1) 5] = some w →
      ¬ I4 w := by
  have hobs : (run_calls 16 w_start [.register (some 1) 3, .register (some 1) 5]).map
      (fun w => (w.pbx.extensions 3, w.pbx.extensions 5, (w.heap 1).map TU.ext)) =
      some (some 1, some 1, some 5) := by decide
  refine ⟨rfl, hobs, ?_⟩
  intro w hw hI
  rw [hw] at hobs
  simp only [Option.map_some', Option.some.injEq, Prod.mk.injEq] at hobs
  have := hI.2 3 5 1 hobs.1 hobs.2.1
  exact absurd this (by decide)

/-- Claim C15 on a sequence in which A and B register, A dials B, A asks for the
extension of B and A leaves. -/
theorem active_counts_slots_witness :
    ∃ w, run_calls 16 w_start [.register (some 1) 3, .register (some 2) 7, .dial (some 1) 7,
        .register (some 1) 7, .unregister (some 1)] = some w ∧
      I5 16 w ∧ 0 ≤ w.pbx.active_tus := by
  have hs : (run_calls 16 w_start [.register (some 1) 3, .register (some 2) 7,
      .dial (some 1) 7, .register (some 1) 7, .unregister (some 1)]).isSome = true := by decide
  obtain ⟨w, hw⟩ := Option.isSome_iff_exists.mp hs
  exact ⟨w, hw, active_counts_slots 16 w_start w _ rfl hw⟩

/-! ## The lines sent to the clients -/

/-- The text that `notify_state` chooses is the text of the table of section 4.1
followed by CR LF. -/
theorem state_msg_encoding (w : World) (T : TU) (pe : Int)
    (hpe : T.state = TU_CONNECTED →
      ∃ u U, T.peer = some u ∧ w.heap u = some U ∧ U.ext = pe) :
    state_msg w T = some (encoding_table T.state T.ext pe ++ [Char.ofNat 13, Char.ofNat 10]) := by
  cases hs : T.state with
  | TU_CONNECTED =>
    obtain ⟨u, U, hu, hU, he⟩ := hpe hs
    simp [state_msg, encoding_table, hs, hu, hU, he]
  | _ => simp [state_msg, encoding_table, hs]

/-- Two different states have different texts in the table, whatever the
extensions are. -/
theorem encoding_table_injective (s1 s2 : TU_STATE) (e1 e2 p1 p2 : Int)
    (h : encoding_table s1 e1 p1 = encoding_table s2 e2 p2) : s1 = s2 := by
  cases s1 <;> cases s2 <;> first | rfl | (exfalso; simp [encoding_table] at h)

/-- Claim C19: on a stream that accepts every write at least in part,
`notify_state` returns 0 and appends to the sink of the TU exactly the text of
the table of section 4.1 for its state followed by CR LF, with the extension of
the TU after `ON HOOK` and the extension of its peer after `CONNECTED`, in
decimal, and changes nothing else; two different states never have the same
text. -/
theorem notify_state_encoding (w : World) (p : Ptr) (T : TU) (pe : Int)
    (hT : w.heap p = some T) (hb : benign w.script)
    (hpe : T.state = TU_CONNECTED →
      ∃ u U, T.peer = some u ∧ w.heap u = some U ∧ U.ext = pe) :
    (∃ w1, notify_state w (some p) = some (w1, 0) ∧
      w1.heap = Function.update w.heap p
        (some { T with sink := T.sink ++ encoding_table T.state T.ext pe ++
                                 [Char.ofNat 13, Char.ofNat 10] }) ∧
      w1.pbx = w.pbx) ∧
    ∀ (s1 s2 : TU_STATE) (e1 e2 p1 p2 : Int), s1 ≠ s2 →
      encoding_table s1 e1 p1 ++ [Char.ofNat 13, Char.ofNat 10] ≠
        encoding_table s2 e2 p2 ++ [Char.ofNat 13, Char.ofNat 10] := by
  constructor
  · have hm := state_msg_encoding w T pe hpe
    obtain ⟨h1, h2, _⟩ := write_loop_benign w.script
      (encoding_table T.state T.ext pe ++ [Char.ofNat 13, Char.ofNat 10]) T.sink hb
    refine ⟨{ w with
        heap := Function.update w.heap p
          (some { T with sink := T.sink ++ encoding_table T.state T.ext pe ++
                                   [Char.ofNat 13, Char.ofNat 10] }),
        script := (write_loop w.script
          (encoding_table T.state T.ext pe ++ [Char.ofNat 13, Char.ofNat 10]) T.sink).1 },
      ?_, rfl, rfl⟩
    simp only [notify_state, hT, hm, h1, h2, List.append_assoc]
  · intro s1 s2 e1 e2 p1 p2 hne h
    exact hne (encoding_table_injective s1 s2 e1 e2 p1 p2 (List.append_cancel_right h))

/-- Claim C19 on A in `w_connected`, whose peer B has the extension 7; the first
write is interrupted. -/
theorem notify_state_encoding_witness :
    (∃ w1, notify_state w_connected (some 1) = some (w1, 0) ∧
      (w1.heap 1).map TU.sink = some "CONNECTED 7\r\n".toList) ∧
    encoding_table TU_RINGING 3 7 ++ [Char.ofNat 13, Char.ofNat 10] ≠
      encoding_table TU_RING_BACK 3 7 ++ [Char.ofNat 13, Char.ofNat 10] := by
  obtain ⟨⟨w1, h1, hh, _⟩, hd⟩ := notify_state_encoding w_connected 1
    { tu_a with state := TU_CONNECTED, peer := some 2, refs := 3 } 7 rfl (by decide)
    (fun _ => ⟨2, _, rfl, rfl, rfl⟩)
  refine ⟨⟨w1, h1, ?_⟩, hd _ _ 3 3 7 7 (by decide)⟩
  rw [hh]
  simp only [Function.update_same, Option.map_some']
  decide

/-- Claim C20 fails on the line sent at registration: `tu_set_extension` calls
`write` once and does not look at what it returns.  When the stream accepts four
bytes of the first write, `pbx_register` returns 0 and the new TU has received
`ON H` only; when the first write is interrupted it has received nothing.  Both
streams accept every write in part or interrupt it, and on both the loop of
`notify_state` sends the whole line. -/
theorem tu_set_extension_single_write :
    benign w_slow.script ∧ benign w_interrupted.script ∧
    (pbx_register 1024 w_slow (some 3) 9).map
        (fun x => (x.2, (x.1.heap 3).map TU.sink)) = some (0, some "ON H".toList) ∧
    (pbx_register 1024 w_interrupted (some 3) 9).map
        (fun x => (x.2, (x.1.heap 3).map TU.sink)) = some (0, some []) ∧
    (notify_state w_slow (some 3)).map
        (fun x => (x.2, (x.1.heap 3).map TU.sink)) = some (0, some "ON HOOK -1\r\n".toList) ∧
    (notify_state w_interrupted (some 3)).map
        (fun x => (x.2, (x.1.heap 3).map TU.sink)) = some (0, some "ON HOOK -1\r\n".toList) := by
  refine ⟨by decide, by decide, by decide, by decide, by decide, by decide⟩

/-! ## The value returned by `tu_hangup` -/

/-- Unlocking a mutex changes the lock trace only. -/
theorem mutex_unlock_frame {w w1 : World} {m : Mutex} (h : mutex_unlock w m = some w1) :
    w1.heap = w.heap ∧ w1.pbx = w.pbx ∧ w1.script = w.script := by
  cases m with
  | pbx => simp [mutex_unlock] at h; subst h; exact ⟨rfl, rfl, rfl⟩
  | tu p =>
    cases hp : w.heap p with
    | none => simp [mutex_unlock, hp] at h
    | some x => simp [mutex_unlock, hp] at h; subst h; exact ⟨rfl, rfl, rfl⟩

/-- Unlocking a pair changes the lock trace only. -/
theorem unlock_pair_frame {w w1 : World} {a b : Ptr} (h : unlock_pair w a b = some w1) :
    w1.heap = w.heap ∧ w1.pbx = w.pbx ∧ w1.script = w.script := by
  unfold unlock_pair at h
  obtain ⟨w2, h2, h⟩ := Option.bind_eq_some.mp h
  obtain ⟨b1, b2, b3⟩ := mutex_unlock_frame h
  split_ifs at h2
  · obtain ⟨a1, a2, a3⟩ := mutex_unlock_frame h2
    exact ⟨b1.trans a1, b2.trans a2, b3.trans a3⟩
  · obtain rfl := Option.some.inj h2
    exact ⟨b1, b2, b3⟩

/-- Hanging up on hook, or in a state without a call, returns 0 for every live TU. -/
theorem tu_hangup_unpaired (w : World) (t : Ptr) (T : TU) (hT : w.heap t = some T)
    (hst : ¬ paired T.state) : ∃ w1, tu_hangup w (some t) = some (w1, 0) := by
  cases hs : T.state with
  | TU_ON_HOOK =>
    obtain ⟨w1, _, h, _⟩ := tu_hangup_on_hook w t T hT hs
    exact ⟨w1, h⟩
  | TU_DIAL_TONE =>
    obtain ⟨w1, _, h, _⟩ := tu_hangup_simple w t T hT (Or.inl hs)
    exact ⟨w1, h⟩
  | TU_BUSY_SIGNAL =>
    obtain ⟨w1, _, h, _⟩ := tu_hangup_simple w t T hT (Or.inr (Or.inl hs))
    exact ⟨w1, h⟩
  | TU_ERROR =>
    obtain ⟨w1, _, h, _⟩ := tu_hangup_simple w t T hT (Or.inr (Or.inr hs))
    exact ⟨w1, h⟩
  | TU_RINGING => exact absurd (Or.inl hs) hst
  | TU_RING_BACK => exact absurd (Or.inr (Or.inl hs)) hst
  | TU_CONNECTED => exact absurd (Or.inr (Or.inr hs)) hst

/-- Claim C25 fails at the bound: `tu_set_extension` rejects `ext >
PBX_MAX_EXTENSIONS`, so with 1024 extensions it accepts 1024, which is not below
1024: it returns 0, the extension of the TU is 1024 and the line is written.
`pbx_register` rejects the same number with `ext >= MAX_EXTENSIONS`, and 1025 is
rejected by both without any change. -/
theorem tu_set_extension_accepts_bound :
    (tu_set_extension 1024 w_new (some 3) 1024).map
        (fun x => (x.2, (x.1.heap 3).map fun T => (T.ext, T.sink))) =
      some (0, some (1024, "ON HOOK 1024\r\n".toList)) ∧
    ¬ ((1024 : Int) < 1024) ∧
    (pbx_register 1024 w_new (some 3) 1024).map
        (fun x => (x.2, (x.1.heap 3).map fun T => (T.ext, T.sink))) =
      some (-1, some (-1, [])) ∧
    (tu_set_extension 1024 w_new (some 3) 1025).map
        (fun x => (x.2, (x.1.heap 3).map fun T => (T.ext, T.sink))) =
      some (-1, some (-1, [])) := by
  refine ⟨by decide, by decide, by decide, by decide⟩

/-! ## The command `dial` in the service loop -/

/-- Skipping a prefix commutes with cutting at the first byte that fails a test
which the skipped bytes pass. -/
theorem dropWhile_takeWhile_comm (p q : Char → Bool) (hpq : ∀ c, p c = true → q c = true) :
    ∀ l : List Char, (l.takeWhile q).dropWhile p = (l.dropWhile p).takeWhile q := by
  intro l
  induction l with
  | nil => rfl
  | cons c l ih =>
    by_cases hp : p c = true
    · have hq := hpq c hp
      simp [List.takeWhile_cons, List.dropWhile_cons, hp, hq, ih]
    · by_cases hq : q c = true
      · simp [List.takeWhile_cons, List.dropWhile_cons, hp, hq]
      · simp [List.takeWhile_cons, List.dropWhile_cons, hp, hq]

/-- A prefix that passes the test is kept whole. -/
theorem takeWhile_append_all (q : Char → Bool) (a b : List Char)
    (ha : ∀ c ∈ a, q c = true) : (a ++ b).takeWhile q = a ++ b.takeWhile q := by
  induction a with
  | nil => rfl
  | cons c a ih =>
    have hc := ha c (List.mem_cons_self _ _)
    simp [List.takeWhile_cons, hc, ih (fun x hx => ha x (List.mem_cons_of_mem _ hx))]

/-- A prefix that passes the test is skipped whole. -/
theorem dropWhile_append_all (p : Char → Bool) (a b : List Char)
    (ha : ∀ c ∈ a, p c = true) : (a ++ b).dropWhile p = b.dropWhile p := by
  induction a with
  | nil => rfl
  | cons c a ih =>
    have hc := ha c (List.mem_cons_self _ _)
    simp [List.dropWhile_cons, hc, ih (fun x hx => ha x (List.mem_cons_of_mem _ hx))]

/-- Nothing is skipped in front of a byte that fails the test. -/
theorem dropWhile_head_false (p : Char → Bool) (s : List Char)
    (hs : ∀ c, s.head? = some c → p c = false) : s.dropWhile p = s := by
  cases s with
  | nil => rfl
  | cons c s => simp [List.dropWhile_cons, hs c rfl]

/-- Cutting twice, first at a weaker test, is cutting once. -/
theorem takeWhile_takeWhile_of_imp (p q : Char → Bool) (hpq : ∀ c, p c = true → q c = true) :
    ∀ l : List Char, (l.takeWhile q).takeWhile p = l.takeWhile p := by
  intro l
  induction l with
  | nil => rfl
  | cons c l ih =>
    by_cases hp : p c = true
    · simp [List.takeWhile_cons, hp, hpq c hp, ih]
    · by_cases hq : q c = true
      · simp [List.takeWhile_cons, hp, hq]
      · simp [List.takeWhile_cons, hp, hq]

/-- The loop of `atoi` adds up the digits in front of the first byte that is not
a digit. -/
theorem atoi_digits_eq (cs : List Char) :
    ∀ acc, atoi_digits cs acc =
      (cs.takeWhile isdigit).foldl (fun a c => 10 * a + (c.toNat - '0'.toNat)) acc := by
  induction cs with
  | nil => intro acc; rfl
  | cons c cs ih =>
    intro acc
    by_cases hd : isdigit c = true
    · simp [atoi_digits, List.takeWhile_cons, hd, ih]
    · simp [atoi_digits, List.takeWhile_cons, hd]

/-- White space is not the terminator of a C string. -/
theorem isspace_ne_nul (c : Char) (h : isspace c = true) :
    (decide (c ≠ Char.ofNat 0)) = true := by
  have : c ≠ Char.ofNat 0 := by
    rintro rfl
    revert h
    decide
  simpa using this

/-- A digit is not the terminator of a C string. -/
theorem isdigit_ne_nul (c : Char) (h : isdigit c = true) :
    (decide (c ≠ Char.ofNat 0)) = true := by
  have : c ≠ Char.ofNat 0 := by
    rintro rfl
    revert h
    decide
  simpa using this

/-- The number read by `atoi` is the number at the start of the string. -/
theorem atoi_value_eq (s : List Char) : atoi_value s = leading_number s := by
  unfold atoi_value leading_number decimal_value
  split <;> simp [atoi_digits_eq]

/-- Without white space in front, and in the range of an `int`, `atoi` returns
the number at the start of the string. -/
theorem atoi_no_space (s : List Char) (hs : ∀ c, s.head? = some c → isspace c = false)
    (hr : -2 ^ 31 ≤ leading_number s ∧ leading_number s < 2 ^ 31) :
    atoi s = some (leading_number s) := by
  have hd : s.dropWhile isspace = s := dropWhile_head_false isspace s hs
  unfold atoi
  rw [hd]
  simp only [atoi_value_eq]
  rw [if_pos hr]

/-- The number at the start of a buffer is the number at the start of the C
string in it. -/
theorem leading_number_c_str (s : List Char) : leading_number (c_str s) = leading_number s := by
  have key : ∀ r : List Char, (c_str r).takeWhile isdigit = r.takeWhile isdigit := fun r =>
    takeWhile_takeWhile_of_imp isdigit (fun c => decide (c ≠ Char.ofNat 0)) isdigit_ne_nul r
  cases s with
  | nil => rfl
  | cons c r =>
    by_cases h0 : c = Char.ofNat 0
    · subst h0
      simp [c_str, leading_number, decimal_value, List.takeWhile_cons]
      rfl
    · have hc : c_str (c :: r) = c :: c_str r := by
        simp [c_str, List.takeWhile_cons, h0]
      rw [hc]
      by_cases hm : c = '-'
      · subst hm
        simp only [leading_number, key]
      · by_cases hpl : c = '+'
        · subst hpl
          simp only [leading_number, key]
        · have e1 : leading_number (c :: c_str r) =
              (decimal_value ((c :: c_str r).takeWhile isdigit) : Nat) := by
            unfold leading_number
            split
            · rename_i h; exact absurd (List.cons.inj h).1 hm
            · rename_i h; exact absurd (List.cons.inj h).1 hpl
            · rfl
          have e2 : leading_number (c :: r) =
              (decimal_value ((c :: r).takeWhile isdigit) : Nat) := by
            unfold leading_number
            split
            · rename_i h; exact absurd (List.cons.inj h).1 hm
            · rename_i h; exact absurd (List.cons.inj h).1 hpl
            · rfl
          rw [e1, e2, ← hc, key]

/-- The first byte of the C string in a buffer is the first byte of the buffer. -/
theorem c_str_head (s : List Char) (c : Char) (h : (c_str s).head? = some c) :
    s.head? = some c := by
  cases s with
  | nil => simp [c_str] at h
  | cons d r =>
    by_cases h0 : d = Char.ofNat 0
    · subst h0
      simp [c_str, List.takeWhile_cons] at h
    · simpa [c_str, List.takeWhile_cons, h0] using h

/-- The command that the service loop reads in a line whose trimmed form is
`dial`, white space and an argument. -/
theorem service_line_cmd (line ws s : List Char)
    (hline : trimmed line = "dial".toList ++ ws ++ s)
    (hall : ∀ c ∈ ws, isspace c = true) :
    (c_str (strip_eol line)).dropWhile isspace = 'd' :: 'i' :: 'a' :: 'l' :: (ws ++ c_str s) := by
  have h1 : (c_str (strip_eol line)).dropWhile isspace = c_str (trimmed line) :=
    dropWhile_takeWhile_comm isspace (fun c => decide (c ≠ Char.ofNat 0)) isspace_ne_nul _
  rw [h1, hline]
  have h2 : "dial".toList ++ ws ++ s = ('d' :: 'i' :: 'a' :: 'l' :: ws) ++ s := rfl
  rw [h2]
  unfold c_str
  rw [takeWhile_append_all]
  · rfl
  · intro c hc
    simp only [List.mem_cons] at hc
    rcases hc with rfl | rfl | rfl | rfl | hc
    · decide
    · decide
    · decide
    · decide
    · exact isspace_ne_nul c (hall c hc)

/-- Claim C23, amended: for every line that, after removal of trailing CR and LF
and of leading white space, consists of `dial`, at least one white space
character and an argument `s` that does not start with white space, where the
optionally signed decimal number at the start of `s` (0 when there is none) has
a value `n` that an `int` can hold, the service loop does what the call
`pbx_dial(T, n)` does and nothing else. -/
theorem service_line_dial (MAX_EXT : Int) (w : World) (tu : Option Ptr)
    (line ws s : List Char)
    (hline : trimmed line = "dial".toList ++ ws ++ s)
    (hws : ws ≠ []) (hall : ∀ c ∈ ws, isspace c = true)
    (hs : ∀ c, s.head? = some c → isspace c = false)
    (hr : -2 ^ 31 ≤ leading_number s ∧ leading_number s < 2 ^ 31) :
    service_line MAX_EXT w tu line = (pbx_dial MAX_EXT w tu (leading_number s)).map Prod.fst := by
  have hcmd := service_line_cmd line ws s hline hall
  obtain ⟨c0, ws1, rfl⟩ := List.exists_cons_of_ne_nil hws
  have hc0 : isspace c0 = true := hall c0 (List.mem_cons_self _ _)
  have hext : (List.drop 4 ('d' :: 'i' :: 'a' :: 'l' :: (c0 :: ws1 ++ c_str s))).dropWhile isspace =
      c_str s := by
    show ((c0 :: ws1) ++ c_str s).dropWhile isspace = c_str s
    rw [dropWhile_append_all isspace _ _ hall]
    exact dropWhile_head_false isspace _ (fun c hc => hs c (c_str_head s c hc))
  have hat : atoi (c_str s) = some (leading_number s) := by
    have := atoi_no_space (c_str s) (fun c hc => hs c (c_str_head s c hc))
      (by rw [leading_number_c_str]; exact hr)
    rw [leading_number_c_str] at this
    exact this
  have hp : ¬ (List.take 6 ('d' :: 'i' :: 'a' :: 'l' :: (c0 :: ws1 ++ c_str s)) =
      "pickup".toList) := by
    intro h
    have h0 : some 'd' = "pickup".toList.head? := congrArg List.head? h
    exact absurd h0 (by decide)
  have hh : ¬ (List.take 6 ('d' :: 'i' :: 'a' :: 'l' :: (c0 :: ws1 ++ c_str s)) =
      "hangup".toList) := by
    intro h
    have h0 : some 'd' = "hangup".toList.head? := congrArg List.head? h
    exact absurd h0 (by decide)
  have hd : List.take 4 ('d' :: 'i' :: 'a' :: 'l' :: (c0 :: ws1 ++ c_str s)) =
      "dial".toList := rfl
  have h4 : char_at ('d' :: 'i' :: 'a' :: 'l' :: (c0 :: ws1 ++ c_str s)) 4 = c0 := rfl
  unfold service_line
  simp only [hcmd]
  rw [if_neg (fun h => hp h.1), if_neg (fun h => hh h.1), if_pos ⟨hd, by rw [h4]; exact hc0⟩]
  simp only [hext, hat, Option.some_bind]

/-- Claim C23, amended, on the line `dial`, a space, a tab, `+7x`, CR, LF, sent
by A in `w_idle`. -/
theorem service_line_dial_witness :
    service_line 1024 w_idle (some 1) "  dial \t+7x\r\n".toList =
      (pbx_dial 1024 w_idle (some 1) (leading_number "+7x".toList)).map Prod.fst :=
  service_line_dial 1024 w_idle (some 1) "  dial \t+7x\r\n".toList " \t".toList "+7x".toList
    (by decide) (by decide) (by decide) (by decide) (by decide)

/-- Claim C23 as stated fails for a number that an `int` cannot hold: the line
`dial 4294967297` has the trimmed form of the claim and the number at the start
of its argument is 4294967297, but `atoi` has no defined result for it, so the
service loop does not do what `pbx_dial(T, 4294967297)` does. -/
theorem service_line_dial_counterexample :
    trimmed "dial 4294967297\n".toList = "dial".toList ++ " ".toList ++ "4294967297".toList ∧
    leading_number "4294967297".toList = 4294967297 ∧
    service_line 1024 w_idle (some 1) "dial 4294967297\n".toList = none ∧
    ((pbx_dial 1024 w_idle (some 1) 4294967297).map Prod.fst).isSome = true := by
  refine ⟨by decide, by decide, rfl, by decide⟩

/-! ## The order of the locks -/

/-- A world continues its own lock trace with nothing. -/
theorem tu_steps_refl (w : World) : tu_steps w w :=
  ⟨[], by simp, by simp⟩

/-- Two continuations of the lock trace make one. -/
theorem tu_steps_trans {w1 w2 w3 : World} (h12 : tu_steps w1 w2) (h23 : tu_steps w2 w3) :
    tu_steps w1 w3 := by
  obtain ⟨a, ha, pa⟩ := h12
  obtain ⟨b, hb, pb⟩ := h23
  refine ⟨a ++ b, by rw [hb, ha, List.append_assoc], ?_⟩
  intro e he
  rcases List.mem_append.mp he with h | h
  · exact pa e h
  · exact pb e h

/-- A step that leaves the lock trace alone. -/
theorem tu_steps_of_eq {w w1 : World} (h : w1.locks = w.locks) : tu_steps w w1 :=
  ⟨[], by simp [h], by simp⟩

/-- Locking the mutex of a TU adds one event on that mutex. -/
theorem mutex_lock_steps {w w1 : World} {p : Ptr} (h : mutex_lock w (.tu p) = some w1) :
    tu_steps w w1 := by
  cases hp : w.heap p with
  | none => simp [mutex_lock, hp] at h
  | some x =>
    simp [mutex_lock, hp] at h
    subst h
    exact ⟨[.acquire (.tu p)], rfl, by simp⟩

/-- Unlocking the mutex of a TU adds one event on that mutex. -/
theorem mutex_unlock_steps {w w1 : World} {p : Ptr} (h : mutex_unlock w (.tu p) = some w1) :
    tu_steps w w1 := by
  cases hp : w.heap p with
  | none => simp [mutex_unlock, hp] at h
  | some x =>
    simp [mutex_unlock, hp] at h
    subst h
    exact ⟨[.release (.tu p)], rfl, by simp⟩

/-- Locking a pair adds events on the mutexes of TUs only. -/
theorem lock_pair_steps {w w1 : World} {a b : Ptr} (h : lock_pair w a b = some w1) :
    tu_steps w w1 := by
  unfold lock_pair at h
  obtain ⟨w2, h2, h⟩ := Option.bind_eq_some.mp h
  split_ifs at h
  · exact tu_steps_trans (mutex_lock_steps h2) (mutex_lock_steps h)
  · obtain rfl := Option.some.inj h
    exact mutex_lock_steps h2

/-- Unlocking a pair adds events on the mutexes of TUs only. -/
theorem unlock_pair_steps {w w1 : World} {a b : Ptr} (h : unlock_pair w a b = some w1) :
    tu_steps w w1 := by
  unfold unlock_pair at h
  obtain ⟨w2, h2, h⟩ := Option.bind_eq_some.mp h
  split_ifs at h2
  · exact tu_steps_trans (mutex_unlock_steps h2) (mutex_unlock_steps h)
  · obtain rfl := Option.some.inj h2
    exact mutex_unlock_steps h

/-- An assignment to a field of a TU locks nothing. -/
theorem modify_steps {w w1 : World} {p : Ptr} {f : TU → TU} (h : modify w p f = some w1) :
    tu_steps w w1 := by
  cases hp : w.heap p with
  | none => simp [modify, hp] at h
  | some T =>
    simp [modify, hp] at h
    subst h
    exact tu_steps_of_eq rfl

/-- Taking a reference locks nothing. -/
theorem tu_ref_steps {w w1 : World} {tu : Option Ptr} (h : tu_ref w tu = some w1) :
    tu_steps w w1 := by
  cases tu with
  | none => simp [tu_ref] at h; subst h; exact tu_steps_refl _
  | some p => exact modify_steps h

/-- Releasing a reference locks nothing. -/
theorem tu_unref_steps {w w1 : World} {tu : Option Ptr} (h : tu_unref w tu = some w1) :
    tu_steps w w1 := by
  cases tu with
  | none => simp [tu_unref] at h; subst h; exact tu_steps_refl _
  | some p =>
    cases hp : w.heap p with
    | none => simp [tu_unref, hp] at h
    | some T =>
      by_cases hr : T.refs - 1 = 0
      · simp [tu_unref, hp, hr] at h
        subst h
        exact tu_steps_of_eq rfl
      · simp [tu_unref, hp, hr] at h
        subst h
        exact tu_steps_of_eq rfl

/-- A notification locks nothing. -/
theorem notify_state_steps {w w1 : World} {x : Option Ptr} {r : Int}
    (h : notify_state w x = some (w1, r)) : tu_steps w w1 := by
  cases x with
  | none => simp [notify_state] at h; obtain ⟨rfl, _⟩ := h; exact tu_steps_refl _
  | some p =>
    cases hp : w.heap p with
    | none => simp [notify_state, hp] at h
    | some T =>
      cases hm : state_msg w T with
      | none => simp [notify_state, hp, hm] at h
      | some msg =>
        simp [notify_state, hp, hm] at h
        obtain ⟨rfl, _⟩ := h
        exact tu_steps_of_eq rfl

/-- The release of a pair locks mutexes of TUs only. -/
theorem hangup_pair_steps {w w1 : World} {t u : Ptr} {s : TU_STATE} {a b : Ptr} {r : Int}
    (h : hangup_pair w t u s a b = some (w1, r)) : tu_steps w w1 := by
  unfold hangup_pair at h
  obtain ⟨v1, h1, h⟩ := Option.bind_eq_some.mp h
  obtain ⟨v2, h2, h⟩ := Option.bind_eq_some.mp h
  obtain ⟨v3, h3, h⟩ := Option.bind_eq_some.mp h
  obtain ⟨v4, h4, h⟩ := Option.bind_eq_some.mp h
  obtain ⟨v5, h5, h⟩ := Option.bind_eq_some.mp h
  obtain ⟨v6, h6, h⟩ := Option.bind_eq_some.mp h
  obtain ⟨⟨v7, r7⟩, h7, h⟩ := Option.bind_eq_some.mp h
  obtain ⟨⟨v8, r8⟩, h8, h⟩ := Option.bind_eq_some.mp h
  obtain ⟨v9, h9, h⟩ := Option.bind_eq_some.mp h
  obtain ⟨rfl, _⟩ := Prod.mk.inj (Option.some.inj h)
  exact tu_steps_trans (modify_steps h1) (tu_steps_trans (modify_steps h2)
    (tu_steps_trans (modify_steps h3) (tu_steps_trans (modify_steps h4)
    (tu_steps_trans (tu_unref_steps h5) (tu_steps_trans (tu_unref_steps h6)
    (tu_steps_trans (notify_state_steps h7) (tu_steps_trans (notify_state_steps h8)
    (unlock_pair_steps h9))))))))

/-- Whenever `tu_hangup` returns, it has locked mutexes of TUs only. -/
theorem tu_hangup_steps {w w1 : World} {tu : Option Ptr} {r : Int}
    (h : tu_hangup w tu = some (w1, r)) : tu_steps w w1 := by
  cases tu with
  | none =>
    simp [tu_hangup] at h
    obtain ⟨rfl, _⟩ := h
    exact tu_steps_refl _
  | some t =>
    unfold tu_hangup at h
    obtain ⟨T, hT, h⟩ := Option.bind_eq_some.mp h
    dsimp only at h
    by_cases c1 : T.state = TU_CONNECTED ∨ T.state = TU_RINGING ∨ T.state = TU_RING_BACK
    · rw [if_pos c1] at h
      cases hp : T.peer with
      | none => simp [hp] at h
      | some u =>
        simp only [hp] at h
        obtain ⟨v1, h1, h⟩ := Option.bind_eq_some.mp h
        obtain ⟨T1, _, h⟩ := Option.bind_eq_some.mp h
        have k1 := lock_pair_steps h1
        by_cases c2 : T1.state = TU_RING_BACK
        · rw [if_pos c2] at h
          exact tu_steps_trans k1 (hangup_pair_steps h)
        · rw [if_neg c2] at h
          by_cases c3 : T1.state = TU_RINGING ∨ T1.state = TU_CONNECTED
          · rw [if_pos c3] at h
            exact tu_steps_trans k1 (hangup_pair_steps h)
          · rw [if_neg c3] at h
            obtain ⟨⟨v2, r2⟩, h2, h⟩ := Option.bind_eq_some.mp h
            obtain ⟨v3, h3, h⟩ := Option.bind_eq_some.mp h
            obtain ⟨rfl, _⟩ := Prod.mk.inj (Option.some.inj h)
            exact tu_steps_trans k1 (tu_steps_trans (notify_state_steps h2)
              (unlock_pair_steps h3))
    · rw [if_neg c1] at h
      by_cases c4 : T.state = TU_DIAL_TONE ∨ T.state = TU_BUSY_SIGNAL ∨ T.state = TU_ERROR
      · rw [if_pos c4] at h
        obtain ⟨v1, h1, h⟩ := Option.bind_eq_some.mp h
        obtain ⟨v2, h2, h⟩ := Option.bind_eq_some.mp h
        obtain ⟨⟨v3, r3⟩, h3, h⟩ := Option.bind_eq_some.mp h
        obtain ⟨v4, h4, h⟩ := Option.bind_eq_some.mp h
        obtain ⟨rfl, _⟩ := Prod.mk.inj (Option.some.inj h)
        exact tu_steps_trans (mutex_lock_steps h1) (tu_steps_trans (modify_steps h2)
          (tu_steps_trans (notify_state_steps h3) (mutex_unlock_steps h4)))
      · rw [if_neg c4] at h
        obtain ⟨v1, h1, h⟩ := Option.bind_eq_some.mp h
        obtain ⟨⟨v3, r3⟩, h3, h⟩ := Option.bind_eq_some.mp h
        obtain ⟨v4, h4, h⟩ := Option.bind_eq_some.mp h
        obtain ⟨rfl, _⟩ := Prod.mk.inj (Option.some.inj h)
        exact tu_steps_trans (mutex_lock_steps h1)
          (tu_steps_trans (notify_state_steps h3) (mutex_unlock_steps h4))

/-- The busy exit of `tu_dial` locks mutexes of TUs only. -/
theorem dial_busy_steps {w w1 : World} {t a b : Ptr} {r : Int}
    (h : dial_busy w t a b = some (w1, r)) : tu_steps w w1 := by
  unfold dial_busy at h
  obtain ⟨v1, h1, h⟩ := Option.bind_eq_some.mp h
  obtain ⟨⟨v2, r2⟩, h2, h⟩ := Option.bind_eq_some.mp h
  obtain ⟨v3, h3, h⟩ := Option.bind_eq_some.mp h
  obtain ⟨rfl, _⟩ := Prod.mk.inj (Option.some.inj h)
  exact tu_steps_trans (modify_steps h1)
    (tu_steps_trans (notify_state_steps h2) (unlock_pair_steps h3))

/-- The ringing exit of `tu_dial` locks mutexes of TUs only. -/
theorem dial_ring_steps {w w1 : World} {t u a b : Ptr} {r : Int}
    (h : dial_ring w t u a b = some (w1, r)) : tu_steps w w1 := by
  unfold dial_ring at h
  obtain ⟨v1, h1, h⟩ := Option.bind_eq_some.mp h
  obtain ⟨v2, h2, h⟩ := Option.bind_eq_some.mp h
  obtain ⟨v3, h3, h⟩ := Option.bind_eq_some.mp h
  obtain ⟨v4, h4, h⟩ := Option.bind_eq_some.mp h
  obtain ⟨v5, h5, h⟩ := Option.bind_eq_some.mp h
  obtain ⟨v6, h6, h⟩ := Option.bind_eq_some.mp h
  obtain ⟨⟨v7, r7⟩, h7, h⟩ := Option.bind_eq_some.mp h
  obtain ⟨⟨v8, r8⟩, h8, h⟩ := Option.bind_eq_some.mp h
  obtain ⟨v9, h9, h⟩ := Option.bind_eq_some.mp h
  obtain ⟨rfl, _⟩ := Prod.mk.inj (Option.some.inj h)
  exact tu_steps_trans (modify_steps h1) (tu_steps_trans (modify_steps h2)
    (tu_steps_trans (tu_ref_steps h3) (tu_steps_trans (tu_ref_steps h4)
    (tu_steps_trans (modify_steps h5) (tu_steps_trans (modify_steps h6)
    (tu_steps_trans (notify_state_steps h7) (tu_steps_trans (notify_state_steps h8)
    (unlock_pair_steps h9))))))))

/-- Whenever `tu_dial` returns, it has locked mutexes of TUs only. -/
theorem tu_dial_steps {w w1 : World} {tu target : Option Ptr} {r : Int}
    (h : tu_dial w tu target = some (w1, r)) : tu_steps w w1 := by
  cases tu with
  | none =>
    simp [tu_dial] at h
    obtain ⟨rfl, _⟩ := h
    exact tu_steps_refl _
  | some t =>
    cases target with
    | none =>
      unfold tu_dial at h
      dsimp only at h
      obtain ⟨v1, h1, h⟩ := Option.bind_eq_some.mp h
      obtain ⟨v2, h2, h⟩ := Option.bind_eq_some.mp h
      obtain ⟨⟨v3, r3⟩, h3, h⟩ := Option.bind_eq_some.mp h
      obtain ⟨v4, h4, h⟩ := Option.bind_eq_some.mp h
      obtain ⟨rfl, _⟩ := Prod.mk.inj (Option.some.inj h)
      exact tu_steps_trans (mutex_lock_steps h1) (tu_steps_trans (modify_steps h2)
        (tu_steps_trans (notify_state_steps h3) (mutex_unlock_steps h4)))
    | some u =>
      unfold tu_dial at h
      dsimp only at h
      obtain ⟨v1, h1, h⟩ := Option.bind_eq_some.mp h
      obtain ⟨U, _, h⟩ := Option.bind_eq_some.mp h
      have k1 := lock_pair_steps h1
      by_cases c1 : U.peer ≠ none ∨ U.state ≠ TU_ON_HOOK
      · rw [if_pos c1] at h
        exact tu_steps_trans k1 (dial_busy_steps h)
      · rw [if_neg c1] at h
        by_cases c2 : t = u
        · rw [if_pos c2] at h
          exact tu_steps_trans k1 (dial_busy_steps h)
        · rw [if_neg c2] at h
          exact tu_steps_trans k1 (dial_ring_steps h)

/-- Whenever `tu_set_extension` returns, it has locked mutexes of TUs only. -/
theorem tu_set_extension_steps {MAX_EXT : Int} {w w1 : World} {tu : Option Ptr} {e r : Int}
    (h : tu_set_extension MAX_EXT w tu e = some (w1, r)) : tu_steps w w1 := by
  cases tu with
  | none =>
    simp [tu_set_extension] at h
    obtain ⟨rfl, _⟩ := h
    exact tu_steps_refl _
  | some t =>
    unfold tu_set_extension at h
    dsimp only at h
    by_cases c : e > MAX_EXT ∨ e < 0
    · rw [if_pos c] at h
      obtain ⟨rfl, _⟩ := Prod.mk.inj (Option.some.inj h)
      exact tu_steps_refl _
    · rw [if_neg c] at h
      obtain ⟨v1, h1, h⟩ := Option.bind_eq_some.mp h
      obtain ⟨v2, h2, h⟩ := Option.bind_eq_some.mp h
      obtain ⟨T, _, h⟩ := Option.bind_eq_some.mp h
      obtain ⟨v3, h3, h⟩ := Option.bind_eq_some.mp h
      obtain ⟨rfl, _⟩ := Prod.mk.inj (Option.some.inj h)
      have k3 := mutex_unlock_steps h3
      have k2 : tu_steps v1 v3 := by
        refine tu_steps_trans (modify_steps h2) (tu_steps_trans ?_ k3)
        exact tu_steps_of_eq rfl
      exact tu_steps_trans (mutex_lock_steps h1) k2

/-- A trace of events on the mutexes of TUs acquires none of them under the
mutex of the registry when the registry is not locked at the start. -/
theorem no_tu_lock_of_tu_only (tr : List LockEvent)
    (h : ∀ e ∈ tr, e ≠ .acquire .pbx ∧ e ≠ .release .pbx) :
    no_tu_lock_in_registry false tr = true := by
  induction tr with
  | nil => rfl
  | cons e tr ih =>
    have he := h e (List.mem_cons_self _ _)
    have ih1 := ih (fun x hx => h x (List.mem_cons_of_mem _ hx))
    cases e with
    | acquire m =>
      cases m with
      | pbx => exact absurd rfl he.1
      | tu p => simp [no_tu_lock_in_registry, ih1]
    | release m =>
      cases m with
      | pbx => exact absurd rfl he.2
      | tu p => simp [no_tu_lock_in_registry, ih1]

/-- A trace that never acquires the mutex of the registry does not acquire it
under the mutex of a TU. -/
theorem no_registry_lock_of_no_acquire (tr : List LockEvent) :
    ∀ held, (∀ e ∈ tr, e ≠ .acquire .pbx) → no_registry_lock_in_tu held tr = true := by
  induction tr with
  | nil => intro held _; rfl
  | cons e tr ih =>
    intro held h
    have he := h e (List.mem_cons_self _ _)
    have ih1 := fun hd => ih hd (fun x hx => h x (List.mem_cons_of_mem _ hx))
    cases e with
    | acquire m =>
      cases m with
      | pbx => exact absurd rfl he
      | tu p => simp [no_registry_lock_in_tu, ih1]
    | release m =>
      cases m with
      | pbx => simp [no_registry_lock_in_tu, ih1]
      | tu p => simp [no_registry_lock_in_tu, ih1]

/-- The trace of a registry call that locks the registry, works on TUs and
unlocks the registry. -/
theorem registry_bracket {w v1 v2 w1 : World} (h1 : v1.locks = w.locks ++ [.acquire .pbx])
    (h2 : tu_steps v1 v2) (h3 : w1.locks = v2.locks ++ [.release .pbx]) :
    ∃ tr, w1.locks = w.locks ++ tr ∧ no_registry_lock_in_tu [] tr = true := by
  obtain ⟨tr, htr, ptr⟩ := h2
  refine ⟨.acquire .pbx :: (tr ++ [.release .pbx]), ?_, ?_⟩
  · rw [h3, htr, h1]
    simp
  · have : no_registry_lock_in_tu [] (tr ++ [.release .pbx]) = true := by
      apply no_registry_lock_of_no_acquire
      intro e he
      rcases List.mem_append.mp he with h | h
      · exact (ptr e h).1
      · simp at h
        subst h
        simp
    simp [no_registry_lock_in_tu, this]

/-- Whenever `pbx_dial` returns, it has released the mutex of the registry
before it locked a TU. -/
theorem pbx_dial_trace {MAX_EXT : Int} {w w1 : World} {tu : Option Ptr} {e r : Int}
    (h : pbx_dial MAX_EXT w tu e = some (w1, r)) :
    ∃ tr, w1.locks = w.locks ++ tr ∧ no_tu_lock_in_registry false tr = true ∧
      no_registry_lock_in_tu [] tr = true := by
  cases tu with
  | none =>
    simp [pbx_dial] at h
    obtain ⟨rfl, _⟩ := h
    exact ⟨[], by simp, rfl, rfl⟩
  | some t =>
    unfold pbx_dial at h
    dsimp only at h
    obtain ⟨v1, h1, h⟩ := Option.bind_eq_some.mp h
    obtain ⟨v2, h2, h⟩ := Option.bind_eq_some.mp h
    obtain ⟨⟨v3, r3⟩, h3, h⟩ := Option.bind_eq_some.mp h
    have hw : v3 = w1 := by
      dsimp only at h
      split_ifs at h
      · exact (Prod.mk.inj (Option.some.inj h)).1
      · exact (Prod.mk.inj (Option.some.inj h)).1
    subst hw
    simp [mutex_lock] at h1
    subst h1
    simp [mutex_unlock] at h2
    subst h2
    obtain ⟨tr, htr, ptr⟩ := tu_dial_steps h3
    refine ⟨.acquire .pbx :: .release .pbx :: tr, ?_, ?_, ?_⟩
    · rw [htr]
      simp
    · simp [no_tu_lock_in_registry, no_tu_lock_of_tu_only tr ptr]
    · have := no_registry_lock_of_no_acquire tr [] (fun e he => (ptr e he).1)
      simp [no_registry_lock_in_tu, this]

/-- Whenever `pbx_register` returns, it has not locked the registry under the
mutex of a TU. -/
theorem pbx_register_trace {MAX_EXT : Int} {w w1 : World} {tu : Option Ptr} {e r : Int}
    (h : pbx_register MAX_EXT w tu e = some (w1, r)) :
    ∃ tr, w1.locks = w.locks ++ tr ∧ no_registry_lock_in_tu [] tr = true := by
  cases tu with
  | none =>
    simp [pbx_register] at h
    obtain ⟨rfl, _⟩ := h
    exact ⟨[], by simp, rfl⟩
  | some t =>
    unfold pbx_register at h
    dsimp only at h
    by_cases c0 : e < 0 ∨ e ≥ MAX_EXT
    · rw [if_pos c0] at h
      obtain ⟨rfl, _⟩ := Prod.mk.inj (Option.some.inj h)
      exact ⟨[], by simp, rfl⟩
    · rw [if_neg c0] at h
      obtain ⟨v1, h1, h⟩ := Option.bind_eq_some.mp h
      simp [mutex_lock] at h1
      subst h1
      dsimp only at h
      by_cases c1 : w.pbx.shutdown_in_progress = true
      · rw [if_pos c1] at h
        simp [mutex_unlock] at h
        obtain ⟨rfl, _⟩ := h
        exact ⟨[.acquire .pbx, .release .pbx], by simp, rfl⟩
      · rw [if_neg c1] at h
        by_cases c2 : w.pbx.extensions e.toNat ≠ none
        · rw [if_pos c2] at h
          simp [mutex_unlock] at h
          obtain ⟨rfl, _⟩ := h
          exact ⟨[.acquire .pbx, .release .pbx], by simp, rfl⟩
        · rw [if_neg c2] at h
          obtain ⟨v2, h2, h⟩ := Option.bind_eq_some.mp h
          obtain ⟨⟨v3, r3⟩, h3, h⟩ := Option.bind_eq_some.mp h
          obtain ⟨v4, h4, h⟩ := Option.bind_eq_some.mp h
          obtain ⟨rfl, _⟩ := Prod.mk.inj (Option.some.inj h)
          simp [mutex_unlock] at h4
          subst h4
          have k := tu_steps_trans (tu_ref_steps h2) (tu_set_extension_steps h3)
          exact registry_bracket (w := w) rfl k rfl

/-- Whenever `pbx_unregister` returns, it has not locked the registry under the
mutex of a TU. -/
theorem pbx_unregister_trace {MAX_EXT : Int} {w w1 : World} {tu : Option Ptr} {r : Int}
    (h : pbx_unregister MAX_EXT w tu = some (w1, r)) :
    ∃ tr, w1.locks = w.locks ++ tr ∧ no_registry_lock_in_tu [] tr = true := by
  cases tu with
  | none =>
    simp [pbx_unregister] at h
    obtain ⟨rfl, _⟩ := h
    exact ⟨[], by simp, rfl⟩
  | some t =>
    unfold pbx_unregister at h
    dsimp only at h
    obtain ⟨v1, h1, h⟩ := Option.bind_eq_some.mp h
    simp [mutex_lock] at h1
    subst h1
    obtain ⟨ext, _, h⟩ := Option.bind_eq_some.mp h
    dsimp only at h
    by_cases c0 : ext < 0 ∨ ext ≥ MAX_EXT ∨ w.pbx.extensions ext.toNat ≠ some t
    · rw [if_pos c0] at h
      simp [mutex_unlock] at h
      obtain ⟨rfl, _⟩ := h
      exact ⟨[.acquire .pbx, .release .pbx], by simp, rfl⟩
    · rw [if_neg c0] at h
      obtain ⟨⟨v2, r2⟩, h2, h⟩ := Option.bind_eq_some.mp h
      obtain ⟨v3, h3, h⟩ := Option.bind_eq_some.mp h
      obtain ⟨v4, h4, h⟩ := Option.bind_eq_some.mp h
      obtain ⟨rfl, _⟩ := Prod.mk.inj (Option.some.inj h)
      simp [mutex_unlock] at h4
      subst h4
      have k := tu_steps_trans (tu_hangup_steps h2) (tu_unref_steps h3)
      exact registry_bracket (w := w) rfl k rfl

/-- The empty trace is neutral. -/
theorem lock_neutral_nil : lock_neutral [] := fun _ => rfl

/-- Two neutral pieces make a neutral piece. -/
theorem lock_neutral_append {a b : List LockEvent} (ha : lock_neutral a) (hb : lock_neutral b) :
    lock_neutral (a ++ b) := by
  intro rest
  rw [List.append_assoc, ha, hb]

/-- Acquiring the registry with no TU locked is neutral. -/
theorem lock_neutral_acquire : lock_neutral [.acquire .pbx] := by
  intro rest
  simp [no_registry_lock_in_tu]

/-- Releasing the registry is neutral. -/
theorem lock_neutral_release : lock_neutral [.release .pbx] := by
  intro rest
  simp [no_registry_lock_in_tu]

/-- Locking and unlocking one TU is neutral. -/
theorem lock_neutral_tu (p : Ptr) : lock_neutral [.acquire (.tu p), .release (.tu p)] := by
  intro rest
  simp [no_registry_lock_in_tu]

/-- The trace of `tu_fileno` on a TU. -/
theorem tu_fileno_trace {w w1 : World} {p : Ptr} {fd : Int}
    (h : tu_fileno w (some p) = some (w1, fd)) :
    w1.locks = w.locks ++ [.acquire (.tu p), .release (.tu p)] := by
  cases hp : w.heap p with
  | none => simp [tu_fileno, mutex_lock, hp] at h
  | some T =>
    simp [tu_fileno, mutex_lock, mutex_unlock, hp] at h
    obtain ⟨rfl, _⟩ := h
    simp

/-- The loop over the slots locks one TU at a time. -/
theorem shutdown_scan_trace (l : List Nat) :
    ∀ w w1, shutdown_scan w l = some w1 →
      ∃ tr, w1.locks = w.locks ++ tr ∧ lock_neutral tr := by
  induction l with
  | nil =>
    intro w w1 h
    simp [shutdown_scan] at h
    subst h
    exact ⟨[], by simp, lock_neutral_nil⟩
  | cons i l ih =>
    intro w w1 h
    cases hs : w.pbx.extensions i with
    | none =>
      simp only [shutdown_scan, hs] at h
      exact ih w w1 h
    | some tu =>
      simp only [shutdown_scan, hs] at h
      cases hf : tu_fileno w (some tu) with
      | none => simp [hf] at h
      | some x =>
        obtain ⟨v, fd⟩ := x
        simp only [hf] at h
        obtain ⟨tr, htr, ptr⟩ := ih v w1 h
        refine ⟨[.acquire (.tu tu), .release (.tu tu)] ++ tr, ?_,
          lock_neutral_append (lock_neutral_tu tu) ptr⟩
        rw [htr, tu_fileno_trace hf, List.append_assoc]

/-- The wait for the TUs releases and acquires the registry with no TU locked. -/
theorem shutdown_wait_trace (wake : List Int) :
    ∀ w, ∃ tr, (shutdown_wait w wake).1.locks = w.locks ++ tr ∧ lock_neutral tr := by
  induction wake with
  | nil =>
    intro w
    by_cases c : w.pbx.active_tus > 0
    · exact ⟨[.release .pbx], by simp [shutdown_wait, c], lock_neutral_release⟩
    · exact ⟨[], by simp [shutdown_wait, c], lock_neutral_nil⟩
  | cons a wake ih =>
    intro w
    by_cases c : w.pbx.active_tus > 0
    · obtain ⟨tr, htr, ptr⟩ := ih { w with
        locks := w.locks ++ [.release .pbx, .acquire .pbx],
        pbx := { w.pbx with active_tus := a } }
      refine ⟨[.release .pbx] ++ [.acquire .pbx] ++ tr, ?_,
        lock_neutral_append (lock_neutral_append lock_neutral_release lock_neutral_acquire) ptr⟩
      simp only [shutdown_wait, if_pos c]
      rw [htr]
      simp
    · exact ⟨[], by simp [shutdown_wait, c], lock_neutral_nil⟩

/-- Whenever `pbx_shutdown` returns or waits, it has not locked the registry
under the mutex of a TU. -/
theorem pbx_shutdown_trace {MAX_EXT : Int} {w w1 : World} {wake : List Int} {b : Bool}
    (h : pbx_shutdown MAX_EXT w wake = some (w1, b)) :
    ∃ tr, w1.locks = w.locks ++ tr ∧ no_registry_lock_in_tu [] tr = true := by
  unfold pbx_shutdown at h
  obtain ⟨v1, h1, h⟩ := Option.bind_eq_some.mp h
  simp [mutex_lock] at h1
  subst h1
  obtain ⟨v2, h2, h⟩ := Option.bind_eq_some.mp h
  obtain ⟨t2, ht2, p2⟩ := shutdown_scan_trace _ _ _ h2
  obtain ⟨t3, ht3, p3⟩ := shutdown_wait_trace wake v2
  dsimp only at h ht2
  by_cases c : (shutdown_wait v2 wake).2 = true
  · rw [if_pos c] at h
    simp [mutex_unlock] at h
    obtain ⟨rfl, _⟩ := h
    refine ⟨[.acquire .pbx] ++ t2 ++ t3 ++ [.release .pbx], ?_, ?_⟩
    · simp only [ht3, ht2, List.append_assoc]
    · have := lock_neutral_append (lock_neutral_append (lock_neutral_append lock_neutral_acquire
        p2) p3) lock_neutral_release []
      simpa using this
  · rw [if_neg c] at h
    obtain ⟨rfl, _⟩ := Prod.mk.inj (Option.some.inj h)
    refine ⟨[.acquire .pbx] ++ t2 ++ t3, ?_, ?_⟩
    · simp only [ht3, ht2, List.append_assoc]
    · have := lock_neutral_append (lock_neutral_append lock_neutral_acquire p2) p3 []
      simpa using this

/-- The order that the code follows: `pbx_dial` acquires no mutex of a TU while
the mutex of the registry is held, and none of `pbx_register`, `pbx_unregister`,
`pbx_dial` and `pbx_shutdown` acquires the mutex of the registry while the mutex
of a TU is held.  Stated on the events that a call adds to the lock trace. -/
theorem registry_lock_first (MAX_EXT : Int) (w : World) :
    (∀ tu e w1 r, pbx_dial MAX_EXT w tu e = some (w1, r) →
      ∃ tr, w1.locks = w.locks ++ tr ∧ no_tu_lock_in_registry false tr = true ∧
        no_registry_lock_in_tu [] tr = true) ∧
    (∀ tu e w1 r, pbx_register MAX_EXT w tu e = some (w1, r) →
      ∃ tr, w1.locks = w.locks ++ tr ∧ no_registry_lock_in_tu [] tr = true) ∧
    (∀ tu w1 r, pbx_unregister MAX_EXT w tu = some (w1, r) →
      ∃ tr, w1.locks = w.locks ++ tr ∧ no_registry_lock_in_tu [] tr = true) ∧
    (∀ wake w1 b, pbx_shutdown MAX_EXT w wake = some (w1, b) →
      ∃ tr, w1.locks = w.locks ++ tr ∧ no_registry_lock_in_tu [] tr = true) :=
  ⟨fun _ _ _ _ h => pbx_dial_trace h, fun _ _ _ _ h => pbx_register_trace h,
    fun _ _ _ h => pbx_unregister_trace h, fun _ _ _ h => pbx_shutdown_trace h⟩

/-- The order of the locks when A dials B in `w_offhook`: the registry is locked and
unlocked, then A and B are locked. -/
theorem registry_lock_first_witness :
    ∃ w1, pbx_dial 1024 w_offhook (some 1) 7 = some (w1, 0) ∧
      ∃ tr, w1.locks = w_offhook.locks ++ tr ∧ no_tu_lock_in_registry false tr = true ∧
        no_registry_lock_in_tu [] tr = true := by
  have hs : (pbx_dial 1024 w_offhook (some 1) 7).map Prod.snd = some 0 := by decide
  cases hr : pbx_dial 1024 w_offhook (some 1) 7 with
  | none => rw [hr] at hs; cases hs
  | some x =>
    obtain ⟨w1, r⟩ := x
    rw [hr] at hs
    obtain rfl : r = 0 := Option.some.inj hs
    exact ⟨w1, rfl, (registry_lock_first 1024 w_offhook).1 (some 1) 7 w1 0 hr⟩

/-- Claim C22 fails in three of the four calls: each locks a TU between the
lock and the unlock of the registry.  `pbx_register` calls `tu_set_extension`,
`pbx_unregister` calls `tu_hangup`, which locks the TU and its peer, and
`pbx_shutdown` calls `tu_fileno` for every registered TU.  `pbx_dial` unlocks
the registry before `tu_dial` locks the two TUs. -/
theorem tu_locked_under_registry_lock :
    (pbx_register 1024 w_new (some 3) 9).map
        (fun x => (x.2, x.1.locks, no_tu_lock_in_registry false x.1.locks)) =
      some (0, [.acquire .pbx, .acquire (.tu 3), .release (.tu 3), .release .pbx], false) ∧
    (pbx_unregister 1024 w_connected (some 1)).map
        (fun x => (x.2, x.1.locks, no_tu_lock_in_registry false x.1.locks)) =
      some (0, [.acquire .pbx, .acquire (.tu 1), .acquire (.tu 2), .release (.tu 2),
        .release (.tu 1), .release .pbx], false) ∧
    (pbx_shutdown 16 w_idle [0]).map
        (fun x => (x.2, x.1.locks, no_tu_lock_in_registry false x.1.locks)) =
      some (true, [.acquire .pbx, .acquire (.tu 1), .release (.tu 1), .acquire (.tu 2),
        .release (.tu 2), .release .pbx, .acquire .pbx, .release .pbx], false) ∧
    (pbx_dial 1024 w_offhook (some 1) 7).map
        (fun x => (x.2, x.1.locks, no_tu_lock_in_registry false x.1.locks)) =
      some (0, [.acquire .pbx, .release .pbx, .acquire (.tu 1), .acquire (.tu 2),
        .release (.tu 2), .release (.tu 1)], true) := by
  refine ⟨by decide, by decide, by decide, by decide⟩

/-! ## The invariants after a change of one or two TUs -/

/-- A TU with the same shape in two worlds. -/
theorem shape_back {w w1 : World} {p : Ptr} {T : TU}
    (h : (w1.heap p).map shape = (w.heap p).map shape) (hT : w1.heap p = some T) :
    ∃ T0, w.heap p = some T0 ∧ T0.state = T.state ∧ T0.peer = T.peer := by
  rw [hT] at h
  cases h0 : w.heap p with
  | none => rw [h0] at h; cases h
  | some T0 =>
    rw [h0] at h
    have := Option.some.inj h
    simp only [shape, Prod.mk.injEq] at this
    exact ⟨T0, rfl, this.1.symm, this.2.symm⟩

/-- A TU with the same shape in two worlds, the other way round. -/
theorem shape_forth {w w1 : World} {p : Ptr} {T0 : TU}
    (h : (w1.heap p).map shape = (w.heap p).map shape) (hT : w.heap p = some T0) :
    ∃ T, w1.heap p = some T ∧ T.state = T0.state ∧ T.peer = T0.peer := by
  rw [hT] at h
  cases h1 : w1.heap p with
  | none => rw [h1] at h; cases h
  | some T =>
    rw [h1] at h
    have := Option.some.inj h
    simp only [shape, Prod.mk.injEq] at this
    exact ⟨T, rfl, this.1, this.2⟩

/-- The invariants hold in a world in which every TU has the shape it has in a
world where they hold. -/
theorem invariants_of_same_shape (w w1 : World)
    (hs : ∀ p, (w1.heap p).map shape = (w.heap p).map shape)
    (h1 : I1 w) (h2 : I2 w) (h3 : I3 w) : I1 w1 ∧ I2 w1 ∧ I3 w1 := by
  refine ⟨?_, ?_, ?_⟩
  · intro p T hT
    obtain ⟨T0, hT0, e1, e2⟩ := shape_back (hs p) hT
    rw [← e1, ← e2]
    exact h1 p T0 hT0
  · intro p q T hT hq
    obtain ⟨T0, hT0, e1, e2⟩ := shape_back (hs p) hT
    obtain ⟨U0, hU0, hU0p⟩ := h2 p q T0 hT0 (e2.trans hq)
    obtain ⟨U, hU, _, f2⟩ := shape_forth (hs q) hU0
    exact ⟨U, hU, f2.trans hU0p⟩
  · intro p q T U hT hq hU
    obtain ⟨T0, hT0, e1, e2⟩ := shape_back (hs p) hT
    obtain ⟨U0, hU0, f1, f2⟩ := shape_back (hs q) hU
    have := h3 p q T0 U0 hT0 (e2.trans hq) hU0
    rw [e1, f1] at this
    exact this

/-- In a world with symmetric peers, when the peers of `t` and `u` are among `t`
and `u`, no other TU has `t` or `u` as its peer. -/
theorem closed_of_I2 (w : World) (t u : Ptr) (h2 : I2 w)
    (ht : ∀ T, w.heap t = some T → T.peer = none ∨ T.peer = some u ∨ T.peer = some t)
    (hu : ∀ U, w.heap u = some U → U.peer = none ∨ U.peer = some t ∨ U.peer = some u) :
    ∀ p V, p ≠ t → p ≠ u → w.heap p = some V → V.peer ≠ some t ∧ V.peer ≠ some u := by
  intro p V hpt hpu hV
  constructor
  · intro hv
    obtain ⟨T, hT, hTp⟩ := h2 p t V hV hv
    rcases ht T hT with h | h | h
    · rw [h] at hTp; cases hTp
    · rw [h] at hTp; exact hpu (Option.some.inj hTp).symm
    · rw [h] at hTp; exact hpt (Option.some.inj hTp).symm
  · intro hv
    obtain ⟨U, hU, hUp⟩ := h2 p u V hV hv
    rcases hu U hU with h | h | h
    · rw [h] at hUp; cases hUp
    · rw [h] at hUp; exact hpt (Option.some.inj hUp).symm
    · rw [h] at hUp; exact hpu (Option.some.inj hUp).symm

/-- The invariants after a change of the TUs at `t` and `u` (which may be one
TU) that leaves both without a peer in unpaired states, or makes them the peers
of each other in matching states, when no other TU had one of them as its peer. -/
theorem invariants_local (w w1 : World) (t u : Ptr) (T1 U1 : TU)
    (h1 : I1 w) (h2 : I2 w) (h3 : I3 w)
    (hT : w1.heap t = some T1) (hU : w1.heap u = some U1)
    (hoth : ∀ p, p ≠ t → p ≠ u → (w1.heap p).map shape = (w.heap p).map shape)
    (hcl : ∀ p V, p ≠ t → p ≠ u → w.heap p = some V → V.peer ≠ some t ∧ V.peer ≠ some u)
    (hloc : (T1.peer = none ∧ ¬ paired T1.state ∧ U1.peer = none ∧ ¬ paired U1.state) ∨
      (t ≠ u ∧ T1.peer = some u ∧ U1.peer = some t ∧
        ((T1.state = TU_RING_BACK ∧ U1.state = TU_RINGING) ∨
          (T1.state = TU_CONNECTED ∧ U1.state = TU_CONNECTED)))) :
    I1 w1 ∧ I2 w1 ∧ I3 w1 := by
  have hTU : t = u → T1 = U1 := by
    rintro rfl
    rw [hT] at hU
    exact Option.some.inj hU
  have far : ∀ p P, p ≠ t → p ≠ u → w1.heap p = some P →
      ∃ P0, w.heap p = some P0 ∧ P0.state = P.state ∧ P0.peer = P.peer ∧
        P.peer ≠ some t ∧ P.peer ≠ some u := by
    intro p P hpt hpu hP
    obtain ⟨P0, hP0, e1, e2⟩ := shape_back (hoth p hpt hpu) hP
    have := hcl p P0 hpt hpu hP0
    rw [e2] at this
    exact ⟨P0, hP0, e1, e2, this⟩
  refine ⟨?_, ?_, ?_⟩
  · intro p P hP
    by_cases hpt : p = t
    · subst hpt
      rw [hT] at hP
      obtain rfl := Option.some.inj hP
      rcases hloc with ⟨a, b, _, _⟩ | ⟨_, a, _, b⟩
      · simp [a, b]
      · rcases b with ⟨b, _⟩ | ⟨b, _⟩ <;> simp [a, b, paired]
    · by_cases hpu : p = u
      · subst hpu
        rw [hU] at hP
        obtain rfl := Option.some.inj hP
        rcases hloc with ⟨_, _, a, b⟩ | ⟨_, _, a, b⟩
        · simp [a, b]
        · rcases b with ⟨_, b⟩ | ⟨_, b⟩ <;> simp [a, b, paired]
      · obtain ⟨P0, hP0, e1, e2, _⟩ := far p P hpt hpu hP
        rw [← e1, ← e2]
        exact h1 p P0 hP0
  · intro p q P hP hq
    by_cases hpt : p = t
    · subst hpt
      rw [hT] at hP
      obtain rfl := Option.some.inj hP
      rcases hloc with ⟨a, _, _, _⟩ | ⟨_, a, b, _⟩
      · rw [a] at hq; cases hq
      · rw [a] at hq
        obtain rfl := Option.some.inj hq
        exact ⟨U1, hU, b⟩
    · by_cases hpu : p = u
      · subst hpu
        rw [hU] at hP
        obtain rfl := Option.some.inj hP
        rcases hloc with ⟨_, _, a, _⟩ | ⟨_, b, a, _⟩
        · rw [a] at hq; cases hq
        · rw [a] at hq
          obtain rfl := Option.some.inj hq
          exact ⟨T1, hT, b⟩
      · obtain ⟨P0, hP0, e1, e2, n1, n2⟩ := far p P hpt hpu hP
        obtain ⟨Q0, hQ0, hQ0p⟩ := h2 p q P0 hP0 (e2.trans hq)
        have hqt : q ≠ t := by rintro rfl; exact n1 hq
        have hqu : q ≠ u := by rintro rfl; exact n2 hq
        obtain ⟨Q, hQ, _, f2⟩ := shape_forth (hoth q hqt hqu) hQ0
        exact ⟨Q, hQ, f2.trans hQ0p⟩
  · intro p q P Q hP hq hQ
    by_cases hpt : p = t
    · subst hpt
      rw [hT] at hP
      obtain rfl := Option.some.inj hP
      rcases hloc with ⟨a, _, _, _⟩ | ⟨_, a, _, b⟩
      · rw [a] at hq; cases hq
      · rw [a] at hq
        obtain rfl := Option.some.inj hq
        rw [hU] at hQ
        obtain rfl := Option.some.inj hQ
        rcases b with b | b
        · exact Or.inl b
        · exact Or.inr (Or.inr b)
    · by_cases hpu : p = u
      · subst hpu
        rw [hU] at hP
        obtain rfl := Option.some.inj hP
        rcases hloc with ⟨_, _, a, _⟩ | ⟨_, _, a, b⟩
        · rw [a] at hq; cases hq
        · rw [a] at hq
          obtain rfl := Option.some.inj hq
          rw [hT] at hQ
          obtain rfl := Option.some.inj hQ
          rcases b with ⟨b1, b2⟩ | ⟨b1, b2⟩
          · exact Or.inr (Or.inl ⟨b2, b1⟩)
          · exact Or.inr (Or.inr ⟨b2, b1⟩)
      · obtain ⟨P0, hP0, e1, e2, n1, n2⟩ := far p P hpt hpu hP
        have hqt : q ≠ t := by rintro rfl; exact n1 hq
        have hqu : q ≠ u := by rintro rfl; exact n2 hq
        obtain ⟨Q0, hQ0, f1, f2⟩ := shape_back (hoth q hqt hqu) hQ
        have := h3 p q P0 Q0 hP0 (e2.trans hq) hQ0
        rw [e1, f1] at this
        exact this

/-- The invariants after the release of a TU that has no peer. -/
theorem invariants_of_removal (w w1 : World) (t : Ptr)
    (h1 : I1 w) (h2 : I2 w) (h3 : I3 w)
    (hT : w1.heap t = none)
    (hpeer : ∀ T, w.heap t = some T → T.peer = none)
    (hoth : ∀ p, p ≠ t → (w1.heap p).map shape = (w.heap p).map shape) :
    I1 w1 ∧ I2 w1 ∧ I3 w1 := by
  have far : ∀ p P, w1.heap p = some P →
      p ≠ t ∧ ∃ P0, w.heap p = some P0 ∧ P0.state = P.state ∧ P0.peer = P.peer ∧
        P.peer ≠ some t := by
    intro p P hP
    have hpt : p ≠ t := by
      rintro rfl
      rw [hT] at hP
      cases hP
    obtain ⟨P0, hP0, e1, e2⟩ := shape_back (hoth p hpt) hP
    refine ⟨hpt, P0, hP0, e1, e2, ?_⟩
    intro hv
    obtain ⟨T, hT0, hTp⟩ := h2 p t P0 hP0 (e2.trans hv)
    rw [hpeer T hT0] at hTp
    cases hTp
  refine ⟨?_, ?_, ?_⟩
  · intro p P hP
    obtain ⟨_, P0, hP0, e1, e2, _⟩ := far p P hP
    rw [← e1, ← e2]
    exact h1 p P0 hP0
  · intro p q P hP hq
    obtain ⟨_, P0, hP0, e1, e2, n⟩ := far p P hP
    obtain ⟨Q0, hQ0, hQ0p⟩ := h2 p q P0 hP0 (e2.trans hq)
    have hqt : q ≠ t := by rintro rfl; exact n hq
    obtain ⟨Q, hQ, _, f2⟩ := shape_forth (hoth q hqt) hQ0
    exact ⟨Q, hQ, f2.trans hQ0p⟩
  · intro p q P Q hP hq hQ
    obtain ⟨_, P0, hP0, e1, e2, n⟩ := far p P hP
    obtain ⟨_, Q0, hQ0, f1, f2, _⟩ := far q Q hQ
    have := h3 p q P0 Q0 hP0 (e2.trans hq) hQ0
    rw [e1, f1] at this
    exact this

/-! ## The effect of each TU operation, whatever the sinks do -/

/-- Picking up on hook: the TU hears the dial tone. -/
theorem tu_pickup_on_hook_fields (w : World) (t : Ptr) (T : TU) (hT : w.heap t = some T)
    (hst : T.state = TU_ON_HOOK) :
    ∃ w1 s, tu_pickup w (some t) = some (w1, 0) ∧
      w1.heap = Function.update w.heap t (some { T with state := TU_DIAL_TONE, sink := s }) ∧
      w1.pbx = w.pbx := by
  simp [tu_pickup, hT, hst, mutex_lock, mutex_unlock, modify, notify_state, state_msg,
    Function.update_same, -String.toList]
  exact ⟨_, rfl⟩

/-- Picking up in a state other than `ON_HOOK` and `RINGING` writes to the sink
of the TU and changes nothing else. -/
theorem tu_pickup_other_fields (w : World) (t : Ptr) (T : TU) (hT : w.heap t = some T)
    (h1 : T.state ≠ TU_ON_HOOK) (h2 : T.state ≠ TU_RINGING)
    (hpl : ∀ u, T.peer = some u → ∃ U, w.heap u = some U) :
    ∃ w1 s, tu_pickup w (some t) = some (w1, 0) ∧
      w1.heap = Function.update w.heap t (some { T with sink := s }) ∧
      w1.pbx = w.pbx := by
  cases hs : T.state with
  | TU_ON_HOOK => exact absurd hs h1
  | TU_RINGING => exact absurd hs h2
  | TU_CONNECTED =>
    cases hp : T.peer with
    | none =>
      simp [tu_pickup, hT, hs, hp, mutex_lock, mutex_unlock, notify_state, state_msg,
        Function.update_same, -String.toList]
      exact ⟨_, rfl⟩
    | some u =>
      obtain ⟨U, hU⟩ := hpl u hp
      simp [tu_pickup, hT, hs, hp, hU, mutex_lock, mutex_unlock, notify_state, state_msg,
        Function.update_same, -String.toList]
      exact ⟨_, rfl⟩
  | _ =>
    simp [tu_pickup, hT, hs, mutex_lock, mutex_unlock, notify_state, state_msg,
      Function.update_same, -String.toList]
    exact ⟨_, rfl⟩

/-- Dialling an absent target: the caller gets the error tone and `-1` is
returned. -/
theorem tu_dial_absent_fields (w : World) (t : Ptr) (T : TU) (hT : w.heap t = some T) :
    ∃ w1 s, tu_dial w (some t) none = some (w1, -1) ∧
      w1.heap = Function.update w.heap t (some { T with state := TU_ERROR, sink := s }) ∧
      w1.pbx = w.pbx := by
  simp [tu_dial, hT, mutex_lock, mutex_unlock, modify, notify_state, state_msg,
    Function.update_same, -String.toList]
  exact ⟨_, rfl⟩

/-- Dialling a target that is paired or off hook, or oneself: the caller gets
the busy signal. -/
theorem tu_dial_busy_fields (w : World) (t u : Ptr) (T U : TU)
    (hT : w.heap t = some T) (hU : w.heap u = some U)
    (hbusy : U.peer ≠ none ∨ U.state ≠ TU_ON_HOOK ∨ t = u) :
    ∃ w1 s, tu_dial w (some t) (some u) = some (w1, 0) ∧
      w1.heap = Function.update w.heap t (some { T with state := TU_BUSY_SIGNAL, sink := s }) ∧
      w1.pbx = w.pbx := by
  obtain ⟨l, hl⟩ := lock_pair_live w (if t < u then t else u) (if t < u then u else t)
    (by split_ifs <;> simp [hT, hU]) (by split_ifs <;> simp [hT, hU])
  have hb : ∀ a b : Ptr, (a = t ∧ b = u) ∨ (a = u ∧ b = t) →
      ∃ w1 s, dial_busy { w with locks := l } t a b = some (w1, 0) ∧
        w1.heap = Function.update w.heap t
          (some { T with state := TU_BUSY_SIGNAL, sink := s }) ∧
        w1.pbx = w.pbx := by
    intro a b hab
    by_cases hne : u = t
    · subst hne
      have : a = u ∧ b = u := by rcases hab with h | h <;> exact ⟨h.1, h.2⟩
      obtain ⟨rfl, rfl⟩ := this
      simp [dial_busy, unlock_pair, mutex_unlock, modify, notify_state, state_msg, hT,
        Function.update_same, -String.toList]
      exact ⟨_, rfl⟩
    · have hne2 : t ≠ u := fun h => hne h.symm
      rcases hab with ⟨rfl, rfl⟩ | ⟨rfl, rfl⟩ <;>
      · simp [dial_busy, unlock_pair, mutex_unlock, modify, notify_state, state_msg, hT, hU,
          hne, hne2, Function.update_same, Function.update_noteq, -String.toList]
        exact ⟨_, rfl⟩
  obtain ⟨w1, s, hw1, rest⟩ := hb _ _ (lock_order_cases t u)
  refine ⟨w1, s, ?_, rest⟩
  unfold tu_dial
  simp only [hl, Option.bind_eq_bind, Option.some_bind, hU]
  by_cases c1 : U.peer ≠ none ∨ U.state ≠ TU_ON_HOOK
  · rw [if_pos c1]
    exact hw1
  · rw [if_neg c1]
    have c2 : t = u := by
      rcases hbusy with h | h | h
      · exact absurd (Or.inl h) c1
      · exact absurd (Or.inr h) c1
      · exact h
    rw [if_pos c2]
    exact hw1

/-- The release of a pair in which a reference count is 1: `tu_unref` releases
that TU and `notify_state` then reads it, so the call has no result. -/
theorem hangup_pair_last_ref (w : World) (t u : Ptr) (T U : TU) (s : TU_STATE) (a b : Ptr)
    (hT : w.heap t = some T) (hU : w.heap u = some U) (hne : u ≠ t)
    (hr : T.refs = 1 ∨ U.refs = 1) :
    hangup_pair w t u s a b = none := by
  have hne2 : t ≠ u := fun h => hne h.symm
  by_cases hrT : T.refs - 1 = 0
  · by_cases hrU : U.refs - 1 = 0
    · simp [hangup_pair, modify, tu_unref, notify_state, hT, hU, hne, hne2, hrT, hrU,
        Function.update_same, Function.update_noteq]
    · simp [hangup_pair, modify, tu_unref, notify_state, hT, hU, hne, hne2, hrT, hrU,
        Function.update_same, Function.update_noteq]
  · have hrU : U.refs - 1 = 0 := by omega
    simp [hangup_pair, modify, tu_unref, notify_state, state_msg, hT, hU, hne, hne2, hrT, hrU,
      Function.update_same, Function.update_noteq, -String.toList]

/-- Hanging up on a peer when a reference count is 1 has no result. -/
theorem tu_hangup_last_ref (w : World) (t u : Ptr) (T U : TU)
    (hT : w.heap t = some T) (hU : w.heap u = some U) (hne : u ≠ t)
    (hstate : paired T.state) (hpeer : T.peer = some u)
    (hr : T.refs = 1 ∨ U.refs = 1) :
    tu_hangup w (some t) = none := by
  obtain ⟨l, hl⟩ := lock_pair_live w (if t < u then t else u) (if t < u then u else t)
    (by split_ifs <;> simp [hT, hU]) (by split_ifs <;> simp [hT, hU])
  have key : ∀ s, hangup_pair { w with locks := l } t u s (if t < u then t else u)
      (if t < u then u else t) = none :=
    fun s => hangup_pair_last_ref { w with locks := l } t u T U s _ _ hT hU hne hr
  rcases hstate with h | h | h <;>
  · simp [tu_hangup, hT, h, hpeer, hl, key]

/-- The release of a TU that is its own peer: it loses two references and ends
in the state given for the peer, unless one of the two releases is the last. -/
theorem hangup_pair_self (w : World) (t : Ptr) (T : TU) (s : TU_STATE)
    (hT : w.heap t = some T) (hs : s = TU_ON_HOOK ∨ s = TU_DIAL_TONE) :
    (T.refs = 1 ∨ T.refs = 2 → hangup_pair w t t s t t = none) ∧
    (T.refs ≠ 1 → T.refs ≠ 2 → ∃ w1 sT, hangup_pair w t t s t t = some (w1, 0) ∧
      w1.heap = Function.update w.heap t
        (some { T with state := s, peer := none, refs := T.refs - 1 - 1, sink := sT }) ∧
      w1.pbx = w.pbx) := by
  constructor
  · intro hr
    by_cases hr1 : T.refs - 1 = 0
    · simp [hangup_pair, modify, tu_unref, hT, hr1, Function.update_same]
    · have hr2 : T.refs - 1 - 1 = 0 := by omega
      simp [hangup_pair, modify, tu_unref, notify_state, hT, hr1, hr2, Function.update_same]
  · intro h1 h2
    have hr1 : ¬ (T.refs - 1 = 0) := by omega
    have hr2 : ¬ (T.refs - 1 - 1 = 0) := by omega
    rcases hs with rfl | rfl <;>
    · simp [hangup_pair, unlock_pair, mutex_unlock, modify, tu_unref, notify_state, state_msg,
        hT, hr1, hr2, Function.update_same, -String.toList]
      exact ⟨_, rfl⟩

/-- Hanging up a TU that is its own peer, when the call returns. -/
theorem tu_hangup_self (w w1 : World) (t : Ptr) (T : TU) (r : Int)
    (hT : w.heap t = some T) (hstate : paired T.state) (hpeer : T.peer = some t)
    (h : tu_hangup w (some t) = some (w1, r)) :
    ∃ T1, w1.heap = Function.update w.heap t (some T1) ∧ T1.peer = none ∧
      ¬ paired T1.state ∧ w1.pbx = w.pbx := by
  obtain ⟨l, hl⟩ := lock_pair_live w t t (by simp [hT]) (by simp [hT])
  have hun : tu_hangup w (some t) = hangup_pair { w with locks := l } t t
      (if T.state = TU_RING_BACK then TU_ON_HOOK else TU_DIAL_TONE) t t := by
    rcases hstate with h | h | h <;>
    · simp [tu_hangup, hT, h, hpeer, hl]
  have hs : (if T.state = TU_RING_BACK then TU_ON_HOOK else TU_DIAL_TONE) = TU_ON_HOOK ∨
      (if T.state = TU_RING_BACK then TU_ON_HOOK else TU_DIAL_TONE) = TU_DIAL_TONE := by
    split_ifs
    · exact Or.inl rfl
    · exact Or.inr rfl
  obtain ⟨hnone, hsome⟩ := hangup_pair_self { w with locks := l } t T _ hT hs
  rw [hun] at h
  by_cases hr : T.refs = 1 ∨ T.refs = 2
  · rw [hnone hr] at h
    cases h
  · simp only [not_or] at hr
    obtain ⟨w2, sT, hw2, hheap, hpbx⟩ := hsome hr.1 hr.2
    rw [hw2] at h
    obtain ⟨rfl, _⟩ := Prod.mk.inj (Option.some.inj h)
    refine ⟨_, hheap, rfl, ?_, hpbx⟩
    rcases hs with e | e <;> simp [e, paired]

/-- A TU whose sink alone has changed. -/
theorem mute_update (h : Ptr → Option TU) (t : Ptr) (T : TU) (s : List Char)
    (hT : h t = some T) (p : Ptr) :
    (Function.update h t (some { T with sink := s }) p).map mute = (h p).map mute := by
  by_cases hp : p = t
  · subst hp
    simp [hT, mute]
  · simp [Function.update_noteq hp]

/-- Two TUs whose sinks alone have changed. -/
theorem mute_update_two (h : Ptr → Option TU) (t u : Ptr) (T U : TU) (s1 s2 : List Char)
    (hT : h t = some T) (hU : h u = some U) (hne : u ≠ t) (p : Ptr) :
    (Function.update (Function.update h t (some { T with sink := s1 })) u
      (some { U with sink := s2 }) p).map mute = (h p).map mute := by
  by_cases hp : p = u
  · subst hp
    simp [hU, mute]
  · rw [Function.update_noteq hp]
    exact mute_update h t T s1 hT p

/-- A chat sent by a connected TU changes sinks only, whether it returns 0 or
`-1`. -/
theorem tu_chat_fields (w : World) (t u : Ptr) (T U : TU) (msg : List Char)
    (hT : w.heap t = some T) (hU : w.heap u = some U)
    (hstate : T.state = TU_CONNECTED) (hpeer : T.peer = some u) :
    ∃ w1 r, tu_chat w (some t) msg = some (w1, r) ∧
      (∀ p, (w1.heap p).map mute = (w.heap p).map mute) ∧ w1.pbx = w.pbx := by
  by_cases hne : u = t
  · subst hne
    obtain rfl : T = U := Option.some.inj (hT.symm.trans hU)
    simp [tu_chat, unlock_pair, mutex_lock, mutex_unlock, notify_state, state_msg, hT,
      hpeer, hstate, Function.update_same, -String.toList]
    split_ifs <;> refine ⟨_, ⟨_, rfl⟩, ?_, rfl⟩ <;> intro p <;>
      by_cases hp : p = u <;> simp [Function.update, hp, hT, mute, hpeer, hstate]
  · have hne2 : t ≠ u := fun h => hne h.symm
    rcases Nat.lt_or_ge t u with h | h
    · simp [tu_chat, lock_pair, unlock_pair, mutex_lock, mutex_unlock, notify_state,
        state_msg, hT, hU, hne, hne2, hpeer, hstate, h, Function.update_same,
        Function.update_noteq, -String.toList]
      split_ifs <;> refine ⟨_, ⟨_, rfl⟩, ?_, rfl⟩ <;> intro p <;>
        by_cases hp : p = u <;> by_cases hq : p = t <;>
          simp [Function.update, hp, hq, hT, hU, hne, hne2, mute, hpeer, hstate]
    · have h3 : ¬ t < u := Nat.not_lt.mpr h
      simp [tu_chat, lock_pair, unlock_pair, mutex_lock, mutex_unlock, notify_state,
        state_msg, hT, hU, hne, hne2, hpeer, hstate, h3, Function.update_same,
        Function.update_noteq, -String.toList]
      split_ifs <;> refine ⟨_, ⟨_, rfl⟩, ?_, rfl⟩ <;> intro p <;>
        by_cases hp : p = u <;> by_cases hq : p = t <;>
          simp [Function.update, hp, hq, hT, hU, hne, hne2, mute, hpeer, hstate]

/-! ## The invariants after each operation -/

/-- The same TU without its sink has the same shape. -/
theorem shape_of_mute {w w1 : World} (h : ∀ p, (w1.heap p).map mute = (w.heap p).map mute) :
    ∀ p, (w1.heap p).map shape = (w.heap p).map shape := by
  intro p
  have := congrArg (Option.map shape) (h p)
  simpa [Option.map_map, Function.comp, shape, mute] using this

/-- The invariants after a change of one TU that has and gets no peer. -/
theorem invariants_single (w w1 : World) (t : Ptr) (T T1 : TU)
    (h1 : I1 w) (h2 : I2 w) (h3 : I3 w) (hT : w.heap t = some T)
    (hheap : w1.heap = Function.update w.heap t (some T1))
    (hp : T.peer = none ∨ T.peer = some t) (hp1 : T1.peer = none)
    (hs1 : ¬ paired T1.state) : I1 w1 ∧ I2 w1 ∧ I3 w1 := by
  refine invariants_local w w1 t t T1 T1 h1 h2 h3 (by simp [hheap]) (by simp [hheap]) ?_ ?_
    (Or.inl ⟨hp1, hs1, hp1, hs1⟩)
  · intro p hpt _
    rw [hheap, Function.update_noteq hpt]
  · refine closed_of_I2 w t t h2 ?_ ?_
    · intro X hX
      obtain rfl := Option.some.inj (hT.symm.trans hX)
      rcases hp with h | h
      · exact Or.inl h
      · exact Or.inr (Or.inl h)
    · intro X hX
      obtain rfl := Option.some.inj (hT.symm.trans hX)
      rcases hp with h | h
      · exact Or.inl h
      · exact Or.inr (Or.inl h)

/-- The invariants after a change of the sink of one TU. -/
theorem invariants_sink (w w1 : World) (t : Ptr) (T : TU) (s : List Char)
    (h1 : I1 w) (h2 : I2 w) (h3 : I3 w) (hT : w.heap t = some T)
    (hheap : w1.heap = Function.update w.heap t (some { T with sink := s })) :
    I1 w1 ∧ I2 w1 ∧ I3 w1 := by
  refine invariants_of_same_shape w w1 (shape_of_mute ?_) h1 h2 h3
  intro p
  rw [hheap]
  exact mute_update w.heap t T s hT p

/-- The invariants after a change of two TUs that are, or were, or become the
peers of each other. -/
theorem invariants_pair (w w1 : World) (t u : Ptr) (T U T1 U1 : TU)
    (h1 : I1 w) (h2 : I2 w) (h3 : I3 w) (hT : w.heap t = some T) (hU : w.heap u = some U)
    (hT1 : w1.heap t = some T1) (hU1 : w1.heap u = some U1)
    (hoth : ∀ p, p ≠ t → p ≠ u → w1.heap p = w.heap p)
    (hp : T.peer = none ∨ T.peer = some u) (hq : U.peer = none ∨ U.peer = some t)
    (hloc : (T1.peer = none ∧ ¬ paired T1.state ∧ U1.peer = none ∧ ¬ paired U1.state) ∨
      (t ≠ u ∧ T1.peer = some u ∧ U1.peer = some t ∧
        ((T1.state = TU_RING_BACK ∧ U1.state = TU_RINGING) ∨
          (T1.state = TU_CONNECTED ∧ U1.state = TU_CONNECTED)))) :
    I1 w1 ∧ I2 w1 ∧ I3 w1 := by
  refine invariants_local w w1 t u T1 U1 h1 h2 h3 hT1 hU1 ?_ ?_ hloc
  · intro p hpt hpu
    rw [hoth p hpt hpu]
  · refine closed_of_I2 w t u h2 ?_ ?_
    · intro X hX
      obtain rfl := Option.some.inj (hT.symm.trans hX)
      rcases hp with h | h
      · exact Or.inl h
      · exact Or.inr (Or.inl h)
    · intro X hX
      obtain rfl := Option.some.inj (hU.symm.trans hX)
      rcases hq with h | h
      · exact Or.inl h
      · exact Or.inr (Or.inl h)

/-- A TU with no peer is in none of the three paired states, and conversely. -/
theorem unpaired_of_I1 {w : World} (h1 : I1 w) {t : Ptr} {T : TU} (hT : w.heap t = some T) :
    (T.peer = none ↔ ¬ paired T.state) := by
  have := h1 t T hT
  constructor
  · intro hp hs
    exact (this.mpr hs) hp
  · intro hs
    by_contra hp
    exact hs (this.mp hp)

/-- When `tu_pickup` returns, the invariants hold as before. -/
theorem tu_pickup_invariants (w w1 : World) (tu : Option Ptr) (r : Int)
    (h1 : I1 w) (h2 : I2 w) (h3 : I3 w) (h : tu_pickup w tu = some (w1, r)) :
    I1 w1 ∧ I2 w1 ∧ I3 w1 := by
  cases tu with
  | none =>
    simp [tu_pickup] at h
    obtain ⟨rfl, _⟩ := h
    exact ⟨h1, h2, h3⟩
  | some t =>
    cases hT : w.heap t with
    | none => simp [tu_pickup, mutex_lock, hT] at h
    | some T =>
      by_cases c1 : T.state = TU_ON_HOOK
      · obtain ⟨w2, s, hw2, hheap, _⟩ := tu_pickup_on_hook_fields w t T hT c1
        rw [hw2] at h
        obtain ⟨rfl, _⟩ := Prod.mk.inj (Option.some.inj h)
        have hp : T.peer = none := (unpaired_of_I1 h1 hT).mpr (by simp [c1, paired])
        exact invariants_single w w2 t T _ h1 h2 h3 hT hheap (Or.inl hp) hp (by simp [paired])
      · by_cases c2 : T.state = TU_RINGING
        · have hpe : T.peer ≠ none := (h1 t T hT).mpr (Or.inl c2)
          obtain ⟨u, hu⟩ := Option.ne_none_iff_exists'.mp hpe
          obtain ⟨U, hU, hUp⟩ := h2 t u T hT hu
          have hne : u ≠ t := by
            rintro rfl
            obtain rfl := Option.some.inj (hT.symm.trans hU)
            rcases h3 u u T T hT hu hT with ⟨a, b⟩ | ⟨a, b⟩ | ⟨a, b⟩
            · rw [a] at b; cases b
            · rw [a] at b; cases b
            · rw [a] at c2; cases c2
          obtain ⟨w2, sT, sU, hw2, hT2, hU2, hoth, _⟩ :=
            tu_pickup_fields w t u T U hT hU hne c2 hu hUp
          rw [hw2] at h
          obtain ⟨rfl, _⟩ := Prod.mk.inj (Option.some.inj h)
          exact invariants_pair w w2 t u T U _ _ h1 h2 h3 hT hU hT2 hU2 hoth (Or.inr hu)
            (Or.inr hUp) (Or.inr ⟨fun e => hne e.symm, hu, hUp, Or.inr ⟨rfl, rfl⟩⟩)
        · obtain ⟨w2, s, hw2, hheap, _⟩ := tu_pickup_other_fields w t T hT c1 c2
            (fun u hu => by
              obtain ⟨U, hU, _⟩ := h2 t u T hT hu
              exact ⟨U, hU⟩)
          rw [hw2] at h
          obtain ⟨rfl, _⟩ := Prod.mk.inj (Option.some.inj h)
          exact invariants_sink w w2 t T s h1 h2 h3 hT hheap

/-- When `tu_hangup` returns, the invariants hold as before and the TU has no
peer. -/
theorem tu_hangup_invariants (w w1 : World) (t : Ptr) (r : Int)
    (h1 : I1 w) (h2 : I2 w) (h3 : I3 w) (h : tu_hangup w (some t) = some (w1, r)) :
    (I1 w1 ∧ I2 w1 ∧ I3 w1) ∧ (∀ T1, w1.heap t = some T1 → T1.peer = none) ∧
      w1.pbx = w.pbx := by
  cases hT : w.heap t with
  | none => simp [tu_hangup, hT] at h
  | some T =>
    by_cases hst : paired T.state
    · have hpe : T.peer ≠ none := (h1 t T hT).mpr hst
      obtain ⟨u, hu⟩ := Option.ne_none_iff_exists'.mp hpe
      obtain ⟨U, hU, hUp⟩ := h2 t u T hT hu
      by_cases hne : u = t
      · subst hne
        obtain ⟨T1, hheap, hp1, hs1, hpbx⟩ := tu_hangup_self w w1 u T r hT hst hu h
        refine ⟨invariants_single w w1 u T T1 h1 h2 h3 hT hheap (Or.inr hu) hp1 hs1, ?_, hpbx⟩
        intro X hX
        rw [hheap, Function.update_same] at hX
        obtain rfl := Option.some.inj hX
        exact hp1
      · by_cases hr : T.refs = 1 ∨ U.refs = 1
        · rw [tu_hangup_last_ref w t u T U hT hU hne hst hu hr] at h
          cases h
        · simp only [not_or] at hr
          obtain ⟨w2, sT, sU, hw2, hT2, hU2, hoth, hpbx⟩ :=
            tu_hangup_paired_fields w t u T U hT hU hne hst hu hr.1 hr.2
          rw [hw2] at h
          obtain ⟨rfl, _⟩ := Prod.mk.inj (Option.some.inj h)
          refine ⟨invariants_pair w w2 t u T U _ _ h1 h2 h3 hT hU hT2 hU2 hoth (Or.inr hu)
            (Or.inr hUp) (Or.inl ⟨rfl, by simp [paired], rfl, ?_⟩), ?_, hpbx⟩
          · split_ifs <;> simp [paired]
          · intro X hX
            rw [hT2] at hX
            obtain rfl := Option.some.inj hX
            rfl
    · have hp : T.peer = none := (unpaired_of_I1 h1 hT).mpr hst
      by_cases c : T.state = TU_ON_HOOK
      · obtain ⟨w2, s, hw2, hheap, hpbx⟩ := tu_hangup_on_hook w t T hT c
        rw [hw2] at h
        obtain ⟨rfl, _⟩ := Prod.mk.inj (Option.some.inj h)
        refine ⟨invariants_sink w w2 t T s h1 h2 h3 hT hheap, ?_, hpbx⟩
        intro X hX
        rw [hheap, Function.update_same] at hX
        obtain rfl := Option.some.inj hX
        exact hp
      · have hsimple : T.state = TU_DIAL_TONE ∨ T.state = TU_BUSY_SIGNAL ∨ T.state = TU_ERROR := by
          cases hs : T.state with
          | TU_ON_HOOK => exact absurd hs c
          | TU_RINGING => exact absurd (Or.inl hs) hst
          | TU_RING_BACK => exact absurd (Or.inr (Or.inl hs)) hst
          | TU_CONNECTED => exact absurd (Or.inr (Or.inr hs)) hst
          | TU_DIAL_TONE => exact Or.inl rfl
          | TU_BUSY_SIGNAL => exact Or.inr (Or.inl rfl)
          | TU_ERROR => exact Or.inr (Or.inr rfl)
        obtain ⟨w2, s, hw2, hheap, hpbx⟩ := tu_hangup_simple w t T hT hsimple
        rw [hw2] at h
        obtain ⟨rfl, _⟩ := Prod.mk.inj (Option.some.inj h)
        refine ⟨invariants_single w w2 t T _ h1 h2 h3 hT hheap (Or.inl hp) hp
          (by simp [paired]), ?_, hpbx⟩
        intro X hX
        rw [hheap, Function.update_same] at hX
        obtain rfl := Option.some.inj hX
        exact hp

/-- When `tu_chat` returns for a connected TU, the invariants hold as before. -/
theorem tu_chat_invariants (w w1 : World) (t : Ptr) (T : TU) (msg : List Char) (r : Int)
    (h1 : I1 w) (h2 : I2 w) (h3 : I3 w) (hT : w.heap t = some T)
    (hst : T.state = TU_CONNECTED) (h : tu_chat w (some t) msg = some (w1, r)) :
    I1 w1 ∧ I2 w1 ∧ I3 w1 := by
  have hpe : T.peer ≠ none := (h1 t T hT).mpr (Or.inr (Or.inr hst))
  obtain ⟨u, hu⟩ := Option.ne_none_iff_exists'.mp hpe
  obtain ⟨U, hU, _⟩ := h2 t u T hT hu
  obtain ⟨w2, r2, hw2, hm, _⟩ := tu_chat_fields w t u T U msg hT hU hst hu
  rw [hw2] at h
  obtain ⟨rfl, _⟩ := Prod.mk.inj (Option.some.inj h)
  exact invariants_of_same_shape w w2 (shape_of_mute hm) h1 h2 h3

/-- When `tu_dial` returns with a target, the target is a live TU. -/
theorem tu_dial_target_live (w : World) (t u : Ptr) (T : TU) (x : World × Int)
    (hT : w.heap t = some T) (h : tu_dial w (some t) (some u) = some x) :
    ∃ U, w.heap u = some U := by
  cases hU : w.heap u with
  | some U => exact ⟨U, rfl⟩
  | none =>
    have hne : t ≠ u := by
      rintro rfl
      rw [hT] at hU
      cases hU
    have hne2 : u ≠ t := fun e => hne e.symm
    by_cases c : t < u
    · simp [tu_dial, lock_pair, mutex_lock, hT, hU, c, hne] at h
    · simp [tu_dial, lock_pair, mutex_lock, hT, hU, c, hne2] at h

/-- When `tu_dial` returns for a caller that has no peer, the invariants hold as
before. -/
theorem tu_dial_invariants (w w1 : World) (t : Ptr) (T : TU) (target : Option Ptr) (r : Int)
    (h1 : I1 w) (h2 : I2 w) (h3 : I3 w) (hT : w.heap t = some T) (hp : T.peer = none)
    (h : tu_dial w (some t) target = some (w1, r)) :
    I1 w1 ∧ I2 w1 ∧ I3 w1 := by
  cases target with
  | none =>
    obtain ⟨w2, s, hw2, hheap, _⟩ := tu_dial_absent_fields w t T hT
    rw [hw2] at h
    obtain ⟨rfl, _⟩ := Prod.mk.inj (Option.some.inj h)
    exact invariants_single w w2 t T _ h1 h2 h3 hT hheap (Or.inl hp) hp (by simp [paired])
  | some u =>
    obtain ⟨U, hU⟩ := tu_dial_target_live w t u T _ hT h
    by_cases hb : U.peer ≠ none ∨ U.state ≠ TU_ON_HOOK ∨ t = u
    · obtain ⟨w2, s, hw2, hheap, _⟩ := tu_dial_busy_fields w t u T U hT hU hb
      rw [hw2] at h
      obtain ⟨rfl, _⟩ := Prod.mk.inj (Option.some.inj h)
      exact invariants_single w w2 t T _ h1 h2 h3 hT hheap (Or.inl hp) hp (by simp [paired])
    · simp only [not_or, not_not] at hb
      have hne : u ≠ t := fun e => hb.2.2 e.symm
      obtain ⟨w2, sT, sU, hw2, hT2, hU2, hoth, _⟩ :=
        tu_dial_fields w t u T U hT hU hne hb.1 hb.2.1
      rw [hw2] at h
      obtain ⟨rfl, _⟩ := Prod.mk.inj (Option.some.inj h)
      exact invariants_pair w w2 t u T U _ _ h1 h2 h3 hT hU hT2 hU2 hoth (Or.inl hp)
        (Or.inl hb.1) (Or.inr ⟨hb.2.2, rfl, rfl, Or.inl ⟨rfl, rfl⟩⟩)

/-- When `tu_unref` returns for a TU that has no peer, the invariants hold as
before, whether the TU is released or not. -/
theorem tu_unref_invariants (w w1 : World) (t : Ptr)
    (h1 : I1 w) (h2 : I2 w) (h3 : I3 w)
    (hp : ∀ T, w.heap t = some T → T.peer = none)
    (h : tu_unref w (some t) = some w1) : I1 w1 ∧ I2 w1 ∧ I3 w1 := by
  cases hT : w.heap t with
  | none => simp [tu_unref, hT] at h
  | some T =>
    by_cases hr : T.refs - 1 = 0
    · simp [tu_unref, hT, hr] at h
      subst h
      refine invariants_of_removal w _ t h1 h2 h3 (by simp) hp ?_
      intro p hpt
      simp [Function.update_noteq hpt]
    · simp [tu_unref, hT, hr] at h
      subst h
      refine invariants_of_same_shape w _ ?_ h1 h2 h3
      intro p
      by_cases hpt : p = t
      · subst hpt
        simp [hT, shape]
      · simp [Function.update_noteq hpt]

/-- When `pbx_unregister` returns, the invariants hold as before. -/
theorem pbx_unregister_invariants (MAX_EXT : Int) (w w1 : World) (tu : Option Ptr) (r : Int)
    (h1 : I1 w) (h2 : I2 w) (h3 : I3 w) (h : pbx_unregister MAX_EXT w tu = some (w1, r)) :
    I1 w1 ∧ I2 w1 ∧ I3 w1 := by
  cases tu with
  | none =>
    simp [pbx_unregister] at h
    obtain ⟨rfl, _⟩ := h
    exact ⟨h1, h2, h3⟩
  | some t =>
    cases hT : w.heap t with
    | none =>
      rw [pbx_unregister_dangling MAX_EXT w t hT] at h
      cases h
    | some T =>
      by_cases hf : T.ext < 0 ∨ MAX_EXT ≤ T.ext ∨ w.pbx.extensions T.ext.toNat ≠ some t
      · rw [pbx_unregister_fail MAX_EXT w t T hT hf] at h
        obtain ⟨rfl, _⟩ := Prod.mk.inj (Option.some.inj h)
        exact ⟨h1, h2, h3⟩
      · simp only [not_or, not_lt, not_le, ne_eq, not_not] at hf
        rw [pbx_unregister_unfold MAX_EXT w t T hT hf.1 hf.2.1 hf.2.2] at h
        obtain ⟨⟨wh, rh⟩, hh, h⟩ := Option.bind_eq_some.mp h
        obtain ⟨w2, hu, h⟩ := Option.bind_eq_some.mp h
        obtain ⟨rfl, _⟩ := Prod.mk.inj (Option.some.inj h)
        obtain ⟨⟨a1, a2, a3⟩, hpn, _⟩ :=
          tu_hangup_invariants (unregister_slot w T.ext.toNat) wh t rh h1 h2 h3 hh
        exact tu_unref_invariants wh w2 t a1 a2 a3 hpn hu

/-- Claim C24: from a state in which I1, I2 and I3 hold, they hold again
whenever `tu_pickup`, `tu_hangup` or `pbx_unregister` returns, for any argument,
whenever `tu_chat` returns for a TU in `CONNECTED`, and whenever `tu_dial`
returns for a caller that has no peer, whatever the target. -/
theorem invariants_preserved (MAX_EXT : Int) (w : World) (h1 : I1 w) (h2 : I2 w) (h3 : I3 w) :
    (∀ tu w1 r, tu_pickup w tu = some (w1, r) → I1 w1 ∧ I2 w1 ∧ I3 w1) ∧
    (∀ tu w1 r, tu_hangup w tu = some (w1, r) → I1 w1 ∧ I2 w1 ∧ I3 w1) ∧
    (∀ tu w1 r, pbx_unregister MAX_EXT w tu = some (w1, r) → I1 w1 ∧ I2 w1 ∧ I3 w1) ∧
    (∀ t T msg w1 r, w.heap t = some T → T.state = TU_CONNECTED →
      tu_chat w (some t) msg = some (w1, r) → I1 w1 ∧ I2 w1 ∧ I3 w1) ∧
    (∀ t T target w1 r, w.heap t = some T → T.peer = none →
      tu_dial w (some t) target = some (w1, r) → I1 w1 ∧ I2 w1 ∧ I3 w1) := by
  refine ⟨fun tu w1 r h => tu_pickup_invariants w w1 tu r h1 h2 h3 h, ?_,
    fun tu w1 r h => pbx_unregister_invariants MAX_EXT w w1 tu r h1 h2 h3 h,
    fun t T msg w1 r hT hs h => tu_chat_invariants w w1 t T msg r h1 h2 h3 hT hs h,
    fun t T target w1 r hT hp h => tu_dial_invariants w w1 t T target r h1 h2 h3 hT hp h⟩
  intro tu w1 r h
  cases tu with
  | none =>
    simp [tu_hangup] at h
    obtain ⟨rfl, _⟩ := h
    exact ⟨h1, h2, h3⟩
  | some t => exact (tu_hangup_invariants w w1 t r h1 h2 h3 h).1

/-- Claim C24 when A, connected to B in `w_connected`, hangs up, and when A dials
B in `w_offhook`: both calls return 0 and the invariants hold afterwards. -/
theorem invariants_preserved_witness :
    (∃ w1, tu_hangup w_connected (some 1) = some (w1, 0) ∧ I1 w1 ∧ I2 w1 ∧ I3 w1) ∧
    (∃ w1, tu_dial w_offhook (some 1) (some 2) = some (w1, 0) ∧ I1 w1 ∧ I2 w1 ∧ I3 w1) := by
  have i1 := invariants_of_checks
    [(1, { tu_a with state := TU_CONNECTED, peer := some 2, refs := 3 }),
     (2, { tu_b with state := TU_CONNECTED, peer := some 1, refs := 3 })]
    [(3, 1), (7, 2)] [.eintr] (by decide) (by decide) (by decide)
  have i2 := invariants_of_checks [(1, tu_a), (2, { tu_b with state := TU_DIAL_TONE })]
    [(3, 1), (7, 2)] [] (by decide) (by decide) (by decide)
  constructor
  · have hs : (tu_hangup w_connected (some 1)).map Prod.snd = some 0 := by decide
    cases hr : tu_hangup w_connected (some 1) with
    | none => rw [hr] at hs; cases hs
    | some x =>
      obtain ⟨w1, r⟩ := x
      rw [hr] at hs
      obtain rfl : r = 0 := Option.some.inj hs
      exact ⟨w1, rfl, (invariants_preserved 1024 w_connected i1.1 i1.2.1 i1.2.2).2.1
        (some 1) w1 0 hr⟩
  · have hs : (tu_dial w_offhook (some 1) (some 2)).map Prod.snd = some 0 := by decide
    cases hr : tu_dial w_offhook (some 1) (some 2) with
    | none => rw [hr] at hs; cases hs
    | some x =>
      obtain ⟨w1, r⟩ := x
      rw [hr] at hs
      obtain rfl : r = 0 := Option.some.inj hs
      exact ⟨w1, rfl, (invariants_preserved 1024 w_offhook i2.1 i2.2.1 i2.2.2).2.2.2.2
        1 tu_a (some 2) w1 0 rfl rfl hr⟩

/-! ## The references of a TU from `tu_init` to its release -/

/-- A world keeps itself. -/
theorem kept_refl (w : World) : kept w w := ⟨keeps_refl w, fun _ => rfl⟩

/-- Two steps that keep registry, extensions and references keep them together. -/
theorem kept_trans {w1 w2 w3 : World} (h12 : kept w1 w2) (h23 : kept w2 w3) : kept w1 w3 :=
  ⟨keeps_trans h12.1 h23.1, fun p => (h23.2 p).trans (h12.2 p)⟩

/-- A TU that is live before a step that keeps the references is live after it,
with the same extension and the same references of driver and registry. -/
theorem kept_forth {w w1 : World} (h : kept w w1) {p : Ptr} {T : TU} (hT : w.heap p = some T) :
    ∃ T1, w1.heap p = some T1 ∧ T1.ext = T.ext ∧ base_refs T1 = base_refs T := by
  have hb := h.2 p
  have he := h.1.2 p
  rw [hT] at hb he
  cases h1 : w1.heap p with
  | none => rw [h1] at hb; cases hb
  | some T1 =>
    rw [h1] at hb he
    exact ⟨T1, rfl, Option.some.inj he, Option.some.inj hb⟩

/-- A TU that is live after a step that keeps the references was live before it. -/
theorem kept_back {w w1 : World} (h : kept w w1) {p : Ptr} {T1 : TU} (hT : w1.heap p = some T1) :
    ∃ T, w.heap p = some T ∧ T1.ext = T.ext ∧ base_refs T1 = base_refs T := by
  have hb := h.2 p
  have he := h.1.2 p
  rw [hT] at hb he
  cases h0 : w.heap p with
  | none => rw [h0] at hb; cases hb
  | some T =>
    rw [h0] at hb he
    exact ⟨T, rfl, Option.some.inj he, Option.some.inj hb⟩

/-- A change of one TU that keeps its extension and its references of driver and
registry. -/
theorem kept_single (w w1 : World) (t : Ptr) (T T1 : TU) (hT : w.heap t = some T)
    (hheap : w1.heap = Function.update w.heap t (some T1)) (hpbx : w1.pbx = w.pbx)
    (hext : T1.ext = T.ext) (hbase : base_refs T1 = base_refs T) : kept w w1 := by
  refine ⟨⟨hpbx, fun p => ?_⟩, fun p => ?_⟩
  · rw [hheap]
    by_cases hp : p = t
    · subst hp; simp [hT, hext]
    · simp [Function.update_noteq hp]
  · rw [hheap]
    by_cases hp : p = t
    · subst hp; simp [hT, hbase]
    · simp [Function.update_noteq hp]

/-- A change of two TUs that keeps their extensions and their references of
driver and registry. -/
theorem kept_pair (w w1 : World) (t u : Ptr) (T U T1 U1 : TU)
    (hT : w.heap t = some T) (hU : w.heap u = some U)
    (hT1 : w1.heap t = some T1) (hU1 : w1.heap u = some U1)
    (hoth : ∀ p, p ≠ t → p ≠ u → w1.heap p = w.heap p) (hpbx : w1.pbx = w.pbx)
    (hext : T1.ext = T.ext ∧ U1.ext = U.ext)
    (hbase : base_refs T1 = base_refs T ∧ base_refs U1 = base_refs U) : kept w w1 := by
  refine ⟨⟨hpbx, fun p => ?_⟩, fun p => ?_⟩
  · by_cases hp : p = t
    · subst hp; simp [hT, hT1, hext.1]
    · by_cases hq : p = u
      · subst hq; simp [hU, hU1, hext.2]
      · rw [hoth p hp hq]
  · by_cases hp : p = t
    · subst hp; simp [hT, hT1, hbase.1]
    · by_cases hq : p = u
      · subst hq; simp [hU, hU1, hbase.2]
      · rw [hoth p hp hq]

/-- A change of sinks keeps extensions and references. -/
theorem kept_mute (w w1 : World) (hm : ∀ p, (w1.heap p).map mute = (w.heap p).map mute)
    (hpbx : w1.pbx = w.pbx) : kept w w1 := by
  refine ⟨⟨hpbx, fun p => ?_⟩, fun p => ?_⟩
  · have := congrArg (Option.map TU.ext) (hm p)
    simpa [Option.map_map, Function.comp, mute] using this
  · have := congrArg (Option.map base_refs) (hm p)
    simpa [Option.map_map, Function.comp, mute, base_refs] using this

/-- After a change of one TU whose new peer is not itself, no TU is its own peer. -/
theorem no_self_single (w w1 : World) (t : Ptr) (T1 : TU) (hn : no_self_peer w)
    (hheap : w1.heap = Function.update w.heap t (some T1)) (hp : T1.peer ≠ some t) :
    no_self_peer w1 := by
  intro p P hP
  rw [hheap] at hP
  by_cases hpt : p = t
  · subst hpt
    rw [Function.update_same] at hP
    obtain rfl := Option.some.inj hP
    exact hp
  · rw [Function.update_noteq hpt] at hP
    exact hn p P hP

/-- After a change of two TUs whose new peers are not themselves, no TU is its
own peer. -/
theorem no_self_pair (w w1 : World) (t u : Ptr) (T1 U1 : TU) (hn : no_self_peer w)
    (hT1 : w1.heap t = some T1) (hU1 : w1.heap u = some U1)
    (hoth : ∀ p, p ≠ t → p ≠ u → w1.heap p = w.heap p)
    (hp : T1.peer ≠ some t) (hq : U1.peer ≠ some u) : no_self_peer w1 := by
  intro p P hP
  by_cases hpt : p = t
  · subst hpt
    rw [hT1] at hP
    obtain rfl := Option.some.inj hP
    exact hp
  · by_cases hpu : p = u
    · subst hpu
      rw [hU1] at hP
      obtain rfl := Option.some.inj hP
      exact hq
    · rw [hoth p hpt hpu] at hP
      exact hn p P hP

/-- After a change of sinks, no TU is its own peer. -/
theorem no_self_mute (w w1 : World) (hn : no_self_peer w)
    (hm : ∀ p, (w1.heap p).map mute = (w.heap p).map mute) : no_self_peer w1 := by
  intro p P hP
  obtain ⟨P0, hP0, _, e2⟩ := shape_back (shape_of_mute hm p) hP
  rw [← e2]
  exact hn p P0 hP0

/-- A step that keeps registry and references leads from a well-formed system
to a well-formed system when the invariants on states and peers hold after it. -/
theorem well_formed_of_kept (w w1 : World) (hw : well_formed w) (hk : kept w w1)
    (h1 : I1 w1) (h2 : I2 w1) (h3 : I3 w1) (hn : no_self_peer w1) : well_formed w1 := by
  obtain ⟨_, _, _, _, hc, hs⟩ := hw
  refine ⟨h1, h2, h3, hn, ?_, ?_⟩
  · intro p T1 hT1
    obtain ⟨T, hT, _, hb⟩ := kept_back hk hT1
    rw [hb]
    exact hc p T hT
  · intro e q hq
    rw [hk.1.1] at hq
    obtain ⟨Q, hQ⟩ := hs e q hq
    obtain ⟨Q1, hQ1, _⟩ := kept_forth hk hQ
    exact ⟨Q1, hQ1⟩

/-- A paired TU of a well-formed system has at least two references. -/
theorem refs_of_paired {w : World} (hw : well_formed w) {t u : Ptr} {T : TU}
    (hT : w.heap t = some T) (hu : T.peer = some u) : T.refs ≠ 1 := by
  have := hw.2.2.2.2.1 t T hT
  simp only [base_refs, hu] at this
  intro h
  rw [h] at this
  simp at this

/-- In a well-formed system `tu_pickup` returns for every live TU and leaves a
well-formed system with the same registry, extensions and references. -/
theorem tu_pickup_step (w : World) (t : Ptr) (T : TU) (hw : well_formed w)
    (hT : w.heap t = some T) :
    ∃ w1 r, tu_pickup w (some t) = some (w1, r) ∧ well_formed w1 ∧ kept w w1 := by
  obtain ⟨h1, h2, h3, hn, _, _⟩ := id hw
  by_cases c1 : T.state = TU_ON_HOOK
  · obtain ⟨w2, s, hw2, hheap, hpbx⟩ := tu_pickup_on_hook_fields w t T hT c1
    obtain ⟨i1, i2, i3⟩ := tu_pickup_invariants w w2 (some t) 0 h1 h2 h3 hw2
    have hk := kept_single w w2 t T _ hT hheap hpbx rfl rfl
    exact ⟨w2, 0, hw2, well_formed_of_kept w w2 hw hk i1 i2 i3
      (no_self_single w w2 t _ hn hheap (hn t T hT)), hk⟩
  · by_cases c2 : T.state = TU_RINGING
    · have hpe : T.peer ≠ none := (h1 t T hT).mpr (Or.inl c2)
      obtain ⟨u, hu⟩ := Option.ne_none_iff_exists'.mp hpe
      obtain ⟨U, hU, hUp⟩ := h2 t u T hT hu
      have hne : u ≠ t := by
        rintro rfl
        exact hn u T hT hu
      obtain ⟨w2, sT, sU, hw2, hT2, hU2, hoth, hpbx⟩ :=
        tu_pickup_fields w t u T U hT hU hne c2 hu hUp
      obtain ⟨i1, i2, i3⟩ := tu_pickup_invariants w w2 (some t) 0 h1 h2 h3 hw2
      have hk := kept_pair w w2 t u T U _ _ hT hU hT2 hU2 hoth hpbx ⟨rfl, rfl⟩ ⟨rfl, rfl⟩
      exact ⟨w2, 0, hw2, well_formed_of_kept w w2 hw hk i1 i2 i3
        (no_self_pair w w2 t u _ _ hn hT2 hU2 hoth (hn t T hT) (hn u U hU)), hk⟩
    · obtain ⟨w2, s, hw2, hheap, hpbx⟩ := tu_pickup_other_fields w t T hT c1 c2
        (fun u hu => by
          obtain ⟨U, hU, _⟩ := h2 t u T hT hu
          exact ⟨U, hU⟩)
      obtain ⟨i1, i2, i3⟩ := tu_pickup_invariants w w2 (some t) 0 h1 h2 h3 hw2
      have hk := kept_single w w2 t T _ hT hheap hpbx rfl rfl
      exact ⟨w2, 0, hw2, well_formed_of_kept w w2 hw hk i1 i2 i3
        (no_self_single w w2 t _ hn hheap (hn t T hT)), hk⟩

/-- In a well-formed system `tu_hangup` returns 0 for every live TU and leaves a
well-formed system with the same registry, extensions and references, in which
the TU has no peer. -/
theorem tu_hangup_step (w : World) (t : Ptr) (T : TU) (hw : well_formed w)
    (hT : w.heap t = some T) :
    ∃ w1, tu_hangup w (some t) = some (w1, 0) ∧ well_formed w1 ∧ kept w w1 ∧
      ∀ T1, w1.heap t = some T1 → T1.peer = none := by
  obtain ⟨h1, h2, h3, hn, _, _⟩ := id hw
  by_cases hst : paired T.state
  · have hpe : T.peer ≠ none := (h1 t T hT).mpr hst
    obtain ⟨u, hu⟩ := Option.ne_none_iff_exists'.mp hpe
    obtain ⟨U, hU, hUp⟩ := h2 t u T hT hu
    have hne : u ≠ t := by
      rintro rfl
      exact hn u T hT hu
    obtain ⟨w2, sT, sU, hw2, hT2, hU2, hoth, hpbx⟩ :=
      tu_hangup_paired_fields w t u T U hT hU hne hst hu (refs_of_paired hw hT hu)
        (refs_of_paired hw hU hUp)
    obtain ⟨⟨i1, i2, i3⟩, hp1, _⟩ := tu_hangup_invariants w w2 t 0 h1 h2 h3 hw2
    have hk := kept_pair w w2 t u T U _ _ hT hU hT2 hU2 hoth hpbx ⟨rfl, rfl⟩
      ⟨by simp [base_refs, hu], by simp [base_refs, hUp]⟩
    exact ⟨w2, hw2, well_formed_of_kept w w2 hw hk i1 i2 i3
      (no_self_pair w w2 t u _ _ hn hT2 hU2 hoth (by simp) (by simp)), hk, hp1⟩
  · obtain ⟨w2, hw2⟩ := tu_hangup_unpaired w t T hT hst
    obtain ⟨⟨i1, i2, i3⟩, hp1, hpbx⟩ := tu_hangup_invariants w w2 t 0 h1 h2 h3 hw2
    have hp : T.peer = none := (unpaired_of_I1 h1 hT).mpr hst
    have hdesc : ∃ T1, w2.heap = Function.update w.heap t (some T1) ∧ T1.ext = T.ext ∧
        T1.refs = T.refs ∧ T1.peer = none := by
      by_cases c : T.state = TU_ON_HOOK
      · obtain ⟨w3, s, hw3, hheap, _⟩ := tu_hangup_on_hook w t T hT c
        rw [hw2] at hw3
        obtain ⟨rfl, _⟩ := Prod.mk.inj (Option.some.inj hw3)
        exact ⟨_, hheap, rfl, rfl, hp⟩
      · have hsimple : T.state = TU_DIAL_TONE ∨ T.state = TU_BUSY_SIGNAL ∨
            T.state = TU_ERROR := by
          cases hs : T.state with
          | TU_ON_HOOK => exact absurd hs c
          | TU_RINGING => exact absurd (Or.inl hs) hst
          | TU_RING_BACK => exact absurd (Or.inr (Or.inl hs)) hst
          | TU_CONNECTED => exact absurd (Or.inr (Or.inr hs)) hst
          | TU_DIAL_TONE => exact Or.inl rfl
          | TU_BUSY_SIGNAL => exact Or.inr (Or.inl rfl)
          | TU_ERROR => exact Or.inr (Or.inr rfl)
        obtain ⟨w3, s, hw3, hheap, _⟩ := tu_hangup_simple w t T hT hsimple
        rw [hw2] at hw3
        obtain ⟨rfl, _⟩ := Prod.mk.inj (Option.some.inj hw3)
        exact ⟨_, hheap, rfl, rfl, hp⟩
    obtain ⟨T1, hheap, e1, e2, e3⟩ := hdesc
    have hk := kept_single w w2 t T T1 hT hheap hpbx e1 (by simp [base_refs, e2, e3, hp])
    exact ⟨w2, hw2, well_formed_of_kept w w2 hw hk i1 i2 i3
      (no_self_single w w2 t T1 hn hheap (by simp [e3])), hk, hp1⟩

/-- In a well-formed system `tu_chat` returns for every connected TU and leaves a
well-formed system with the same registry, extensions and references. -/
theorem tu_chat_step (w : World) (t : Ptr) (T : TU) (msg : List Char) (hw : well_formed w)
    (hT : w.heap t = some T) (hst : T.state = TU_CONNECTED) :
    ∃ w1 r, tu_chat w (some t) msg = some (w1, r) ∧ well_formed w1 ∧ kept w w1 := by
  obtain ⟨h1, h2, h3, hn, _, _⟩ := id hw
  have hpe : T.peer ≠ none := (h1 t T hT).mpr (Or.inr (Or.inr hst))
  obtain ⟨u, hu⟩ := Option.ne_none_iff_exists'.mp hpe
  obtain ⟨U, hU, _⟩ := h2 t u T hT hu
  obtain ⟨w2, r2, hw2, hm, hpbx⟩ := tu_chat_fields w t u T U msg hT hU hst hu
  obtain ⟨i1, i2, i3⟩ := tu_chat_invariants w w2 t T msg r2 h1 h2 h3 hT hst hw2
  have hk := kept_mute w w2 hm hpbx
  exact ⟨w2, r2, hw2, well_formed_of_kept w w2 hw hk i1 i2 i3 (no_self_mute w w2 hn hm), hk⟩

/-- In a well-formed system `tu_dial` returns for every caller that has no peer
and every target that is absent or live, and leaves a well-formed system with
the same registry, extensions and references. -/
theorem tu_dial_step (w : World) (t : Ptr) (T : TU) (target : Option Ptr) (hw : well_formed w)
    (hT : w.heap t = some T) (hp : T.peer = none)
    (hlive : ∀ u, target = some u → ∃ U, w.heap u = some U) :
    ∃ w1 r, tu_dial w (some t) target = some (w1, r) ∧ well_formed w1 ∧ kept w w1 := by
  obtain ⟨h1, h2, h3, hn, _, _⟩ := id hw
  cases target with
  | none =>
    obtain ⟨w2, s, hw2, hheap, hpbx⟩ := tu_dial_absent_fields w t T hT
    obtain ⟨i1, i2, i3⟩ := tu_dial_invariants w w2 t T none (-1) h1 h2 h3 hT hp hw2
    have hk := kept_single w w2 t T _ hT hheap hpbx rfl rfl
    exact ⟨w2, -1, hw2, well_formed_of_kept w w2 hw hk i1 i2 i3
      (no_self_single w w2 t _ hn hheap (hn t T hT)), hk⟩
  | some u =>
    obtain ⟨U, hU⟩ := hlive u rfl
    by_cases hb : U.peer ≠ none ∨ U.state ≠ TU_ON_HOOK ∨ t = u
    · obtain ⟨w2, s, hw2, hheap, hpbx⟩ := tu_dial_busy_fields w t u T U hT hU hb
      obtain ⟨i1, i2, i3⟩ := tu_dial_invariants w w2 t T (some u) 0 h1 h2 h3 hT hp hw2
      have hk := kept_single w w2 t T _ hT hheap hpbx rfl rfl
      exact ⟨w2, 0, hw2, well_formed_of_kept w w2 hw hk i1 i2 i3
        (no_self_single w w2 t _ hn hheap (hn t T hT)), hk⟩
    · simp only [not_or, not_not] at hb
      have hne : u ≠ t := fun e => hb.2.2 e.symm
      obtain ⟨w2, sT, sU, hw2, hT2, hU2, hoth, hpbx⟩ :=
        tu_dial_fields w t u T U hT hU hne hb.1 hb.2.1
      obtain ⟨i1, i2, i3⟩ := tu_dial_invariants w w2 t T (some u) 0 h1 h2 h3 hT hp hw2
      have hk := kept_pair w w2 t u T U _ _ hT hU hT2 hU2 hoth hpbx ⟨rfl, rfl⟩
        ⟨by simp [base_refs, hp], by simp [base_refs, hb.1]⟩
      exact ⟨w2, 0, hw2, well_formed_of_kept w w2 hw hk i1 i2 i3
        (no_self_pair w w2 t u _ _ hn hT2 hU2 hoth (by simpa using hne)
          (by simpa using hb.2.2)), hk⟩

/-- The world that `pbx_dial` leaves is the one that `tu_dial` leaves, called on
the TU found in the slot after the registry has been locked and unlocked. -/
theorem pbx_dial_unfold (MAX_EXT : Int) (w : World) (t : Ptr) (e : Int) :
    (pbx_dial MAX_EXT w (some t) e).map Prod.fst =
      (tu_dial { w with locks := w.locks ++ [.acquire .pbx] ++ [.release .pbx] } (some t)
        (if e ≥ 0 ∧ e < MAX_EXT then w.pbx.extensions e.toNat else none)).map Prod.fst := by
  simp only [pbx_dial, mutex_lock, mutex_unlock, Option.bind_eq_bind, Option.some_bind]
  cases tu_dial { w with locks := w.locks ++ [.acquire .pbx] ++ [.release .pbx] } (some t)
      (if e ≥ 0 ∧ e < MAX_EXT then w.pbx.extensions e.toNat else none) with
  | none => rfl
  | some x =>
    obtain ⟨w1, r⟩ := x
    simp only [Option.some_bind, Option.map_some']
    split_ifs <;> rfl

/-- In a well-formed system every allowed command has a result, and the system
is well-formed afterwards, with the same registry, extensions and references. -/
theorem command_step (MAX_EXT : Int) (w : World) (a : Ptr) (c : Command)
    (hw : well_formed w) (hal : allowed w a c = true) :
    ∃ w1, run_command MAX_EXT w a c = some w1 ∧ well_formed w1 ∧ kept w w1 := by
  cases hA : w.heap a with
  | none => simp [allowed, hA] at hal
  | some A =>
    cases c with
    | pickup =>
      obtain ⟨w1, r, h, hw1, hk⟩ := tu_pickup_step w a A hw hA
      exact ⟨w1, by simp [run_command, h], hw1, hk⟩
    | hangup =>
      obtain ⟨w1, h, hw1, hk, _⟩ := tu_hangup_step w a A hw hA
      exact ⟨w1, by simp [run_command, h], hw1, hk⟩
    | chat msg =>
      have hst : A.state = TU_CONNECTED := by simpa [allowed, hA] using hal
      obtain ⟨w1, r, h, hw1, hk⟩ := tu_chat_step w a A msg hw hA hst
      exact ⟨w1, by simp [run_command, h], hw1, hk⟩
    | dial e =>
      have hp : A.peer = none := by simpa [allowed, hA] using hal
      have hw2 : well_formed
          { w with locks := w.locks ++ [.acquire .pbx] ++ [.release .pbx] } := hw
      obtain ⟨w1, r, h, hw1, hk⟩ := tu_dial_step
        { w with locks := w.locks ++ [.acquire .pbx] ++ [.release .pbx] } a A
        (if e ≥ 0 ∧ e < MAX_EXT then w.pbx.extensions e.toNat else none) hw2 hA hp
        (fun u hu => by
          split_ifs at hu
          exact hw.2.2.2.2.2 _ u hu)
      refine ⟨w1, ?_, hw1, hk⟩
      simp only [run_command]
      rw [pbx_dial_unfold, h]
      rfl

/-- In a well-formed system a sequence of allowed commands has a result, and
the system is well-formed afterwards, with the same registry, extensions and
references. -/
theorem commands_run (MAX_EXT : Int) (cmds : List (Ptr × Command)) :
    ∀ w, well_formed w → allowed_all MAX_EXT w cmds = true →
      ∃ w1, run_commands MAX_EXT w cmds = some w1 ∧ well_formed w1 ∧ kept w w1 := by
  induction cmds with
  | nil =>
    intro w hw _
    exact ⟨w, rfl, hw, kept_refl w⟩
  | cons x rest ih =>
    intro w hw hal
    obtain ⟨a, c⟩ := x
    simp only [allowed_all, Bool.and_eq_true] at hal
    obtain ⟨w1, h1, hw1, hk1⟩ := command_step MAX_EXT w a c hw hal.1
    have hrest : allowed_all MAX_EXT w1 rest = true := by
      have := hal.2
      rw [h1] at this
      exact this
    obtain ⟨w2, h2, hw2, hk2⟩ := ih w1 hw1 hrest
    exact ⟨w2, by simp [run_commands, h1, h2], hw2, kept_trans hk1 hk2⟩

/-- The first commands of an allowed sequence are an allowed sequence. -/
theorem allowed_all_take (MAX_EXT : Int) (cmds : List (Ptr × Command)) :
    ∀ w k, allowed_all MAX_EXT w cmds = true →
      allowed_all MAX_EXT w (cmds.take k) = true := by
  induction cmds with
  | nil => intro w k _; simp [allowed_all]
  | cons x rest ih =>
    intro w k hal
    obtain ⟨a, c⟩ := x
    cases k with
    | zero => simp [allowed_all]
    | succ k =>
      simp only [allowed_all, Bool.and_eq_true, List.take_succ_cons] at hal ⊢
      refine ⟨hal.1, ?_⟩
      cases hr : run_command MAX_EXT w a c with
      | none => simp
      | some w1 =>
        have := hal.2
        rw [hr] at this
        exact ih w1 k this

/-- A TU registered once stays registered once through a step that keeps the
registry, the extensions and the references. -/
theorem registered_at_kept {w w1 : World} {p : Ptr} {e : Int} (h : registered_at w p e)
    (hk : kept w w1) : registered_at w1 p e := by
  obtain ⟨T, hT, he, hb, hs, hu⟩ := h
  obtain ⟨T1, hT1, e1, e2⟩ := kept_forth hk hT
  refine ⟨T1, hT1, e1.trans he, e2.trans hb, ?_, ?_⟩
  · rw [hk.1.1]; exact hs
  · intro i hi
    rw [hk.1.1] at hi
    exact hu i hi

/-- A new TU in a well-formed system: `tu_init` stores a TU with one reference,
on hook, with no peer, and the system is well-formed. -/
theorem tu_init_step (w : World) (fd : Int) (p : Ptr) (hw : well_formed w) (hfd : 0 ≤ fd)
    (hfresh : w.heap p = none) :
    ∃ w1 T, tu_init w fd (some p) = (w1, some p) ∧ well_formed w1 ∧
      w1.heap p = some T ∧ T.peer = none ∧ T.refs = 1 ∧ w1.pbx = w.pbx := by
  obtain ⟨h1, h2, h3, hn, hc, hs⟩ := id hw
  have hfd2 : ¬ fd < 0 := by omega
  obtain ⟨Tn, hTn⟩ : ∃ Tn : TU, Tn =
      { ext := -1, fd := fd, refs := 1, peer := none, state := TU_ON_HOOK, sink := [] } :=
    ⟨_, rfl⟩
  have hinit : tu_init w fd (some p) =
      ({ w with heap := Function.update w.heap p (some Tn) }, some p) := by
    simp [tu_init, hfd2, hTn]
  refine ⟨{ w with heap := Function.update w.heap p (some Tn) }, Tn, hinit, ?_,
    Function.update_same _ _ _, by simp [hTn], by simp [hTn], rfl⟩
  have hI := invariants_local w { w with heap := Function.update w.heap p (some Tn) } p p
    Tn Tn h1 h2 h3 (Function.update_same _ _ _) (Function.update_same _ _ _)
    (fun q hq _ => by simp [Function.update_noteq hq])
    (closed_of_I2 w p p h2 (fun T hT => by rw [hfresh] at hT; cases hT)
      (fun T hT => by rw [hfresh] at hT; cases hT))
    (Or.inl ⟨by simp [hTn], by simp [hTn, paired], by simp [hTn], by simp [hTn, paired]⟩)
  refine ⟨hI.1, hI.2.1, hI.2.2, no_self_single w _ p Tn hn rfl (by simp [hTn]), ?_, ?_⟩
  · intro q Q hQ
    by_cases hq : q = p
    · subst hq
      simp at hQ
      subst hQ
      simp [base_refs, hTn]
    · simp [Function.update_noteq hq] at hQ
      exact hc q Q hQ
  · intro e q hq
    obtain ⟨Q, hQ⟩ := hs e q hq
    have hqp : q ≠ p := by
      rintro rfl
      rw [hfresh] at hQ
      cases hQ
    exact ⟨Q, by simp [Function.update_noteq hqp, hQ]⟩

/-- The registration of a TU that has one reference, no peer and no slot, at a
free extension of a well-formed system: `pbx_register` returns 0, the system is
well-formed and the TU is registered once, with two references. -/
theorem pbx_register_step (MAX_EXT : Int) (w : World) (p : Ptr) (T : TU) (e : Int)
    (hw : well_formed w) (hT : w.heap p = some T) (hp : T.peer = none) (hr : T.refs = 1)
    (hno : ∀ i, w.pbx.extensions i ≠ some p)
    (hsd : w.pbx.shutdown_in_progress = false) (h0 : 0 ≤ e) (h1 : e < MAX_EXT)
    (hfree : w.pbx.extensions e.toNat = none) :
    ∃ w1, pbx_register MAX_EXT w (some p) e = some (w1, 0) ∧ well_formed w1 ∧
      registered_at w1 p e ∧ ∃ T1, w1.heap p = some T1 ∧ T1.refs = 2 := by
  obtain ⟨i1, i2, i3, hn, hc, hs⟩ := id hw
  obtain ⟨l, hl⟩ := pbx_register_ok MAX_EXT w p T e hT hsd h0 h1 hfree
  refine ⟨_, hl, ?_, ?_, ⟨_, Function.update_same _ _ _, by simp [hr]⟩⟩
  · have hI := invariants_of_same_shape w
      { heap := Function.update w.heap p (some { T with
          refs := T.refs + 1, ext := e,
          sink := (sys_write w.script (snprintf 256 (on_hook_line e)) T.sink).2.1 }),
        pbx := { extensions := Function.update w.pbx.extensions e.toNat (some p),
                 shutdown_in_progress := w.pbx.shutdown_in_progress,
                 active_tus := w.pbx.active_tus + 1 },
        script := (sys_write w.script (snprintf 256 (on_hook_line e)) T.sink).1,
        locks := l }
      (fun q => by
        by_cases hq : q = p
        · subst hq; simp [hT, shape]
        · simp [Function.update_noteq hq]) i1 i2 i3
    refine ⟨hI.1, hI.2.1, hI.2.2, no_self_single w _ p _ hn rfl (by simp [hp]), ?_, ?_⟩
    · intro q Q hQ
      by_cases hq : q = p
      · subst hq
        simp at hQ
        subst hQ
        simp [base_refs, hp, hr]
      · simp [Function.update_noteq hq] at hQ
        exact hc q Q hQ
    · intro i q hq
      by_cases hi : i = e.toNat
      · subst hi
        simp at hq
        subst hq
        exact ⟨_, Function.update_same _ _ _⟩
      · simp [Function.update_noteq hi] at hq
        obtain ⟨Q, hQ⟩ := hs i q hq
        have hqp : q ≠ p := by
          rintro rfl
          exact hno i hq
        exact ⟨Q, by simp [Function.update_noteq hqp, hQ]⟩
  · refine ⟨_, Function.update_same _ _ _, rfl, by simp [base_refs, hp, hr],
      Function.update_same _ _ _, ?_⟩
    intro i hi
    by_contra hie
    simp [Function.update_noteq hie] at hi
    exact hno i hi

/-- The end of the service of a TU that is registered once in a well-formed
system: `tu_hangup` and `pbx_unregister` return 0 and leave the TU live, then
with one reference, no peer and no slot, and `tu_unref` releases it. -/
theorem teardown_step (MAX_EXT : Int) (w : World) (p : Ptr) (e : Int)
    (hw : well_formed w) (hreg : registered_at w p e) (h0 : 0 ≤ e) (h1 : e < MAX_EXT) :
    ∃ w4 w5 w6 T4 T5, tu_hangup w (some p) = some (w4, 0) ∧
      pbx_unregister MAX_EXT w4 (some p) = some (w5, 0) ∧ tu_unref w5 (some p) = some w6 ∧
      w4.heap p = some T4 ∧ 1 ≤ T4.refs ∧ w4.pbx.extensions e.toNat = some p ∧
      w5.heap p = some T5 ∧ T5.refs = 1 ∧ T5.peer = none ∧
      (∀ i, w5.pbx.extensions i ≠ some p) ∧ (∀ q Q, w5.heap q = some Q → Q.peer ≠ some p) ∧
      w6.heap p = none := by
  obtain ⟨T, hT, _, _, _, _⟩ := id hreg
  obtain ⟨w4, hh4, hw4, hk4, hp4⟩ := tu_hangup_step w p T hw hT
  obtain ⟨T4, hT4, he4, hb4, hs4, hu4⟩ := registered_at_kept hreg hk4
  have hpe4 := hp4 T4 hT4
  have hr4 : T4.refs = 2 := by simpa [base_refs, hpe4] using hb4
  obtain ⟨i1, i2, i3, hn, hc, hs⟩ := id hw4
  have hwU : well_formed (unregister_slot w4 T4.ext.toNat) := by
    refine ⟨i1, i2, i3, hn, hc, ?_⟩
    intro i q hq
    by_cases hi : i = T4.ext.toNat
    · subst hi
      simp [unregister_slot] at hq
    · simp [unregister_slot, Function.update_noteq hi] at hq
      exact hs i q hq
  have hTU : (unregister_slot w4 T4.ext.toNat).heap p = some T4 := hT4
  obtain ⟨wh, hhh, hwh, hkh, hph⟩ := tu_hangup_step _ p T4 hwU hTU
  obtain ⟨X, hX, _, hbX⟩ := kept_forth hkh hTU
  have hpX := hph X hX
  have hrX : X.refs = 2 := by
    have : base_refs X = 2 := hbX.trans hb4
    simpa [base_refs, hpX] using this
  have hslot : w4.pbx.extensions T4.ext.toNat = some p := by rw [he4]; exact hs4
  obtain ⟨w5, h5, hheap5, hpbx5⟩ := pbx_unregister_finish MAX_EXT w4 p T4 hT4
    (by rw [he4]; exact h0) (by rw [he4]; exact h1) hslot wh 0 X hhh hX (by rw [hrX]; decide)
  have hT5 : w5.heap p = some { X with refs := X.refs - 1 } := by
    rw [hheap5]; simp
  refine ⟨w4, w5, { w5 with heap := Function.update w5.heap p none }, T4, _, hh4, h5, ?_, hT4,
    by rw [hr4]; decide, hs4, hT5, by simp [hrX], hpX, ?_, ?_, ?_⟩
  · simp [tu_unref, hT5, hrX]
  · intro i hi
    rw [hpbx5, hkh.1.1] at hi
    by_cases hie : i = T4.ext.toNat
    · subst hie
      simp [unregister_slot] at hi
    · simp [unregister_slot, Function.update_noteq hie] at hi
      have := hu4 i hi
      rw [he4] at hie
      exact hie this
  · intro q Q hQ hQp
    by_cases hq : q = p
    · subst hq
      rw [hT5] at hQ
      obtain rfl := Option.some.inj hQ
      simp [hpX] at hQp
    · rw [hheap5, Function.update_noteq hq] at hQ
      obtain ⟨P, hP, hPp⟩ := hwh.2.1 q p Q hQ hQp
      rw [hX] at hP
      obtain rfl := Option.some.inj hP
      rw [hpX] at hPp
      cases hPp
  · simp

/-- A slot found in a listed registry is in the list. -/
theorem lookup_mem (slots : List (Nat × Ptr)) (e : Nat) (q : Ptr)
    (h : slots.lookup e = some q) : (e, q) ∈ slots := by
  induction slots with
  | nil => simp at h
  | cons x rest ih =>
    obtain ⟨k, v⟩ := x
    by_cases hk : e = k
    · subst hk
      simp [List.lookup] at h
      subst h
      exact List.mem_cons_self _ _
    · have hb : (e == k) = false := by simpa using hk
      simp only [List.lookup, hb] at h
      exact List.mem_cons_of_mem _ (ih h)

/-- A listed system that passes the tests is well-formed. -/
theorem well_formed_of_checks (tus : List (Ptr × TU)) (slots : List (Nat × Ptr))
    (script : List WriteOutcome) (h1 : check_I1 tus = true) (h2 : check_I2 tus = true)
    (h3 : check_I3 tus = true) (h4 : check_held tus slots = true) :
    well_formed (world_of tus slots script) := by
  obtain ⟨i1, i2, i3⟩ := invariants_of_checks tus slots script h1 h2 h3
  simp only [check_held, Bool.and_eq_true, List.all_eq_true, decide_eq_true_eq] at h4
  refine ⟨i1, i2, i3, ?_, ?_, ?_⟩
  · intro p T hT
    exact (h4.1 (p, T) (heap_of_mem tus p T hT)).1
  · intro p T hT
    exact (h4.1 (p, T) (heap_of_mem tus p T hT)).2
  · intro e q hq
    have := h4.2 (e, q) (lookup_mem slots e q hq)
    exact Option.isSome_iff_exists.mp this

/-- Claim C21: in a well-formed system, for a TU that `tu_init` has created at a
free address and `pbx_register` has registered with success, and for every
sequence of commands `pickup`, `hangup`, `chat` by a connected TU and `dial` by
a TU without a peer, sent by this TU or by other live TUs: every command has a
result, after each of them the TU is live, registered and has at least one
reference, and the calls `tu_hangup`, `pbx_unregister` and `tu_unref` that end
its service return, leave it live with at least one reference until the last
one, then with exactly one reference, no slot, no peer and no TU that has it as
its peer, and the last `tu_unref` releases it. -/
theorem refcount_lifecycle (MAX_EXT : Int) (w0 w1 w2 : World) (fd : Int) (p : Ptr) (e : Int)
    (cmds : List (Ptr × Command))
    (hw : well_formed w0) (hfresh : w0.heap p = none)
    (hinit : tu_init w0 fd (some p) = (w1, some p))
    (hreg : pbx_register MAX_EXT w1 (some p) e = some (w2, 0))
    (hal : allowed_all MAX_EXT w2 cmds = true) :
    (∃ T1 T2, w1.heap p = some T1 ∧ T1.refs = 1 ∧ w2.heap p = some T2 ∧ T2.refs = 2) ∧
    (∀ k, ∃ wk Tk, run_commands MAX_EXT w2 (cmds.take k) = some wk ∧ wk.heap p = some Tk ∧
      1 ≤ Tk.refs ∧ wk.pbx.extensions e.toNat = some p) ∧
    ∃ w3 w4 w5 w6 T4 T5, run_commands MAX_EXT w2 cmds = some w3 ∧
      tu_hangup w3 (some p) = some (w4, 0) ∧
      pbx_unregister MAX_EXT w4 (some p) = some (w5, 0) ∧ tu_unref w5 (some p) = some w6 ∧
      w4.heap p = some T4 ∧ 1 ≤ T4.refs ∧ w4.pbx.extensions e.toNat = some p ∧
      w5.heap p = some T5 ∧ T5.refs = 1 ∧ T5.peer = none ∧
      (∀ i, w5.pbx.extensions i ≠ some p) ∧ (∀ q Q, w5.heap q = some Q → Q.peer ≠ some p) ∧
      w6.heap p = none := by
  have hfd : 0 ≤ fd := by
    by_contra hneg
    have : fd < 0 := by omega
    simp [tu_init, this] at hinit
  obtain ⟨v1, T1, hv1, hw1, hT1, hp1, hr1, hpbx1⟩ := tu_init_step w0 fd p hw hfd hfresh
  rw [hinit] at hv1
  obtain rfl : w1 = v1 := (Prod.mk.inj hv1).1
  have hno : ∀ i, w1.pbx.extensions i ≠ some p := by
    intro i hi
    rw [hpbx1] at hi
    obtain ⟨Q, hQ⟩ := hw.2.2.2.2.2 i p hi
    rw [hfresh] at hQ
    cases hQ
  have hcond : ¬ (w1.pbx.shutdown_in_progress = true ∨ e < 0 ∨ MAX_EXT ≤ e ∨
      w1.pbx.extensions e.toNat ≠ none) := by
    intro hc
    obtain ⟨l, hl⟩ := pbx_register_fail MAX_EXT w1 p e hc
    rw [hreg] at hl
    have := (Prod.mk.inj (Option.some.inj hl)).2
    exact absurd this (by decide)
  simp only [not_or, not_le, not_lt, ne_eq, not_not, Bool.not_eq_true] at hcond
  obtain ⟨v2, hv2, hw2, hreg2, T2, hT2, hr2⟩ := pbx_register_step MAX_EXT w1 p T1 e hw1 hT1 hp1
    hr1 hno hcond.1 hcond.2.1 hcond.2.2.1 hcond.2.2.2
  rw [hreg] at hv2
  obtain rfl : w2 = v2 := (Prod.mk.inj (Option.some.inj hv2)).1
  refine ⟨⟨T1, T2, hT1, hr1, hT2, hr2⟩, ?_, ?_⟩
  · intro k
    obtain ⟨wk, hrun, _, hk⟩ := commands_run MAX_EXT (cmds.take k) w2 hw2
      (allowed_all_take MAX_EXT cmds w2 k hal)
    obtain ⟨Tk, hTk, _, hb, hs, _⟩ := registered_at_kept hreg2 hk
    refine ⟨wk, Tk, hrun, hTk, ?_, hs⟩
    simp only [base_refs] at hb
    split_ifs at hb <;> omega
  · obtain ⟨w3, hrun, hw3, hk⟩ := commands_run MAX_EXT cmds w2 hw2 hal
    obtain ⟨w4, w5, w6, T4, T5, rest⟩ := teardown_step MAX_EXT w3 p e hw3
      (registered_at_kept hreg2 hk) hcond.2.1 hcond.2.2.1
    exact ⟨w3, w4, w5, w6, T4, T5, hrun, rest⟩

/-- Claim C21 on a third TU that enters `w_idle` on the descriptor 9 at the
extension 9, picks up, dials B, is answered, chats while A dials it, and leaves
while it is connected to B. -/
theorem refcount_lifecycle_witness :
    ∃ w2, pbx_register 1024 (tu_init w_idle 9 (some 3)).1 (some 3) 9 = some (w2, 0) ∧
      ∃ w3 w4 w5 w6 T4 T5,
        run_commands 1024 w2 [(3, .pickup), (3, .dial 7), (2, .pickup),
          (3, .chat "hi".toList), (1, .dial 9)] = some w3 ∧
        tu_hangup w3 (some 3) = some (w4, 0) ∧
        pbx_unregister 1024 w4 (some 3) = some (w5, 0) ∧ tu_unref w5 (some 3) = some w6 ∧
        w4.heap 3 = some T4 ∧ 1 ≤ T4.refs ∧ w4.pbx.extensions (9 : Int).toNat = some 3 ∧
        w5.heap 3 = some T5 ∧ T5.refs = 1 ∧ T5.peer = none ∧
        (∀ i, w5.pbx.extensions i ≠ some 3) ∧ (∀ q Q, w5.heap q = some Q → Q.peer ≠ some 3) ∧
        w6.heap 3 = none :=
  ⟨_, rfl, (refcount_lifecycle 1024 w_idle _ _ 9 3 9
    [(3, .pickup), (3, .dial 7), (2, .pickup), (3, .chat "hi".toList), (1, .dial 9)]
    (well_formed_of_checks _ _ _ (by decide) (by decide) (by decide) (by decide)) rfl rfl rfl
    (by decide)).2.2⟩

end Pbx
